import Mathlib

/-!
# core-engine: the transform-node scene graph

A shallow embedding of `Node` (src/core/include/Node.h, src/core/src/Node.cpp), of
`CameraNode` (CameraNode.h, CameraNode.cpp), of the traversal `Render` (Node.cpp,
CameraNode.cpp, GeometryNode.cpp) and of `Timer` (Timer.h, Timer.cpp).

Modelling conventions.

* A `float` is a rational (`ℚ`): every finite binary32 value is one.
* `Node::Update` is modelled in binary32 arithmetic.  Each of its operations (the products
  with the frame time, the sums, the subtractions and additions of the wrapping loops) is
  the exact result rounded to the nearest binary32 value, ties to even (`f32round`,
  `f32op`); the operations are rounded one by one, as a build without fused multiply-add
  does.  Infinities, NaN and subnormal numbers are outside the model: an operation of
  `Update` that would produce one makes the call `none`.
* The two wrapping loops of `Update` are bounded by a loop-fuel argument; a loop that has
  not ended within the bound makes the call `none`.  A loop that has not ended within any
  bound never ends, and the call does not return.
* The matrix product of `GetWorldMatrix`, the camera and the timer are modelled in exact
  arithmetic (no rounding).
* `glm::mat4` is indexed as in the source: `m.entry c r` is `m[c][r]`, so the translation
  lives in `m[3][0]`, `m[3][1]`, `m[3][2]`.
* The glm library is not part of the repository.  Its constant `two_pi` and its functions
  `rotate` and `normalize` are parameters of the model, gathered in `Glm`.
* Nodes live in a heap (a list of node records); a pointer is an index into it, a null
  pointer is `none`.  Dereferencing a pointer that names no record is a fault (`none`).
* Recursion through pointers (`Update`, `FindNode`, `GetWorldMatrix`, `Render`) is bounded
  by a fuel argument; running out of fuel is reported as `none`.
* The camera's library calls (`perspective`, `inverse`, `lookAt`) are parameters as well,
  gathered in `GlmCamera`; what a theorem needs of them is a hypothesis of the theorem.
  The definitions `glmPerspective`, `glmLookAt` and `Mat4.inverseExact` give the library's
  own definitions in exact arithmetic.
-/

namespace CoreEngine

/-! ## Vectors and matrices -/

/-- The type glm::vec3. -/
structure Vec3 where
  x : ℚ
  y : ℚ
  z : ℚ
deriving DecidableEq

/-- The type glm::mat4; `entry c r` is the source's `m[c][r]`. -/
@[ext]
structure Mat4 where
  entry : Fin 4 → Fin 4 → ℚ
deriving DecidableEq

/-- The matrix `glm::mat4(1.0f)`. -/
def Mat4.identity : Mat4 := ⟨fun c r => if c = r then 1 else 0⟩

/-- The product `a * b` of glm: column `c` of the result is
`a[0] * b[c][0] + a[1] * b[c][1] + a[2] * b[c][2] + a[3] * b[c][3]`. -/
def Mat4.mul (a b : Mat4) : Mat4 :=
  ⟨fun c r => a.entry 0 r * b.entry c 0 + a.entry 1 r * b.entry c 1
    + a.entry 2 r * b.entry c 2 + a.entry 3 r * b.entry c 3⟩

instance : Mul Mat4 := ⟨Mat4.mul⟩

/-- The parts of the glm library the node code calls. -/
structure Glm where
  /-- The constant `glm::two_pi<float>()`. -/
  two_pi : ℚ
  /-- The constant is positive. -/
  two_pi_pos : 0 < two_pi
  /-- The function `glm::rotate(m, angle, axis)`. -/
  rotate : Mat4 → ℚ → Vec3 → Mat4
  /-- The function `glm::normalize(v)`. -/
  normalize : Vec3 → Vec3

/-! ## Node records -/

/-- A pointer to a node: an index into the heap. -/
abbrev Ptr := Nat

/-- The fields of `class Node`. -/
structure Node where
  m_mModel : Mat4
  m_pParent : Option Ptr
  m_arrNodes : List Ptr
  m_vVelocity : Vec3
  m_vRotationAxis : Vec3
  m_fRotationAngle : ℚ
  m_fRotationSpeed : ℚ
  m_fRadius : ℚ
  m_strName : String
deriving DecidableEq

/-- The heap of nodes. -/
abbrev Heap := List Node

/-- The constructor `Node::Node(name)`; `Node::Node()` is `Node.create ""`. -/
def Node.create (name : String) : Node :=
  { m_mModel := Mat4.identity
    m_pParent := none
    m_arrNodes := []
    m_vVelocity := ⟨0, 0, 0⟩
    m_vRotationAxis := ⟨0, 0, -1⟩
    m_fRotationAngle := 0
    m_fRotationSpeed := 0
    m_fRadius := 1
    m_strName := name }

/-- The method `Node::SetPos(pos)`: writes `m_mModel[3][0..2]`. -/
def Node.SetPos (n : Node) (pos : Vec3) : Node :=
  { n with m_mModel := ⟨fun c r =>
      if c = 3 ∧ r = 0 then pos.x
      else if c = 3 ∧ r = 1 then pos.y
      else if c = 3 ∧ r = 2 then pos.z
      else n.m_mModel.entry c r⟩ }

/-- The method `Node::GetPos()`: the first three entries of `m_mModel[3]`. -/
def Node.GetPos (n : Node) : Vec3 :=
  ⟨n.m_mModel.entry 3 0, n.m_mModel.entry 3 1, n.m_mModel.entry 3 2⟩

/-- The method `Node::SetMatrix(m)`. -/
def Node.SetMatrix (n : Node) (m : Mat4) : Node := { n with m_mModel := m }

/-- The method `Node::RotateAxisAngle(axis, angle)`. -/
def Node.RotateAxisAngle (G : Glm) (n : Node) (axis : Vec3) (angle : ℚ) : Node :=
  let n1 : Node := { n with m_vRotationAxis := G.normalize axis, m_fRotationAngle := angle }
  let pos := n1.GetPos
  let n2 : Node :=
    { n1 with m_mModel := G.rotate Mat4.identity n1.m_fRotationAngle n1.m_vRotationAxis }
  n2.SetPos pos

/-- The method `Node::SetRotationAxis(axis)`. -/
def Node.SetRotationAxis (G : Glm) (n : Node) (axis : Vec3) : Node :=
  n.RotateAxisAngle G axis n.m_fRotationAngle

/-- The method `Node::SetRotationAngle(angle)`. -/
def Node.SetRotationAngle (G : Glm) (n : Node) (angle : ℚ) : Node :=
  n.RotateAxisAngle G n.m_vRotationAxis angle

/-- The method `Node::SetRotationSpeed(speed)`. -/
def Node.SetRotationSpeed (n : Node) (speed : ℚ) : Node := { n with m_fRotationSpeed := speed }

/-- The method `Node::SetRadius(radius)`. -/
def Node.SetRadius (n : Node) (radius : ℚ) : Node := { n with m_fRadius := radius }

/-- The method `Node::SetName(name)`. -/
def Node.SetName (n : Node) (name : String) : Node := { n with m_strName := name }

/-! ## Binary32 arithmetic -/

/-- Rounding of a rational to the nearest integer, a tie going to the even one. -/
def roundHalfEven (y : ℚ) : ℤ :=
  if y - ⌊y⌋ < 1 / 2 then ⌊y⌋
  else if 1 / 2 < y - ⌊y⌋ then ⌊y⌋ + 1
  else if ⌊y⌋ % 2 = 0 then ⌊y⌋ else ⌊y⌋ + 1

/-- Rounding of a rational to the nearest binary32 value, ties to even: 24 significant
bits (overflow and subnormal values are not modelled). -/
def f32round (x : ℚ) : ℚ :=
  if x = 0 then 0
  else (roundHalfEven (x / (2 : ℚ) ^ (Int.log 2 |x| - 23)) : ℚ) * (2 : ℚ) ^ (Int.log 2 |x| - 23)

/-- The loop `while (m_fRotationAngle > pi2) m_fRotationAngle -= pi2;` in binary32
arithmetic: every subtraction is rounded.  The result is `none` when the loop has not
ended after `fuel` iterations. -/
def wrapAboveF32 (pi2 : ℚ) : Nat → ℚ → Option ℚ
  | 0, _ => none
  | fuel + 1, a => if a > pi2 then wrapAboveF32 pi2 fuel (f32round (a - pi2)) else some a

/-- The loop `while (m_fRotationAngle < -pi2) m_fRotationAngle += pi2;` in binary32
arithmetic: every addition is rounded.  The result is `none` when the loop has not ended
after `fuel` iterations. -/
def wrapBelowF32 (pi2 : ℚ) : Nat → ℚ → Option ℚ
  | 0, _ => none
  | fuel + 1, a => if a < -pi2 then wrapBelowF32 pi2 fuel (f32round (a + pi2)) else some a

/-- One binary32 operation whose exact result is `x`: the result is `x` rounded to the
nearest binary32 value.  It is `none` when the operation leaves the normal range of
binary32, that is when `x` is not zero and lies below `2^-126` in magnitude, or when the
rounded value reaches `2^128` in magnitude: subnormal results, infinities and NaN are
outside the model. -/
def f32op (x : ℚ) : Option ℚ :=
  if x = 0 ∨ ((2 : ℚ) ^ (-126 : ℤ) ≤ |x| ∧ |f32round x| < (2 : ℚ) ^ (128 : ℤ)) then
    some (f32round x)
  else none

/-- The rational `x` is a binary32 value: zero, or a normal number of 24 significant bits
in the range of binary32. -/
def IsF32 (x : ℚ) : Prop := f32op x = some x

instance (x : ℚ) : Decidable (IsF32 x) := by
  unfold IsF32; infer_instance

/-- Vector times scalar in binary32 (`vec3 * float`): every component product is one
rounded operation. -/
def Vec3.scaleF32 (v : Vec3) (s : ℚ) : Option Vec3 :=
  match f32op (v.x * s), f32op (v.y * s), f32op (v.z * s) with
  | some x, some y, some z => some ⟨x, y, z⟩
  | _, _, _ => none

/-- Component-wise sum of two vectors in binary32 (`operator+=`): every component sum is
one rounded operation. -/
def Vec3.addF32 (a b : Vec3) : Option Vec3 :=
  match f32op (a.x + b.x), f32op (a.y + b.y), f32op (a.z + b.z) with
  | some x, some y, some z => some ⟨x, y, z⟩
  | _, _, _ => none

/-! ## Update -/

/-- The angle part of `Node::Update` in binary32:
`m_fRotationAngle += m_fRotationSpeed * frametime;` (a rounded product, then a rounded
sum), then the loop `while (m_fRotationAngle > pi2) m_fRotationAngle -= pi2;`, then the
loop `while (m_fRotationAngle < -pi2) m_fRotationAngle += pi2;`.  The result is `none`
when the product or the sum leaves the normal range, or when one of the loops has not
ended after `loopFuel` iterations. -/
def advanceAngle (pi2 : ℚ) (loopFuel : Nat) (angle speed frametime : ℚ) : Option ℚ :=
  match f32op (speed * frametime) with
  | none => none
  | some step =>
    match f32op (angle + step) with
    | none => none
    | some advanced =>
      match wrapAboveF32 pi2 loopFuel advanced with
      | none => none
      | some a => wrapBelowF32 pi2 loopFuel a

/-- The body of `Node::Update` acting on the node itself (everything before the loop over
the children), in binary32: integrate the position, rebuild the matrix and advance the
angle when the angular speed is not zero, write the position back.  The result is `none`
when an operation leaves the normal range of binary32 or a wrapping loop has not ended
after `loopFuel` iterations. -/
def Node.UpdateSelf (G : Glm) (loopFuel : Nat) (frametime : ℚ) (n : Node) : Option Node :=
  match n.m_vVelocity.scaleF32 frametime with
  | none => none
  | some step =>
    match n.GetPos.addF32 step with
    | none => none
    | some pos =>
      if n.m_fRotationSpeed ≠ 0 then
        match advanceAngle G.two_pi loopFuel n.m_fRotationAngle n.m_fRotationSpeed
            frametime with
        | none => none
        | some a =>
          some (({ n with
            m_mModel := G.rotate Mat4.identity n.m_fRotationAngle n.m_vRotationAxis
            m_fRotationAngle := a } : Node).SetPos pos)
      else some (n.SetPos pos)

/-- The method `Node::Update(frametime)` on the node `this` of heap `h`: update the node
itself, then every child in order.  The result is the heap after the call; it is `none`
when the call does not return one within the model (a dangling pointer, recursion deeper
than `fuel`, or a node whose own update is `none`).  The only override in the repository,
`CameraNode::Update`, calls this method and does nothing else, so every node of a scene
is updated by it. -/
def Update (G : Glm) (loopFuel : Nat) : Nat → ℚ → Heap → Ptr → Option Heap
  | 0, _, _, _ => none
  | fuel + 1, frametime, h, this =>
    match h[this]? with
    | none => none
    | some n =>
      match n.UpdateSelf G loopFuel frametime with
      | none => none
      | some n1 =>
        n.m_arrNodes.foldlM (fun g node => Update G loopFuel fuel frametime g node)
          (h.set this n1)

/-- Calling `Update(frametime)` on `this` the given number of times in a row. -/
def UpdateN (G : Glm) (loopFuel fuel : Nat) (frametime : ℚ) (this : Ptr) :
    Nat → Heap → Option Heap
  | 0, h => some h
  | k + 1, h =>
    (Update G loopFuel fuel frametime h this).bind (UpdateN G loopFuel fuel frametime this k)

/-- The node's own update, the given number of times in a row. -/
def Node.UpdateSelfN (G : Glm) (loopFuel : Nat) (frametime : ℚ) : Nat → Node → Option Node
  | 0, n => some n
  | k + 1, n =>
    (n.UpdateSelf G loopFuel frametime).bind (Node.UpdateSelfN G loopFuel frametime k)

/-- The heap `h2` is `h1` with the partial function `f` applied to every node listed in
`l` (`f` returns a node on each of them) and every other node untouched. -/
def UpdatedBy (f : Node → Option Node) (l : List Ptr) (h1 h2 : Heap) : Prop :=
  ∀ q : Ptr, (q ∈ l → ∃ m m2, h1[q]? = some m ∧ f m = some m2 ∧ h2[q]? = some m2) ∧
    (q ∉ l → h2[q]? = h1[q]?)

/-! ## World matrix, lookup, attachment -/

/-- The method `Node::GetWorldMatrix()` on the node `this` of heap `h`. -/
def GetWorldMatrix : Nat → Heap → Ptr → Option Mat4
  | 0, _, _ => none
  | fuel + 1, h, this =>
    match h[this]? with
    | none => none
    | some n =>
      match n.m_pParent with
      | some parent => (GetWorldMatrix fuel h parent).map (fun w => w * n.m_mModel)
      | none => some n.m_mModel

/-- The loop of `Node::FindNode` over the children: the first child whose search returns a
non-null pointer decides; null when no child does. -/
def findLoop (find : Ptr → Option (Option Ptr)) : List Ptr → Option (Option Ptr)
  | [] => some none
  | node :: rest =>
    match find node with
    | none => none
    | some (some n) => some (some n)
    | some none => findLoop find rest

/-- The method `Node::FindNode(name)` on the node `this` of heap `h`.  The outer option is
the fault channel; the inner one is the returned pointer (`none` is `nullptr`). -/
def FindNode : Nat → Heap → String → Ptr → Option (Option Ptr)
  | 0, _, _, _ => none
  | fuel + 1, h, name, this =>
    match h[this]? with
    | none => none
    | some n =>
      if n.m_strName = name then some (some this)
      else findLoop (FindNode fuel h name) n.m_arrNodes

/-- The method `Node::AddNode(node)` called on `this`: first `node->m_pParent = this`, then
`m_arrNodes.push_back(node)`. -/
def AddNode (h : Heap) (this node : Ptr) : Option Heap :=
  match h[node]? with
  | none => none
  | some x =>
    let h1 := h.set node { x with m_pParent := some this }
    match h1[this]? with
    | none => none
    | some t => some (h1.set this { t with m_arrNodes := t.m_arrNodes ++ [node] })

/-! ## Specification vocabulary -/

/-- Concatenation of the pre-order listings of a list of children. -/
def subtreeList (sub : Ptr → Option (List Ptr)) : List Ptr → Option (List Ptr)
  | [] => some []
  | c :: cs =>
    match sub c with
    | none => none
    | some l =>
      match subtreeList sub cs with
      | none => none
      | some ls => some (l ++ ls)

/-- The nodes of the subtree rooted at `p`, in depth-first pre-order: `p` first, then the
subtree of each child in the order of `m_arrNodes`.  It is `none` when the children
relation below `p` does not unfold to a finite structure within `fuel` levels or reaches a
pointer that names no node. -/
def subtree : Nat → Heap → Ptr → Option (List Ptr)
  | 0, _, _ => none
  | fuel + 1, h, p =>
    match h[p]? with
    | none => none
    | some n =>
      match subtreeList (subtree fuel h) n.m_arrNodes with
      | none => none
      | some ls => some (p :: ls)

/-- The children relation below `p` is a finite tree whose nodes, in pre-order, are `l`:
the unfolding is finite and reaches no node twice. -/
def IsTree (fuel : Nat) (h : Heap) (p : Ptr) (l : List Ptr) : Prop :=
  subtree fuel h p = some l ∧ l.Nodup

instance (fuel : Nat) (h : Heap) (p : Ptr) (l : List Ptr) : Decidable (IsTree fuel h p l) := by
  unfold IsTree; infer_instance

/-- The name of the node at `p`. -/
def nameAt (h : Heap) (p : Ptr) : Option String := (h[p]?).map (fun n => n.m_strName)

/-- The local matrix of the node at `p` (the identity when `p` names no node). -/
def localAt (h : Heap) (p : Ptr) : Mat4 :=
  match h[p]? with
  | some n => n.m_mModel
  | none => Mat4.identity

/-- The list `chain` is a chain of parent back-references hanging below `prev`: its first
node has parent `prev`, and every later node has the node before it as parent. -/
def isParentChain (h : Heap) : Option Ptr → List Ptr → Bool
  | _, [] => true
  | prev, a :: rest =>
    match h[a]? with
    | none => false
    | some n => decide (n.m_pParent = prev) && isParentChain h (some a) rest

/-- The ordered product `acc * Local(a1) * ... * Local(ak)`, multiplied from the left. -/
def chainProduct (h : Heap) (acc : Mat4) : List Ptr → Mat4
  | [] => acc
  | a :: rest => chainProduct h (acc * localAt h a) rest

/-! ## Sample data -/

/-- The binary32 value of `glm::two_pi<float>()`: 13176795 / 2^21. -/
def twoPiF : ℚ := 13176795 / 2097152

/-- The library with `two_pi` the binary32 value and the given `rotate` and `normalize`. -/
def glmWith (rot : Mat4 → ℚ → Vec3 → Mat4) (nrm : Vec3 → Vec3) : Glm :=
  { two_pi := twoPiF
    two_pi_pos := by unfold twoPiF; norm_num
    rotate := rot
    normalize := nrm }

/-- An instance of the library for evaluating examples: `two_pi` is the binary32 value;
`rotate` and `normalize` stand for a rotation by a zero angle and an axis that is already
of unit length. -/
def sampleGlm : Glm := glmWith (fun m _ _ => m) (fun v => v)

/-- A scene of five nodes: `root` owns `arm` and a node `x`; `arm` owns `hand`, which owns
another node `x`.  In pre-order: 0, 1, 2, 3, 4. -/
def sampleHeap : Heap :=
  [ { Node.create "root" with
        m_arrNodes := [1, 4], m_vVelocity := ⟨1, 0, 0⟩ },
    { Node.create "arm" with
        m_pParent := some 0, m_arrNodes := [2], m_vVelocity := ⟨0, 2, 0⟩,
        m_fRotationAngle := 1 / 2, m_fRotationSpeed := 1 },
    { Node.create "hand" with
        m_pParent := some 1, m_arrNodes := [3],
        m_mModel := ⟨fun c r => if c = 3 then (if r = 3 then 1 else 5) else if c = r then 2 else 0⟩ },
    { Node.create "x" with
        m_pParent := some 2, m_vVelocity := ⟨0, 0, 3⟩ },
    { Node.create "x" with
        m_pParent := some 0, m_fRotationSpeed := -4 } ]

/-- A stand-in for `glm::rotate(m, angle, axis)` for evaluating examples: the matrix that
glm builds from `cos angle`, `sin angle` and an axis that is already of unit length, with
the polynomials `1 - angle^2 / 2` and `angle` in place of the cosine and the sine. -/
def sampleRotate (m : Mat4) (angle : ℚ) (axis : Vec3) : Mat4 :=
  let c : ℚ := 1 - angle * angle / 2
  let s : ℚ := angle
  let t : Vec3 := ⟨(1 - c) * axis.x, (1 - c) * axis.y, (1 - c) * axis.z⟩
  m * ⟨fun i j =>
    if i = 0 ∧ j = 0 then c + t.x * axis.x
    else if i = 0 ∧ j = 1 then t.x * axis.y + s * axis.z
    else if i = 0 ∧ j = 2 then t.x * axis.z - s * axis.y
    else if i = 1 ∧ j = 0 then t.y * axis.x - s * axis.z
    else if i = 1 ∧ j = 1 then c + t.y * axis.y
    else if i = 1 ∧ j = 2 then t.y * axis.z + s * axis.x
    else if i = 2 ∧ j = 0 then t.z * axis.x + s * axis.y
    else if i = 2 ∧ j = 1 then t.z * axis.y - s * axis.x
    else if i = 2 ∧ j = 2 then c + t.z * axis.z
    else if i = 3 ∧ j = 3 then 1
    else 0⟩

/-- An instance of the library whose `rotate` depends on the angle and on the axis. -/
def turnGlm : Glm := glmWith sampleRotate (fun v => v)

/-- The binary32 value nearest to one third: 11184811 / 2^25. -/
def thirdF : ℚ := 11184811 / 33554432

/-- The state reached by `Node n; n.SetRotationSpeed(3);`, alone in the heap. -/
def tripleSpinHeap : Heap := [(Node.create "").SetRotationSpeed 3]

/-- The state reached by `Node n; n.SetRotationAngle(268435456); n.SetRotationSpeed(1);`,
alone in the heap (268435456 is `2^28`). -/
def hugeAngleHeap (G : Glm) : Heap :=
  [((Node.create "").SetRotationAngle G 268435456).SetRotationSpeed 1]

/-- Two node records agree on local matrix, velocity, rotation state, radius and name. -/
def Node.sameBody (a b : Node) : Prop :=
  a.m_mModel = b.m_mModel ∧ a.m_vVelocity = b.m_vVelocity ∧
  a.m_vRotationAxis = b.m_vRotationAxis ∧ a.m_fRotationAngle = b.m_fRotationAngle ∧
  a.m_fRotationSpeed = b.m_fRotationSpeed ∧ a.m_fRadius = b.m_fRadius ∧
  a.m_strName = b.m_strName

/-! ## Sequences of attachments -/

/-- A sequence of calls `P.AddNode(X)`, each written as the pair `(P, X)`, run in order. -/
def AddNodes : Heap → List (Ptr × Ptr) → Option Heap
  | h, [] => some h
  | h, (P, X) :: rest =>
    match AddNode h P X with
    | none => none
    | some h2 => AddNodes h2 rest

/-- No node occurs in the child lists of two different nodes, nor twice in one child
list. -/
def AtMostOneParent (h : Heap) : Prop :=
  (∀ (x P Q : Ptr) (p q : Node), h[P]? = some p → h[Q]? = some q →
      x ∈ p.m_arrNodes → x ∈ q.m_arrNodes → P = Q) ∧
  (∀ (x P : Ptr) (p : Node), h[P]? = some p → p.m_arrNodes.count x ≤ 1)

/-- Running the calls from `h`, every call `P.AddNode(X)` finds the parent
back-reference of `X` unset, so that no call overwrites a back-reference. -/
def ParentsSetOnce : Heap → List (Ptr × Ptr) → Prop
  | _, [] => True
  | h, (P, X) :: rest =>
    (∃ x, h[X]? = some x ∧ x.m_pParent = none) ∧
      ∀ h2, AddNode h P X = some h2 → ParentsSetOnce h2 rest

/-- Every node of the heap is detached: no parent, no children. -/
def AllDetached (h : Heap) : Prop :=
  ∀ n ∈ h, n.m_pParent = none ∧ n.m_arrNodes = []

/-! ## The camera node -/

/-- The type glm::vec4. -/
structure Vec4 where
  x : ℚ
  y : ℚ
  z : ℚ
  w : ℚ
deriving DecidableEq

/-- Dot product of two vectors (`glm::dot`). -/
def Vec3.dot (a b : Vec3) : ℚ := a.x * b.x + a.y * b.y + a.z * b.z

/-- The parts of the glm library the camera code calls. -/
structure GlmCamera where
  /-- The constant `glm::half_pi<float>()`. -/
  half_pi : ℚ
  /-- The function `glm::perspective(fovy, aspect, zNear, zFar)`. -/
  perspective : ℚ → ℚ → ℚ → ℚ → Mat4
  /-- The function `glm::inverse(m)`. -/
  inverse : Mat4 → Mat4
  /-- The function `glm::lookAt(eye, center, up)`. -/
  lookAt : Vec3 → Vec3 → Vec3 → Mat4

/-- The fields of `class CameraNode`, a `Node` with a projection. -/
structure CameraNode extends Node where
  m_mProjection : Mat4
  m_fFov : ℚ
  m_fAspect : ℚ
  m_fNearplane : ℚ
  m_fFarplane : ℚ

/-- The method `CameraNode::SetProjectionParameters(fov, aspect, nearplane, farplane)`. -/
def CameraNode.SetProjectionParameters (C : GlmCamera) (cam : CameraNode)
    (fov aspect nearplane farplane : ℚ) : CameraNode :=
  { cam with
    m_mProjection := C.perspective fov aspect nearplane farplane
    m_fFov := fov
    m_fAspect := aspect
    m_fNearplane := nearplane
    m_fFarplane := farplane }

/-- The overload `CameraNode::SetProjectionParameters(const glm::vec4& parameters)`. -/
def CameraNode.SetProjectionParametersVec (C : GlmCamera) (cam : CameraNode)
    (parameters : Vec4) : CameraNode :=
  cam.SetProjectionParameters C parameters.x parameters.y parameters.z parameters.w

/-- The method `CameraNode::GetProjectionParameters()`. -/
def CameraNode.GetProjectionParameters (cam : CameraNode) : Vec4 :=
  ⟨cam.m_fFov, cam.m_fAspect, cam.m_fNearplane, cam.m_fFarplane⟩

/-- The method `CameraNode::SetProjectionMatrix(m)`; a write through the reference that
the mutable `GetProjectionMatrix()` returns has the same effect. -/
def CameraNode.SetProjectionMatrix (cam : CameraNode) (m : Mat4) : CameraNode :=
  { cam with m_mProjection := m }

/-- A camera before the body of its constructor has run: the `Node` part is built by
`Node::Node()`, the projection fields are given by `junk` (the constructors overwrite all
of them). -/
def CameraNode.raw (junkMatrix : Mat4) (junkParams : Vec4) : CameraNode :=
  { toNode := Node.create ""
    m_mProjection := junkMatrix
    m_fFov := junkParams.x
    m_fAspect := junkParams.y
    m_fNearplane := junkParams.z
    m_fFarplane := junkParams.w }

/-- The constructor `CameraNode::CameraNode()`. -/
def CameraNode.create (C : GlmCamera) (junkMatrix : Mat4) (junkParams : Vec4) : CameraNode :=
  (CameraNode.raw junkMatrix junkParams).SetProjectionParameters C C.half_pi 1 1 500

/-- The constructor `CameraNode::CameraNode(fov, aspect, nearplane, farplane)`. -/
def CameraNode.create4 (C : GlmCamera) (junkMatrix : Mat4) (junkParams : Vec4)
    (fov aspect nearplane farplane : ℚ) : CameraNode :=
  (CameraNode.raw junkMatrix junkParams).SetProjectionParameters C fov aspect nearplane farplane

/-- The constructor `CameraNode::CameraNode(const glm::vec4& parameters)`. -/
def CameraNode.createVec (C : GlmCamera) (junkMatrix : Mat4) (junkParams : Vec4)
    (parameters : Vec4) : CameraNode :=
  (CameraNode.raw junkMatrix junkParams).SetProjectionParametersVec C parameters

/-- The public operations on a camera that change its state. -/
inductive CameraOp where
  /-- A call of `SetProjectionParameters(fov, aspect, nearplane, farplane)`. -/
  | setProjectionParameters (fov aspect nearplane farplane : ℚ)
  /-- A call of `SetProjectionParameters(parameters)`. -/
  | setProjectionParametersVec (parameters : Vec4)
  /-- A call of `SetProjectionMatrix(m)`. -/
  | setProjectionMatrix (m : Mat4)
  /-- A write `GetProjectionMatrix() = m` through the mutable accessor. -/
  | writeProjectionMatrix (m : Mat4)
  /-- An inherited `Node` operation; it acts on the `Node` fields only. -/
  | nodeOp (f : Node → Node)

/-- The operation stores a matrix in `m_mProjection` without touching the parameters. -/
def CameraOp.writesMatrix : CameraOp → Bool
  | .setProjectionMatrix _ => true
  | .writeProjectionMatrix _ => true
  | _ => false

/-- The effect of one public operation on a camera. -/
def CameraNode.apply (C : GlmCamera) (cam : CameraNode) : CameraOp → CameraNode
  | .setProjectionParameters fov aspect nearplane farplane =>
    cam.SetProjectionParameters C fov aspect nearplane farplane
  | .setProjectionParametersVec parameters => cam.SetProjectionParametersVec C parameters
  | .setProjectionMatrix m => cam.SetProjectionMatrix m
  | .writeProjectionMatrix m => cam.SetProjectionMatrix m
  | .nodeOp f => { cam with toNode := f cam.toNode }

/-- The effect of a sequence of public operations, run in order. -/
def CameraNode.run (C : GlmCamera) (cam : CameraNode) (ops : List CameraOp) : CameraNode :=
  ops.foldl (CameraNode.apply C) cam

/-- The stored projection matrix is the perspective matrix of the stored parameters. -/
def CameraNode.ProjectionConsistent (C : GlmCamera) (cam : CameraNode) : Prop :=
  cam.m_mProjection = C.perspective cam.GetProjectionParameters.x
    cam.GetProjectionParameters.y cam.GetProjectionParameters.z cam.GetProjectionParameters.w

/-- The method `CameraNode::GetViewMatrix()` on the camera at `this` of heap `h`. -/
def GetViewMatrix (C : GlmCamera) (fuel : Nat) (h : Heap) (this : Ptr) : Option Mat4 :=
  (GetWorldMatrix fuel h this).map C.inverse

/-- The method `CameraNode::LookAt(from, at)`. -/
def CameraNode.LookAt (C : GlmCamera) (cam : CameraNode) (eye target : Vec3) : CameraNode :=
  { cam with m_mModel := C.inverse (C.lookAt eye target ⟨0, 1, 0⟩) }

/-! ## The timer -/

/-- The fields of `class Timer`; the two `uint64_t` fields hold values below `2^64`. -/
structure Timer where
  m_dRateToSeconds : ℚ
  m_uTickFrequency : Nat
  m_uStartClock : Nat
  m_fElapsedSeconds : ℚ

/-- The constructor `Timer::Timer()`; the rate and the tick frequency are what the
platform branch of the constructor stores. -/
def Timer.create (rateToSeconds : ℚ) (tickFrequency : Nat) : Timer :=
  { m_dRateToSeconds := rateToSeconds
    m_uTickFrequency := tickFrequency
    m_uStartClock := 0
    m_fElapsedSeconds := 0 }

/-- The method `Timer::BeginTimer()`; `ticks` is the value `GetTicks()` returns. -/
def Timer.BeginTimer (t : Timer) (ticks : Nat) : Timer :=
  { t with m_uStartClock := ticks % 2 ^ 64 }

/-- The method `Timer::EndTimer()`; `ticks` is the value `GetTicks()` returns.  The
subtraction `endClock - m_uStartClock` is that of `uint64_t`, modulo `2^64`. -/
def Timer.EndTimer (t : Timer) (ticks : Nat) : Timer :=
  let endClock := ticks % 2 ^ 64
  if endClock = t.m_uStartClock ∨ t.m_uStartClock = 0 then
    { t with m_fElapsedSeconds := 1 / 1000000 }
  else
    let elapsedTicks : Nat := (endClock + 2 ^ 64 - t.m_uStartClock) % 2 ^ 64
    { t with m_fElapsedSeconds := (elapsedTicks : ℚ) * t.m_dRateToSeconds }

/-- The method `Timer::GetElapsedSeconds()`. -/
def Timer.GetElapsedSeconds (t : Timer) : ℚ := t.m_fElapsedSeconds

/-! ## Rendering -/

/-- The dynamic type of a node, and for a `GeometryNode` whether its geometry and its
material pointers are non-null. -/
inductive NodeKind where
  | node
  | camera
  | geometry (hasGeometry hasMaterial : Bool)
deriving DecidableEq

/-- What a traversal does, in order: entering `Render` of a node, and the calls that
`GeometryNode::Render` makes for the node. -/
inductive RenderEvent where
  /-- The method `Render` is invoked on the node. -/
  | render (p : Ptr)
  /-- The call `m_pGeometry->SetAttribs(program)`. -/
  | setAttribs (p : Ptr)
  /-- The call `OpenGLRenderer::SetUniformMatrix4(program, name, m)`. -/
  | setUniformMatrix4 (name : String) (m : Mat4)
  /-- The call `m_pMaterial->SetToProgram(program)`. -/
  | setToProgram (p : Ptr)
  /-- The call `m_pGeometry->Draw(renderer)`. -/
  | draw (p : Ptr)
deriving DecidableEq

/-- The part of `Render` that concerns the node itself: nothing for `Node` and
`CameraNode`; for a `GeometryNode` with geometry the attribute setup, the two uniform
uploads, the material when there is one, and the draw call.  `proj` and `view` are the
matrices of the renderer. -/
def renderSelf (kind : Ptr → NodeKind) (proj view : Mat4) (wfuel : Nat) (h : Heap)
    (this : Ptr) : Option (List RenderEvent) :=
  match kind this with
  | .geometry true hasMaterial =>
    match GetWorldMatrix wfuel h this with
    | none => none
    | some worldMatrix =>
      some ([RenderEvent.setAttribs this,
          RenderEvent.setUniformMatrix4 "modelMatrix" worldMatrix,
          RenderEvent.setUniformMatrix4 "modelViewProjectionMatrix"
            (proj * view * worldMatrix)]
        ++ (if hasMaterial then [RenderEvent.setToProgram this] else [])
        ++ [RenderEvent.draw this])
  | _ => some []

/-- The loop of `Node::Render` over the children. -/
def renderLoop (render : Ptr → Option (List RenderEvent)) :
    List Ptr → Option (List RenderEvent)
  | [] => some []
  | node :: rest =>
    match render node with
    | none => none
    | some t =>
      match renderLoop render rest with
      | none => none
      | some ts => some (t ++ ts)

/-- The virtual method `Render(renderer, program)` on the node `this` of heap `h`:
`GeometryNode::Render` does its own part and then calls `Node::Render`;
`CameraNode::Render` and `Node::Render` only run the loop over the children.  The result
is the sequence of events of the traversal. -/
def Render (kind : Ptr → NodeKind) (proj view : Mat4) (wfuel : Nat) :
    Nat → Heap → Ptr → Option (List RenderEvent)
  | 0, _, _ => none
  | fuel + 1, h, this =>
    match h[this]? with
    | none => none
    | some n =>
      match renderSelf kind proj view wfuel h this with
      | none => none
      | some own =>
        match renderLoop (Render kind proj view wfuel fuel h) n.m_arrNodes with
        | none => none
        | some ts => some (RenderEvent.render this :: own ++ ts)

/-- The node an event `render` names. -/
def RenderEvent.rendered : RenderEvent → Option Ptr
  | .render p => some p
  | _ => none

/-- The events of one invocation of `Render` on `p`, those of its children left out. -/
def renderVisit (kind : Ptr → NodeKind) (proj view : Mat4) (wfuel : Nat) (h : Heap)
    (p : Ptr) : List RenderEvent :=
  RenderEvent.render p :: (renderSelf kind proj view wfuel h p).getD []

/-! ## The library in exact arithmetic -/

/-- Difference of two vectors. -/
def Vec3.sub (a b : Vec3) : Vec3 := ⟨a.x - b.x, a.y - b.y, a.z - b.z⟩

/-- Cross product of two vectors (`glm::cross`). -/
def Vec3.cross (a b : Vec3) : Vec3 :=
  ⟨a.y * b.z - b.y * a.z, a.z * b.x - b.z * a.x, a.x * b.y - b.x * a.y⟩

/-- The matrix of mathematics that a `glm::mat4` stands for: row `r`, column `c` holds
`m[c][r]`. -/
def Mat4.toMatrix (m : Mat4) : Matrix (Fin 4) (Fin 4) ℚ := Matrix.of (fun r c => m.entry c r)

/-- The `glm::mat4` of a matrix of mathematics. -/
def Mat4.ofMatrix (A : Matrix (Fin 4) (Fin 4) ℚ) : Mat4 := ⟨fun c r => A r c⟩

/-- The inverse in exact arithmetic: the adjugate divided by the determinant. -/
def Mat4.inverseExact (m : Mat4) : Mat4 :=
  Mat4.ofMatrix ((m.toMatrix.det)⁻¹ • m.toMatrix.adjugate)

/-- The contract of `glm::inverse`: on a matrix that has an inverse it returns that
inverse. -/
def InverseContract (inverse : Mat4 → Mat4) : Prop :=
  ∀ M V : Mat4, V * M = Mat4.identity → M * V = Mat4.identity → inverse M = V

/-- The matrix `glm::perspective(fovy, aspect, zNear, zFar)` as the glm library (which is
not part of the repository) defines it for its default right-handed clip space with depth
from -1 to 1; `tan` is the tangent. -/
def glmPerspective (tan : ℚ → ℚ) (fovy aspect zNear zFar : ℚ) : Mat4 :=
  ⟨fun c r =>
    if c = 0 ∧ r = 0 then 1 / (aspect * tan (fovy / 2))
    else if c = 1 ∧ r = 1 then 1 / tan (fovy / 2)
    else if c = 2 ∧ r = 2 then -(zFar + zNear) / (zFar - zNear)
    else if c = 2 ∧ r = 3 then -1
    else if c = 3 ∧ r = 2 then -(2 * zFar * zNear) / (zFar - zNear)
    else 0⟩

/-- The matrix `glm::lookAt(eye, center, up)` as the glm library defines it for its
default right-handed space, over the given `normalize`. -/
def glmLookAt (normalize : Vec3 → Vec3) (eye center up : Vec3) : Mat4 :=
  let f := normalize (center.sub eye)
  let s := normalize (f.cross up)
  let u := s.cross f
  ⟨fun c r =>
    if r = 0 then (if c = 0 then s.x else if c = 1 then s.y else if c = 2 then s.z
      else -(s.dot eye))
    else if r = 1 then (if c = 0 then u.x else if c = 1 then u.y else if c = 2 then u.z
      else -(u.dot eye))
    else if r = 2 then (if c = 0 then -f.x else if c = 1 then -f.y else if c = 2 then -f.z
      else f.dot eye)
    else (if c = 3 then 1 else 0)⟩

/-- The inverse of a rigid view matrix `L` that sends `eye` to the origin: the rotation
part transposed, and `eye` as translation. -/
def rigidInverse (L : Mat4) (eye : Vec3) : Mat4 :=
  ⟨fun c r =>
    if r = 3 then (if c = 3 then 1 else 0)
    else if c = 3 then (if r = 0 then eye.x else if r = 1 then eye.y else eye.z)
    else L.entry r c⟩

/-- An instance of the camera part of the library for evaluating examples: `half_pi` is
the binary32 value, the inverse is exact, the look-at matrix is built on vectors that are
already of unit length, and the tangent of the perspective is a stand-in. -/
def sampleCamera : GlmCamera :=
  { half_pi := 13176795 / 8388608
    perspective := glmPerspective (fun x => x)
    inverse := Mat4.inverseExact
    lookAt := glmLookAt (fun v => v) }

/-- Three detached nodes in a heap. -/
def threeNodes : Heap := [Node.create "a", Node.create "b", Node.create "x"]

/-- The kinds of the nodes of the sample scene: `arm` is a geometry node without geometry,
`hand` a geometry node with geometry and material, the first `x` a camera, the second `x`
a geometry node with geometry and no material. -/
def sampleKinds : Ptr → NodeKind
  | 1 => NodeKind.geometry false true
  | 2 => NodeKind.geometry true true
  | 3 => NodeKind.camera
  | 4 => NodeKind.geometry true false
  | _ => NodeKind.node

/-- The inverse of the local matrix of `hand`: scale by a half, then move back. -/
def handInverse : Mat4 :=
  ⟨fun c r => if c = 3 then (if r = 3 then 1 else -5 / 2) else if c = r then 1 / 2 else 0⟩

/-! ## Lemmas: the heap -/

/-- Two heaps with the same children lists have the same subtrees. -/
theorem subtree_congr {g h : Heap}
    (hk : ∀ q : Ptr, (g[q]?).map (fun n : Node => n.m_arrNodes)
      = (h[q]?).map (fun n : Node => n.m_arrNodes)) :
    ∀ fuel p, subtree fuel g p = subtree fuel h p := by
  intro fuel
  induction fuel with
  | zero => intro p; rfl
  | succ fuel ih =>
    intro p
    have hf : subtree fuel g = subtree fuel h := funext ih
    have hkp := hk p
    simp only [subtree]
    cases hg : g[p]? with
    | none =>
      cases hh : h[p]? with
      | none => rfl
      | some m => rw [hg, hh] at hkp; simp at hkp
    | some n =>
      cases hh : h[p]? with
      | none => rw [hg, hh] at hkp; simp at hkp
      | some m =>
        rw [hg, hh] at hkp
        simp only [Option.map_some', Option.some.injEq] at hkp
        simp only [hf, hkp]

/-! ## Lemmas: trees -/

theorem subtreeList_mem_some (h : Heap) (fuel : Nat)
    (ih : ∀ (p : Ptr) (l : List Ptr), subtree fuel h p = some l →
      ∀ M ∈ l, ∃ m, h[M]? = some m) :
    ∀ (cs ls : List Ptr), subtreeList (subtree fuel h) cs = some ls →
      ∀ M ∈ ls, ∃ m, h[M]? = some m := by
  intro cs
  induction cs with
  | nil =>
    intro ls hs M hM
    simp only [subtreeList, Option.some.injEq] at hs
    subst hs
    simp at hM
  | cons c cs ihc =>
    intro ls hs M hM
    simp only [subtreeList] at hs
    cases hc : subtree fuel h c with
    | none => simp [hc] at hs
    | some l1 =>
      cases hcs : subtreeList (subtree fuel h) cs with
      | none => simp [hc, hcs] at hs
      | some l2 =>
        simp only [hc, hcs, Option.some.injEq] at hs
        subst hs
        rcases List.mem_append.1 hM with h1 | h2
        · exact ih c l1 hc M h1
        · exact ihc l2 hcs M h2

/-- Every pointer listed in a subtree names a node of the heap. -/
theorem subtree_mem_some (h : Heap) :
    ∀ (fuel : Nat) (p : Ptr) (l : List Ptr), subtree fuel h p = some l →
      ∀ M ∈ l, ∃ m, h[M]? = some m := by
  intro fuel
  induction fuel with
  | zero => intro p l hs; simp [subtree] at hs
  | succ fuel ih =>
    intro p l hs M hM
    simp only [subtree] at hs
    cases hp : h[p]? with
    | none => simp [hp] at hs
    | some n =>
      cases hcs : subtreeList (subtree fuel h) n.m_arrNodes with
      | none => simp [hp, hcs] at hs
      | some ls =>
        simp only [hp, hcs, Option.some.injEq] at hs
        subst hs
        rcases List.mem_cons.1 hM with e | hl
        · exact ⟨n, by rw [e]; exact hp⟩
        · exact subtreeList_mem_some h fuel ih n.m_arrNodes ls hcs M hl

/-- The root of a subtree is its first node. -/
theorem subtree_head (h : Heap) (fuel : Nat) (p : Ptr) (l : List Ptr)
    (hs : subtree fuel h p = some l) : ∃ ls, l = p :: ls := by
  cases fuel with
  | zero => simp [subtree] at hs
  | succ fuel =>
    simp only [subtree] at hs
    cases hp : h[p]? with
    | none => simp [hp] at hs
    | some n =>
      cases hcs : subtreeList (subtree fuel h) n.m_arrNodes with
      | none => simp [hp, hcs] at hs
      | some ls =>
        simp only [hp, hcs, Option.some.injEq] at hs
        exact ⟨ls, hs.symm⟩

/-! ## Lemmas: lookup -/

/-- The loop of `FindNode` over the children returns the first match of the concatenated
pre-order listings, given that `FindNode` with this fuel does so on every subtree. -/
theorem findLoop_spec (h : Heap) (name : String) (fuel : Nat)
    (ih : ∀ (p : Ptr) (l : List Ptr), subtree fuel h p = some l →
      FindNode fuel h name p = some (l.find? (fun q => decide (nameAt h q = some name)))) :
    ∀ (cs ls : List Ptr), subtreeList (subtree fuel h) cs = some ls →
      findLoop (FindNode fuel h name) cs
        = some (ls.find? (fun q => decide (nameAt h q = some name))) := by
  intro cs
  induction cs with
  | nil =>
    intro ls hs
    simp only [subtreeList, Option.some.injEq] at hs
    subst hs
    rfl
  | cons c cs ihc =>
    intro ls hs
    simp only [subtreeList] at hs
    cases hc : subtree fuel h c with
    | none => simp [hc] at hs
    | some l1 =>
      cases hcs : subtreeList (subtree fuel h) cs with
      | none => simp [hc, hcs] at hs
      | some l2 =>
        simp only [hc, hcs, Option.some.injEq] at hs
        subst hs
        have h1 := ih c l1 hc
        have h2 := ihc l2 hcs
        rw [List.find?_append]
        simp only [findLoop, h1]
        cases hf : l1.find? (fun q => decide (nameAt h q = some name)) with
        | none => simpa using h2
        | some r => simp

/-- On a finite structure of children, `FindNode` returns the first node of the pre-order
listing whose name is the query, or null when there is none. -/
theorem FindNode_spec (h : Heap) (name : String) :
    ∀ (fuel : Nat) (p : Ptr) (l : List Ptr), subtree fuel h p = some l →
      FindNode fuel h name p = some (l.find? (fun q => decide (nameAt h q = some name))) := by
  intro fuel
  induction fuel with
  | zero => intro p l hs; simp [subtree] at hs
  | succ fuel ih =>
    intro p l hs
    simp only [subtree] at hs
    cases hp : h[p]? with
    | none => simp [hp] at hs
    | some n =>
      cases hcs : subtreeList (subtree fuel h) n.m_arrNodes with
      | none => simp [hp, hcs] at hs
      | some ls =>
        simp only [hp, hcs, Option.some.injEq] at hs
        subst hs
        simp only [FindNode, hp]
        by_cases hn : n.m_strName = name
        · simp [hn, nameAt, hp]
        · rw [if_neg hn, findLoop_spec h name fuel ih n.m_arrNodes ls hcs]
          simp [nameAt, hp, hn]

/-! ## Lemmas: world matrix -/

theorem GetWorldMatrix_mono (h : Heap) :
    ∀ (fuel : Nat) (p : Ptr) (w : Mat4), GetWorldMatrix fuel h p = some w →
      GetWorldMatrix (fuel + 1) h p = some w := by
  intro fuel
  induction fuel with
  | zero => intro p w hw; simp [GetWorldMatrix] at hw
  | succ fuel ih =>
    intro p w hw
    rw [GetWorldMatrix] at hw ⊢
    cases hp : h[p]? with
    | none => simp [hp] at hw
    | some n =>
      simp only [hp] at hw ⊢
      cases hpar : n.m_pParent with
      | none => simpa [hpar] using hw
      | some q =>
        simp only [hpar] at hw ⊢
        cases hq : GetWorldMatrix fuel h q with
        | none => simp [hq] at hw
        | some wq =>
          rw [ih q wq hq]
          simpa [hq] using hw

theorem GetWorldMatrix_mono_le (h : Heap) (p : Ptr) (w : Mat4) (k : Nat)
    (hw : GetWorldMatrix k h p = some w) :
    ∀ fuel, k ≤ fuel → GetWorldMatrix fuel h p = some w := by
  intro fuel hle
  induction hle with
  | refl => exact hw
  | step _ ih => exact GetWorldMatrix_mono h _ p w ih

/-- Walking down a chain of parent back-references multiplies the local matrices on the
right, one after the other. -/
theorem GetWorldMatrix_chain (h : Heap) :
    ∀ (rest : List Ptr) (a : Ptr) (w : Mat4) (k : Nat),
      GetWorldMatrix k h a = some w → isParentChain h (some a) rest = true →
      GetWorldMatrix (k + rest.length) h ((a :: rest).getLast (List.cons_ne_nil a rest))
        = some (chainProduct h w rest) := by
  intro rest
  induction rest with
  | nil => intro a w k hw _; simpa [chainProduct] using hw
  | cons b rest ih =>
    intro a w k hw hc
    simp only [isParentChain] at hc
    cases hb : h[b]? with
    | none => simp [hb] at hc
    | some n =>
      simp only [hb, Bool.and_eq_true, decide_eq_true_eq] at hc
      have hwb : GetWorldMatrix (k + 1) h b = some (w * localAt h b) := by
        simp [GetWorldMatrix, hb, hc.1, hw, localAt]
      have := ih b (w * localAt h b) (k + 1) hwb hc.2
      rw [List.getLast_cons (List.cons_ne_nil b rest)]
      simp only [List.length_cons, chainProduct]
      have e : k + (rest.length + 1) = k + 1 + rest.length := by omega
      rw [e]
      exact this

/-! ## The claims -/

/-- C1: along a chain of parent back-references `a0, ..., N` that starts at a node without
parent, `GetWorldMatrix(N)` returns the ordered product of the local matrices
`Local(a0) * ... * Local(N)`; it is `GetWorldMatrix(parent) * Local(N)` when `N` has a
parent and `Local(N)` when it has none. -/
theorem C1_GetWorldMatrix_chain_product (h : Heap) (a0 : Ptr) (rest : List Ptr) (fuel : Nat)
    (hchain : isParentChain h none (a0 :: rest) = true)
    (hfuel : (a0 :: rest).length ≤ fuel) :
    GetWorldMatrix fuel h ((a0 :: rest).getLast (List.cons_ne_nil a0 rest))
        = some (chainProduct h (localAt h a0) rest) ∧
    ∀ n : Node, h[(a0 :: rest).getLast (List.cons_ne_nil a0 rest)]? = some n →
      (∀ P : Ptr, n.m_pParent = some P →
        ∃ wP, GetWorldMatrix fuel h P = some wP ∧
          GetWorldMatrix fuel h ((a0 :: rest).getLast (List.cons_ne_nil a0 rest))
            = some (wP * n.m_mModel)) ∧
      (n.m_pParent = none →
        GetWorldMatrix fuel h ((a0 :: rest).getLast (List.cons_ne_nil a0 rest))
          = some n.m_mModel) := by
  have hc := hchain
  simp only [isParentChain] at hc
  cases h0 : h[a0]? with
  | none => simp [h0] at hc
  | some n0 =>
    simp only [h0, Bool.and_eq_true, decide_eq_true_eq] at hc
    have hw0 : GetWorldMatrix 1 h a0 = some (localAt h a0) := by
      simp [GetWorldMatrix, h0, hc.1, localAt]
    have hlast := GetWorldMatrix_chain h rest a0 (localAt h a0) 1 hw0 hc.2
    have hle : 1 + rest.length ≤ fuel := by
      simp only [List.length_cons] at hfuel; omega
    have hmain := GetWorldMatrix_mono_le h _ _ _ hlast fuel hle
    refine ⟨hmain, ?_⟩
    intro n hn
    obtain ⟨f, rfl⟩ : ∃ f, fuel = f + 1 := ⟨fuel - 1, by omega⟩
    constructor
    · intro P hP
      have hm := hmain
      rw [GetWorldMatrix] at hm
      simp only [hn, hP] at hm
      cases hq : GetWorldMatrix f h P with
      | none => simp [hq] at hm
      | some wP =>
        refine ⟨wP, GetWorldMatrix_mono h f P wP hq, ?_⟩
        rw [GetWorldMatrix]
        simp [hn, hP, hq]
    · intro hP
      rw [GetWorldMatrix]
      simp [hn, hP]

/-- Witness of C1 on the sample scene, along the chain root, arm, hand, x. -/
theorem C1_witness :
    GetWorldMatrix 4 sampleHeap 3 = some (chainProduct sampleHeap (localAt sampleHeap 0) [1, 2, 3]) :=
  (C1_GetWorldMatrix_chain_product sampleHeap 0 [1, 2, 3] 4 (by decide) (by decide)).1

/-- C2: on a finite tree rooted at `N`, `FindNode(q)` returns (it does not fault), and the
pointer it returns is null exactly when no node of the subtree, `N` included, is named
`q`. -/
theorem C2_FindNode_null_iff_absent (fuel : Nat) (h : Heap) (N : Ptr) (l : List Ptr)
    (q : String) (htree : IsTree fuel h N l) :
    ∃ r : Option Ptr, FindNode fuel h q N = some r ∧
      (r = none ↔ ∀ M ∈ l, nameAt h M ≠ some q) := by
  refine ⟨_, FindNode_spec h q fuel N l htree.1, ?_⟩
  rw [List.find?_eq_none]
  simp

/-- Witness of C2 on the sample scene, for a name no node carries. -/
theorem C2_witness :
    ∃ r : Option Ptr, FindNode 4 sampleHeap "y" 0 = some r ∧
      (r = none ↔ ∀ M ∈ [0, 1, 2, 3, 4], nameAt sampleHeap M ≠ some "y") :=
  C2_FindNode_null_iff_absent 4 sampleHeap 0 [0, 1, 2, 3, 4] "y" (by decide)

/-- C3: on a finite tree rooted at `N` in which some node is named `q`, `FindNode(q)`
returns the first node of the depth-first pre-order listing whose name is `q`: every node
listed before it has another name.  So a node that is the only one named `q` is the one
returned, and `N` itself is returned when it is named `q`. -/
theorem C3_FindNode_first_in_preorder (fuel : Nat) (h : Heap) (N : Ptr) (l : List Ptr)
    (q : String) (htree : IsTree fuel h N l) (hex : ∃ M ∈ l, nameAt h M = some q) :
    ∃ r : Ptr, FindNode fuel h q N = some (some r) ∧
      (∃ pre post, l = pre ++ r :: post ∧ nameAt h r = some q ∧
        ∀ x ∈ pre, nameAt h x ≠ some q) ∧
      (∀ M ∈ l, nameAt h M = some q →
        (∀ M2 ∈ l, nameAt h M2 = some q → M2 = M) → r = M) ∧
      (nameAt h N = some q → r = N) := by
  have hspec := FindNode_spec h q fuel N l htree.1
  cases hf : l.find? (fun p => decide (nameAt h p = some q)) with
  | none =>
    obtain ⟨M, hM, hq⟩ := hex
    have := List.find?_eq_none.1 hf M hM
    simp [hq] at this
  | some r =>
    rw [hf] at hspec
    obtain ⟨hr, pre, post, hl, hpre⟩ := List.find?_eq_some.1 hf
    have hrq : nameAt h r = some q := by simpa using hr
    have hpre2 : ∀ x ∈ pre, nameAt h x ≠ some q := by
      intro x hx
      simpa using hpre x hx
    have hrl : r ∈ l := by rw [hl]; simp
    refine ⟨r, hspec, ⟨pre, post, hl, hrq, hpre2⟩, ?_, ?_⟩
    · intro M _ _ huniq
      exact huniq r hrl hrq
    · intro hN
      obtain ⟨ls, hls⟩ := subtree_head h fuel N l htree.1
      cases pre with
      | nil =>
        rw [hls] at hl
        simp only [List.nil_append, List.cons.injEq] at hl
        exact hl.1.symm
      | cons x pre2 =>
        rw [hls] at hl
        simp only [List.cons_append, List.cons.injEq] at hl
        have := hpre2 x (by simp)
        rw [← hl.1] at this
        exact absurd hN this

/-- Witness of C3 on the sample scene: two nodes are named `x`, the one at depth 3 comes
first in pre-order. -/
theorem C3_witness :
    ∃ r : Ptr, FindNode 4 sampleHeap "x" 0 = some (some r) ∧
      (∃ pre post, [0, 1, 2, 3, 4] = pre ++ r :: post ∧ nameAt sampleHeap r = some "x" ∧
        ∀ x ∈ pre, nameAt sampleHeap x ≠ some "x") ∧
      (∀ M ∈ [0, 1, 2, 3, 4], nameAt sampleHeap M = some "x" →
        (∀ M2 ∈ [0, 1, 2, 3, 4], nameAt sampleHeap M2 = some "x" → M2 = M) → r = M) ∧
      (nameAt sampleHeap 0 = some "x" → r = 0) :=
  C3_FindNode_first_in_preorder 4 sampleHeap 0 [0, 1, 2, 3, 4] "x" (by decide)
    ⟨3, by decide, by decide⟩

/-- C10, counterexample: a node may be handed to its own `AddNode` (`a->AddNode(a)`); the
children list of `X`, then the same node as `P`, does change. -/
theorem C10_counterexample :
    ∃ h2 x2, AddNode [Node.create "a"] 0 0 = some h2 ∧ h2[0]? = some x2 ∧
      x2.m_arrNodes = [0] ∧ (Node.create "a").m_arrNodes = [] ∧
      x2.m_arrNodes ≠ (Node.create "a").m_arrNodes :=
  ⟨_, _, rfl, rfl, rfl, rfl, by decide⟩

/-- C10, as amended: after `P.AddNode(X)` the children list of `P` is the old list with
`X` appended last and the parent of `X` is `P`; the local matrix, velocity, rotation
state, radius and name of `P` and of `X` are unchanged, every other node is unchanged,
and when `X` is not `P` itself the parent of `P` and the children of `X` are unchanged
too. -/
theorem C10_AddNode_appends_and_links (h : Heap) (P X : Ptr) (p x : Node)
    (hP : h[P]? = some p) (hX : h[X]? = some x) :
    ∃ h2 p2 x2, AddNode h P X = some h2 ∧ h2[P]? = some p2 ∧ h2[X]? = some x2 ∧
      p2.m_arrNodes = p.m_arrNodes ++ [X] ∧
      p2.m_arrNodes.length = p.m_arrNodes.length + 1 ∧
      x2.m_pParent = some P ∧
      p2.sameBody p ∧ x2.sameBody x ∧
      (X ≠ P → p2.m_pParent = p.m_pParent ∧ x2.m_arrNodes = x.m_arrNodes) ∧
      (∀ q : Ptr, q ≠ P → q ≠ X → h2[q]? = h[q]?) := by
  have hPlt : P < h.length := (List.getElem?_eq_some.1 hP).1
  have hXlt : X < h.length := (List.getElem?_eq_some.1 hX).1
  by_cases hXP : X = P
  · subst hXP
    have hpx : p = x := by rw [hP] at hX; exact Option.some.inj hX
    subst hpx
    refine ⟨(h.set X { p with m_pParent := some X }).set X
        { p with m_pParent := some X, m_arrNodes := p.m_arrNodes ++ [X] },
      { p with m_pParent := some X, m_arrNodes := p.m_arrNodes ++ [X] },
      { p with m_pParent := some X, m_arrNodes := p.m_arrNodes ++ [X] },
      ?_, ?_, ?_, rfl, by simp, rfl, ?_, ?_, ?_, ?_⟩
    · simp [AddNode, hP, List.getElem?_set, hXlt]
    · simp [List.getElem?_set, hXlt]
    · simp [List.getElem?_set, hXlt]
    · exact ⟨rfl, rfl, rfl, rfl, rfl, rfl, rfl⟩
    · exact ⟨rfl, rfl, rfl, rfl, rfl, rfl, rfl⟩
    · intro hne; exact absurd rfl hne
    · intro q hq _
      have hq2 : ¬ X = q := fun e => hq e.symm
      simp [List.getElem?_set, hq2]
  · have hPX : ¬ P = X := fun e => hXP e.symm
    refine ⟨(h.set X { x with m_pParent := some P }).set P
        { p with m_arrNodes := p.m_arrNodes ++ [X] },
      { p with m_arrNodes := p.m_arrNodes ++ [X] },
      { x with m_pParent := some P },
      ?_, ?_, ?_, rfl, by simp, rfl, ?_, ?_, ?_, ?_⟩
    · simp [AddNode, hX, hP, List.getElem?_set, hXP]
    · simp [List.getElem?_set, hPlt]
    · simp [List.getElem?_set, hPX, hXlt]
    · exact ⟨rfl, rfl, rfl, rfl, rfl, rfl, rfl⟩
    · exact ⟨rfl, rfl, rfl, rfl, rfl, rfl, rfl⟩
    · intro _; exact ⟨rfl, rfl⟩
    · intro q hq hqX
      have hq2 : ¬ P = q := fun e => hq e.symm
      have hq3 : ¬ X = q := fun e => hqX e.symm
      simp [List.getElem?_set, hq2, hq3]

/-- Witness of the amended C10: a fresh node is attached to `arm` of the sample scene. -/
theorem C10_witness :
    ∃ h2 p2 x2, AddNode (sampleHeap ++ [Node.create "new"]) 1 5 = some h2 ∧
      h2[1]? = some p2 ∧ h2[5]? = some x2 ∧
      p2.m_arrNodes = (sampleHeap[1]).m_arrNodes ++ [5] ∧
      p2.m_arrNodes.length = (sampleHeap[1]).m_arrNodes.length + 1 ∧
      x2.m_pParent = some 1 ∧
      p2.sameBody (sampleHeap[1]) ∧ x2.sameBody (Node.create "new") ∧
      ((5 : Ptr) ≠ 1 → p2.m_pParent = (sampleHeap[1]).m_pParent ∧
        x2.m_arrNodes = (Node.create "new").m_arrNodes) ∧
      (∀ q : Ptr, q ≠ 1 → q ≠ 5 → h2[q]? = (sampleHeap ++ [Node.create "new"])[q]?) :=
  C10_AddNode_appends_and_links (sampleHeap ++ [Node.create "new"]) 1 5 (sampleHeap[1])
    (Node.create "new") rfl rfl

/-! ## Lemmas: attachment -/

/-- What `AddNode` does to the heap, node by node: the child list of `P` gains `X`, the
parent of `X` becomes `P`, and no other child list or parent changes. -/
theorem AddNode_spec (h : Heap) (P X : Ptr) (p x : Node)
    (hP : h[P]? = some p) (hX : h[X]? = some x) :
    ∃ h2, AddNode h P X = some h2 ∧ h2.length = h.length ∧
      ∀ (q : Ptr) (n2 : Node), h2[q]? = some n2 →
        ∃ n, h[q]? = some n ∧
          n2.m_arrNodes = (if q = P then n.m_arrNodes ++ [X] else n.m_arrNodes) ∧
          n2.m_pParent = (if q = X then some P else n.m_pParent) := by
  have hPlt : P < h.length := (List.getElem?_eq_some.1 hP).1
  have hXlt : X < h.length := (List.getElem?_eq_some.1 hX).1
  by_cases hXP : X = P
  · subst hXP
    have hpx : p = x := by rw [hP] at hX; exact Option.some.inj hX
    subst hpx
    refine ⟨(h.set X { p with m_pParent := some X }).set X
        { p with m_pParent := some X, m_arrNodes := p.m_arrNodes ++ [X] }, ?_, by simp, ?_⟩
    · simp [AddNode, hP, List.getElem?_set, hXlt]
    · intro q n2 hq
      by_cases hqX : q = X
      · subst hqX
        simp only [List.set_set, List.getElem?_set, if_true, hXlt, Option.some.injEq] at hq
        subst hq
        exact ⟨p, hP, by simp, by simp⟩
      · have hne : ¬ X = q := fun e => hqX e.symm
        simp only [List.set_set, List.getElem?_set, hne, if_false] at hq
        exact ⟨n2, hq, by simp [hqX], by simp [hqX]⟩
  · have hPX : ¬ P = X := fun e => hXP e.symm
    refine ⟨(h.set X { x with m_pParent := some P }).set P
        { p with m_arrNodes := p.m_arrNodes ++ [X] }, ?_, by simp, ?_⟩
    · simp [AddNode, hX, hP, List.getElem?_set, hXP]
    · intro q n2 hq
      by_cases hqP : q = P
      · subst hqP
        simp only [List.getElem?_set, if_true, List.length_set, hPlt,
          Option.some.injEq] at hq
        subst hq
        exact ⟨p, hP, by simp, by simp [hPX]⟩
      · have hne : ¬ P = q := fun e => hqP e.symm
        by_cases hqX : q = X
        · subst hqX
          simp only [List.getElem?_set, hne, if_false, if_true, hXlt,
            Option.some.injEq] at hq
          subst hq
          exact ⟨x, hX, by simp [hqP], by simp⟩
        · have hne2 : ¬ X = q := fun e => hqX e.symm
          simp only [List.getElem?_set, hne, hne2, if_false] at hq
          exact ⟨n2, hq, by simp [hqP], by simp [hqX]⟩

/-- The invariant carried along a sequence of attachments of distinct nodes: one parent at
most, no node still to be attached is in a child list, and the nodes still to be attached
have no parent. -/
theorem AddNode_keeps_one_parent (h : Heap) (P X : Ptr) (rest : List Ptr)
    (hPlt : P < h.length) (hXlt : X < h.length) (hXrest : X ∉ rest)
    (hone : AtMostOneParent h)
    (hkids : ∀ (Q : Ptr) (q : Node), h[Q]? = some q → ∀ y ∈ q.m_arrNodes, y ∉ X :: rest)
    (hpar : ∀ Y ∈ X :: rest, ∀ y : Node, h[Y]? = some y → y.m_pParent = none) :
    ∃ h2, AddNode h P X = some h2 ∧ h2.length = h.length ∧ AtMostOneParent h2 ∧
      (∀ (Q : Ptr) (q : Node), h2[Q]? = some q → ∀ y ∈ q.m_arrNodes, y ∉ rest) ∧
      (∀ Y ∈ rest, ∀ y : Node, h2[Y]? = some y → y.m_pParent = none) := by
  obtain ⟨p, hP⟩ : ∃ p, h[P]? = some p := ⟨h[P], List.getElem?_eq_getElem hPlt⟩
  obtain ⟨x, hX⟩ : ∃ x, h[X]? = some x := ⟨h[X], List.getElem?_eq_getElem hXlt⟩
  obtain ⟨h2, hA, hlen, hspec⟩ := AddNode_spec h P X p x hP hX
  have hXnot : ∀ (Q : Ptr) (q : Node), h[Q]? = some q → X ∉ q.m_arrNodes :=
    fun Q q hQ hmem => hkids Q q hQ X hmem (List.mem_cons_self X rest)
  have hmem : ∀ (Q : Ptr) (q2 : Node), h2[Q]? = some q2 → ∀ y ∈ q2.m_arrNodes,
      (y = X ∧ Q = P) ∨ (y ≠ X ∧ ∃ q, h[Q]? = some q ∧ y ∈ q.m_arrNodes) := by
    intro Q q2 hQ y hy
    obtain ⟨q, hq, hk, _⟩ := hspec Q q2 hQ
    rw [hk] at hy
    by_cases hQP : Q = P
    · rw [if_pos hQP] at hy
      rcases List.mem_append.1 hy with hy1 | hy1
      · exact Or.inr ⟨fun e => hXnot Q q hq (e ▸ hy1), q, hq, hy1⟩
      · exact Or.inl ⟨by simpa using hy1, hQP⟩
    · rw [if_neg hQP] at hy
      exact Or.inr ⟨fun e => hXnot Q q hq (e ▸ hy), q, hq, hy⟩
  refine ⟨h2, hA, hlen, ⟨?_, ?_⟩, ?_, ?_⟩
  · intro y A B a b hA2 hB2 hya hyb
    rcases hmem A a hA2 y hya with ⟨hyX, hAP⟩ | ⟨hne, a0, ha0, hya0⟩
    · rcases hmem B b hB2 y hyb with ⟨_, hBP⟩ | ⟨hne, _⟩
      · rw [hAP, hBP]
      · exact absurd hyX hne
    · rcases hmem B b hB2 y hyb with ⟨hyX, _⟩ | ⟨_, b0, hb0, hyb0⟩
      · exact absurd hyX hne
      · exact hone.1 y A B a0 b0 ha0 hb0 hya0 hyb0
  · intro y A a hA2
    obtain ⟨a0, ha0, hk, _⟩ := hspec A a hA2
    rw [hk]
    have hold := hone.2 y A a0 ha0
    by_cases hAP : A = P
    · rw [if_pos hAP, List.count_append]
      by_cases hyX : y = X
      · subst hyX
        have : List.count y a0.m_arrNodes = 0 :=
          List.count_eq_zero.2 (hXnot A a0 ha0)
        simp [this]
      · have : List.count y [X] = 0 := by
          rw [List.count_eq_zero]; simpa using hyX
        omega
    · rw [if_neg hAP]; exact hold
  · intro Q q2 hQ y hy hyrest
    rcases hmem Q q2 hQ y hy with ⟨hyX, _⟩ | ⟨_, q, hq, hyq⟩
    · exact hXrest (hyX ▸ hyrest)
    · exact hkids Q q hq y hyq (List.mem_cons_of_mem X hyrest)
  · intro Y hY y2 hY2
    obtain ⟨y0, hy0, _, hp⟩ := hspec Y y2 hY2
    have hYX : Y ≠ X := fun e => hXrest (e ▸ hY)
    rw [hp, if_neg hYX]
    exact hpar Y (List.mem_cons_of_mem X hY) y0 hy0

/-- A sequence of attachments of distinct nodes keeps every node under one parent at most,
at every step, and never overwrites a parent back-reference. -/
theorem AddNodes_keep_one_parent :
    ∀ (calls : List (Ptr × Ptr)) (h : Heap),
      (∀ c ∈ calls, c.1 < h.length ∧ c.2 < h.length) →
      (calls.map Prod.snd).Nodup →
      AtMostOneParent h →
      (∀ (Q : Ptr) (q : Node), h[Q]? = some q → ∀ y ∈ q.m_arrNodes, y ∉ calls.map Prod.snd) →
      (∀ Y ∈ calls.map Prod.snd, ∀ y : Node, h[Y]? = some y → y.m_pParent = none) →
      (∀ k : Nat, ∃ hk, AddNodes h (calls.take k) = some hk ∧ AtMostOneParent hk) ∧
        ParentsSetOnce h calls := by
  intro calls
  induction calls with
  | nil =>
    intro h _ _ hone _ _
    exact ⟨fun k => ⟨h, by simp [AddNodes], hone⟩, trivial⟩
  | cons c rest ih =>
    intro h hvalid hnd hone hkids hpar
    obtain ⟨P, X⟩ := c
    have hv := hvalid (P, X) (List.mem_cons_self _ _)
    simp only [List.map_cons, List.nodup_cons] at hnd
    obtain ⟨h2, hA, hlen, hone2, hkids2, hpar2⟩ :=
      AddNode_keeps_one_parent h P X (rest.map Prod.snd) hv.1 hv.2 hnd.1 hone
        (by simpa using hkids) (by simpa using hpar)
    have hvalid2 : ∀ c ∈ rest, c.1 < h2.length ∧ c.2 < h2.length := by
      intro c hc
      rw [hlen]
      exact hvalid c (List.mem_cons_of_mem _ hc)
    obtain ⟨ih1, ih2⟩ := ih h2 hvalid2 hnd.2 hone2 hkids2 hpar2
    constructor
    · intro k
      cases k with
      | zero => exact ⟨h, by simp [AddNodes], hone⟩
      | succ k =>
        obtain ⟨hk, hk1, hk2⟩ := ih1 k
        exact ⟨hk, by simp [AddNodes, hA, hk1], hk2⟩
    · refine ⟨?_, ?_⟩
      · have hXlt := hv.2
        refine ⟨h[X], List.getElem?_eq_getElem hXlt, ?_⟩
        exact hpar X (by simp) _ (List.getElem?_eq_getElem hXlt)
      · intro h2b hA2
        rw [hA] at hA2
        cases hA2
        exact ih2

/-- C11, counterexample: three detached nodes `a`, `b`, `x`; after `a.AddNode(x)` and
`b.AddNode(x)` the node `x` is in the child lists of both `a` and `b`, and its parent
back-reference, already set to `a`, has been overwritten with `b`. -/
theorem C11_counterexample :
    ∃ h1 h2 a b x1 x2, AddNodes threeNodes [(0, 2)] = some h1 ∧
      AddNodes threeNodes [(0, 2), (1, 2)] = some h2 ∧
      h2[0]? = some a ∧ h2[1]? = some b ∧ 2 ∈ a.m_arrNodes ∧ 2 ∈ b.m_arrNodes ∧
      h1[2]? = some x1 ∧ x1.m_pParent = some 0 ∧
      h2[2]? = some x2 ∧ x2.m_pParent = some 1 ∧ ¬ AtMostOneParent h2 := by
  refine ⟨_, _, _, _, _, _, rfl, rfl, rfl, rfl, ?_, ?_, rfl, rfl, rfl, rfl, ?_⟩
  · decide
  · decide
  · intro hone
    have := hone.1 2 0 1 _ _ rfl rfl (by decide) (by decide)
    exact absurd this (by decide)

/-- C11, as amended: for every sequence of `AddNode` calls on detached nodes in which no
node is handed to `AddNode` more than once, at every step no node is in the child lists
of two different nodes nor twice in one child list, and every call finds the parent
back-reference of its argument unset, so none is overwritten. -/
theorem C11_distinct_attachments_one_parent (h0 : Heap) (calls : List (Ptr × Ptr))
    (hdetached : AllDetached h0)
    (hvalid : ∀ c ∈ calls, c.1 < h0.length ∧ c.2 < h0.length)
    (hdistinct : (calls.map Prod.snd).Nodup) :
    (∀ k : Nat, ∃ hk, AddNodes h0 (calls.take k) = some hk ∧ AtMostOneParent hk) ∧
      ParentsSetOnce h0 calls := by
  have hnode : ∀ (Q : Ptr) (q : Node), h0[Q]? = some q →
      q.m_pParent = none ∧ q.m_arrNodes = [] := by
    intro Q q hQ
    obtain ⟨hlt, hq⟩ := List.getElem?_eq_some.1 hQ
    exact hdetached q (hq ▸ List.getElem_mem hlt)
  refine AddNodes_keep_one_parent calls h0 hvalid hdistinct ⟨?_, ?_⟩ ?_ ?_
  · intro x P Q p q hP _ hx _
    rw [(hnode P p hP).2] at hx
    simp at hx
  · intro x P p hP
    rw [(hnode P p hP).2]
    simp
  · intro Q q hQ y hy
    rw [(hnode Q q hQ).2] at hy
    simp at hy
  · intro Y _ y hY
    exact (hnode Y y hY).1

/-- Witness of the amended C11: `x` is attached to `a`, then `b` to `x`. -/
theorem C11_witness :
    (∀ k : Nat, ∃ hk, AddNodes threeNodes ([(0, 2), (2, 1)].take k) = some hk ∧
        AtMostOneParent hk) ∧
      ParentsSetOnce threeNodes [(0, 2), (2, 1)] :=
  C11_distinct_attachments_one_parent threeNodes [(0, 2), (2, 1)]
    (by intro n hn; simp [threeNodes, Node.create] at hn; rcases hn with e | e | e <;> simp [e])
    (by decide) (by decide)

/-- C12: `SetProjectionParameters` (either overload) followed by
`GetProjectionParameters` returns the four scalars that were passed, whatever they are;
so do the three constructors. -/
theorem C12_projection_parameters_round_trip (C : GlmCamera) (cam : CameraNode)
    (junkMatrix : Mat4) (junkParams : Vec4) (fov aspect nearplane farplane : ℚ) :
    (cam.SetProjectionParameters C fov aspect nearplane farplane).GetProjectionParameters
        = ⟨fov, aspect, nearplane, farplane⟩ ∧
    (cam.SetProjectionParametersVec C
        ⟨fov, aspect, nearplane, farplane⟩).GetProjectionParameters
        = ⟨fov, aspect, nearplane, farplane⟩ ∧
    (CameraNode.create4 C junkMatrix junkParams fov aspect nearplane
        farplane).GetProjectionParameters = ⟨fov, aspect, nearplane, farplane⟩ ∧
    (CameraNode.createVec C junkMatrix junkParams
        ⟨fov, aspect, nearplane, farplane⟩).GetProjectionParameters
        = ⟨fov, aspect, nearplane, farplane⟩ ∧
    (CameraNode.create C junkMatrix junkParams).GetProjectionParameters
        = ⟨C.half_pi, 1, 1, 500⟩ :=
  ⟨rfl, rfl, rfl, rfl, rfl⟩

/-- C13, counterexample: for no library does the invariant survive `SetProjectionMatrix`:
on a freshly constructed camera the call stores the matrix it is given and leaves the
four parameters alone, and two different matrices cannot both be the perspective matrix
of the same parameters. -/
theorem C13_counterexample :
    ¬ ∃ C : GlmCamera, ∀ m : Mat4,
      ((CameraNode.create C Mat4.identity ⟨0, 0, 0, 0⟩).run C
        [CameraOp.setProjectionMatrix m]).ProjectionConsistent C := by
  rintro ⟨C, hC⟩
  have h1 := hC Mat4.identity
  have h2 := hC ⟨fun _ _ => 0⟩
  simp only [CameraNode.ProjectionConsistent, CameraNode.run, List.foldl_cons, List.foldl_nil,
    CameraNode.apply, CameraNode.SetProjectionMatrix, CameraNode.GetProjectionParameters] at h1 h2
  have h3 : Mat4.identity = (⟨fun _ _ => 0⟩ : Mat4) := h1.trans h2.symm
  have h4 := congrArg (fun m : Mat4 => m.entry 0 0) h3
  simp [Mat4.identity] at h4

/-- C13, as amended: in every state of a camera reached from one of its constructors
through `SetProjectionParameters` (either overload) and inherited `Node` operations, that
is through no `SetProjectionMatrix` and no write through the mutable
`GetProjectionMatrix()`, the stored projection matrix is the perspective matrix of the
four stored parameters. -/
theorem C13_projection_consistent_without_matrix_writes (C : GlmCamera)
    (junkMatrix : Mat4) (junkParams : Vec4) (fov aspect nearplane farplane : ℚ)
    (ops : List CameraOp) (hops : ∀ op ∈ ops, op.writesMatrix = false) :
    ((CameraNode.create C junkMatrix junkParams).run C ops).ProjectionConsistent C ∧
    ((CameraNode.create4 C junkMatrix junkParams fov aspect nearplane farplane).run C
      ops).ProjectionConsistent C ∧
    ((CameraNode.createVec C junkMatrix junkParams ⟨fov, aspect, nearplane, farplane⟩).run C
      ops).ProjectionConsistent C := by
  have step : ∀ (ops : List CameraOp) (cam : CameraNode),
      (∀ op ∈ ops, op.writesMatrix = false) → cam.ProjectionConsistent C →
      (cam.run C ops).ProjectionConsistent C := by
    intro ops
    induction ops with
    | nil => intro cam _ hc; exact hc
    | cons op rest ih =>
      intro cam hall hc
      have hop := hall op (List.mem_cons_self _ _)
      have hrest : ∀ o ∈ rest, o.writesMatrix = false :=
        fun o ho => hall o (List.mem_cons_of_mem _ ho)
      simp only [CameraNode.run, List.foldl_cons]
      refine ih (cam.apply C op) hrest ?_
      cases op with
      | setProjectionParameters a b c d => rfl
      | setProjectionParametersVec v => rfl
      | setProjectionMatrix m => simp [CameraOp.writesMatrix] at hop
      | writeProjectionMatrix m => simp [CameraOp.writesMatrix] at hop
      | nodeOp f => exact hc
  exact ⟨step ops _ hops rfl, step ops _ hops rfl, step ops _ hops rfl⟩

/-- Witness of the amended C13: a camera is moved, given new parameters, and renamed. -/
theorem C13_witness :
    ((CameraNode.create sampleCamera Mat4.identity ⟨0, 0, 0, 0⟩).run sampleCamera
        [CameraOp.nodeOp (fun n => n.SetPos ⟨1, 2, 3⟩),
          CameraOp.setProjectionParameters 1 (16 / 9) (1 / 10) 100,
          CameraOp.nodeOp (fun n => n.SetName "eye")]).ProjectionConsistent sampleCamera :=
  (C13_projection_consistent_without_matrix_writes sampleCamera Mat4.identity ⟨0, 0, 0, 0⟩
    1 1 1 2 _ (by intro op hop; simp at hop; rcases hop with e | e | e <;> rw [e] <;> rfl)).1

/-- C19: `RotateAxisAngle(axis, angle)` leaves `GetPos()` unchanged and replaces the rest
of the local matrix by `rotate(identity, angle, normalize(axis))`; afterwards the angle is
`angle` and the stored axis is `normalize(axis)`.  `SetRotationAngle` and
`SetRotationAxis` are the same call on the stored axis, respectively the stored angle,
and when `normalize` returns a vector of unit length as it is, `SetRotationAngle` on a
node whose stored axis has unit length leaves the axis unchanged. -/
theorem C19_RotateAxisAngle_keeps_position (G : Glm) (n : Node) (axis : Vec3) (angle : ℚ)
    (hnorm : ∀ v : Vec3, v.dot v = 1 → G.normalize v = v) :
    (n.RotateAxisAngle G axis angle).GetPos = n.GetPos ∧
    (∀ c r : Fin 4, ¬ (c = 3 ∧ r ≠ 3) →
      (n.RotateAxisAngle G axis angle).m_mModel.entry c r
        = (G.rotate Mat4.identity angle (G.normalize axis)).entry c r) ∧
    (n.RotateAxisAngle G axis angle).m_fRotationAngle = angle ∧
    (n.RotateAxisAngle G axis angle).m_vRotationAxis = G.normalize axis ∧
    n.SetRotationAngle G angle = n.RotateAxisAngle G n.m_vRotationAxis angle ∧
    n.SetRotationAxis G axis = n.RotateAxisAngle G axis n.m_fRotationAngle ∧
    (n.m_vRotationAxis.dot n.m_vRotationAxis = 1 →
      (n.SetRotationAngle G angle).m_vRotationAxis = n.m_vRotationAxis ∧
      (n.SetRotationAngle G angle).m_fRotationAngle = angle ∧
      (n.SetRotationAngle G angle).GetPos = n.GetPos) := by
  refine ⟨?_, ?_, rfl, rfl, rfl, rfl, ?_⟩
  · simp [Node.RotateAxisAngle, Node.SetPos, Node.GetPos]
  · intro c r hcr
    have h0 : ¬ (c = 3 ∧ r = 0) := fun ⟨a, b⟩ => hcr ⟨a, by rw [b]; decide⟩
    have h1 : ¬ (c = 3 ∧ r = 1) := fun ⟨a, b⟩ => hcr ⟨a, by rw [b]; decide⟩
    have h2 : ¬ (c = 3 ∧ r = 2) := fun ⟨a, b⟩ => hcr ⟨a, by rw [b]; decide⟩
    simp only [Node.RotateAxisAngle, Node.SetPos, h0, h1, h2, if_false]
  · intro hunit
    refine ⟨?_, rfl, ?_⟩
    · show G.normalize n.m_vRotationAxis = n.m_vRotationAxis
      exact hnorm _ hunit
    · simp [Node.SetRotationAngle, Node.RotateAxisAngle, Node.SetPos, Node.GetPos]

/-- Witness of C19: the node `hand` of the sample scene is turned about the y axis. -/
theorem C19_witness :
    ((sampleHeap[2]).RotateAxisAngle sampleGlm ⟨0, 3, 0⟩ (1 / 3)).GetPos
      = (sampleHeap[2]).GetPos ∧
    ((sampleHeap[2]).RotateAxisAngle sampleGlm ⟨0, 3, 0⟩ (1 / 3)).m_fRotationAngle = 1 / 3 :=
  ⟨(C19_RotateAxisAngle_keeps_position sampleGlm (sampleHeap[2]) ⟨0, 3, 0⟩ (1 / 3)
      (fun _ _ => rfl)).1,
    (C19_RotateAxisAngle_keeps_position sampleGlm (sampleHeap[2]) ⟨0, 3, 0⟩ (1 / 3)
      (fun _ _ => rfl)).2.2.1⟩

/-- C20: for a timer with a positive rate, whatever start tick it holds (the one
`BeginTimer` recorded, or 0 when `BeginTimer` was never called) and whatever the end
tick, the frame time after `EndTimer` is strictly positive: it is 0.000001 when the end
tick equals the start tick or the start tick is 0, and otherwise the difference of the
ticks modulo `2^64` times the rate. -/
theorem C20_EndTimer_never_zero (t : Timer) (e : Nat)
    (hrate : 0 < t.m_dRateToSeconds) (hs : t.m_uStartClock < 2 ^ 64) (he : e < 2 ^ 64) :
    0 < (t.EndTimer e).GetElapsedSeconds ∧
    ((e = t.m_uStartClock ∨ t.m_uStartClock = 0) →
      (t.EndTimer e).GetElapsedSeconds = 1 / 1000000) ∧
    (¬ (e = t.m_uStartClock ∨ t.m_uStartClock = 0) →
      (t.EndTimer e).GetElapsedSeconds
        = ((((e : ℤ) - (t.m_uStartClock : ℤ)) % 2 ^ 64 : ℤ) : ℚ) * t.m_dRateToSeconds) ∧
    (∀ s : Nat, s < 2 ^ 64 → (t.BeginTimer s).m_uStartClock = s ∧
      (t.BeginTimer s).m_dRateToSeconds = t.m_dRateToSeconds) ∧
    (∀ (rate : ℚ) (freq : Nat), (Timer.create rate freq).m_uStartClock = 0 ∧
      (Timer.create rate freq).m_dRateToSeconds = rate) := by
  have hmod : e % 2 ^ 64 = e := Nat.mod_eq_of_lt he
  refine ⟨?_, ?_, ?_, ?_, ?_⟩
  · unfold Timer.EndTimer Timer.GetElapsedSeconds
    rw [hmod]
    by_cases hc : e = t.m_uStartClock ∨ t.m_uStartClock = 0
    · simp only [hc, if_true]; norm_num
    · simp only [hc, if_false]
      have hne : e ≠ t.m_uStartClock := fun h => hc (Or.inl h)
      have hpos : 0 < (e + 2 ^ 64 - t.m_uStartClock) % 2 ^ 64 := by
        norm_num at hs he ⊢
        omega
      have hq : (0 : ℚ) < (((e + 2 ^ 64 - t.m_uStartClock) % 2 ^ 64 : ℕ) : ℚ) := by
        exact_mod_cast hpos
      exact mul_pos hq hrate
  · intro hc
    unfold Timer.EndTimer Timer.GetElapsedSeconds
    rw [hmod]
    simp only [hc, if_true]
  · intro hc
    unfold Timer.EndTimer Timer.GetElapsedSeconds
    rw [hmod]
    simp only [hc, if_false]
    have hz : (((e + 2 ^ 64 - t.m_uStartClock) % 2 ^ 64 : ℕ) : ℤ)
        = ((e : ℤ) - (t.m_uStartClock : ℤ)) % 2 ^ 64 := by
      norm_num at hs he ⊢
      omega
    have hq : (((e + 2 ^ 64 - t.m_uStartClock) % 2 ^ 64 : ℕ) : ℚ)
        = ((((e : ℤ) - (t.m_uStartClock : ℤ)) % 2 ^ 64 : ℤ) : ℚ) := by
      rw [← hz]; norm_cast
    rw [hq]
  · intro s hs2
    exact ⟨Nat.mod_eq_of_lt hs2, rfl⟩
  · intro rate freq
    exact ⟨rfl, rfl⟩

/-- Witness of C20: a nanosecond timer started at tick 5 and stopped at tick 2, the
counter having wrapped in between. -/
theorem C20_witness :
    0 < (((Timer.create (1 / 1000000000) 10000000).BeginTimer 5).EndTimer 2).GetElapsedSeconds :=
  (C20_EndTimer_never_zero ((Timer.create (1 / 1000000000) 10000000).BeginTimer 5) 2
    (by simp [Timer.create, Timer.BeginTimer])
    (by simp [Timer.create, Timer.BeginTimer])
    (by norm_num)).1

/-! ## Lemmas: matrices -/

theorem Mat4.mul_entry (a b : Mat4) (c r : Fin 4) :
    (a * b).entry c r = a.entry 0 r * b.entry c 0 + a.entry 1 r * b.entry c 1
      + a.entry 2 r * b.entry c 2 + a.entry 3 r * b.entry c 3 := rfl

theorem Mat4.toMatrix_mul (a b : Mat4) : (a * b).toMatrix = a.toMatrix * b.toMatrix := by
  ext r c
  simp only [Mat4.toMatrix, Matrix.of_apply, Matrix.mul_apply, Fin.sum_univ_four,
    Mat4.mul_entry]

theorem Mat4.toMatrix_identity : Mat4.identity.toMatrix = 1 := by
  ext r c
  simp only [Mat4.toMatrix, Matrix.of_apply, Mat4.identity, Matrix.one_apply]
  by_cases h : r = c
  · simp [h]
  · have h2 : ¬ c = r := fun e => h e.symm
    simp [h, h2]

theorem Mat4.toMatrix_injective (a b : Mat4) (h : a.toMatrix = b.toMatrix) : a = b := by
  ext c r
  have := congrFun (congrFun h r) c
  simpa [Mat4.toMatrix] using this

theorem Mat4.toMatrix_ofMatrix (A : Matrix (Fin 4) (Fin 4) ℚ) :
    (Mat4.ofMatrix A).toMatrix = A := by
  ext r c
  rfl

/-- The exact inverse meets the contract of `glm::inverse`. -/
theorem inverseExact_contract : InverseContract Mat4.inverseExact := by
  intro M V hVM _
  apply Mat4.toMatrix_injective
  have h1 : V.toMatrix * M.toMatrix = 1 := by
    rw [← Mat4.toMatrix_mul, hVM, Mat4.toMatrix_identity]
  have hdet : M.toMatrix.det ≠ 0 := by
    intro h0
    have := congrArg Matrix.det h1
    rw [Matrix.det_mul, h0, mul_zero, Matrix.det_one] at this
    exact zero_ne_one this
  have h2 : M.toMatrix * ((M.toMatrix.det)⁻¹ • M.toMatrix.adjugate) = 1 := by
    rw [Matrix.mul_smul, Matrix.mul_adjugate, smul_smul, inv_mul_cancel₀ hdet, one_smul]
  unfold Mat4.inverseExact
  rw [Mat4.toMatrix_ofMatrix]
  calc (M.toMatrix.det)⁻¹ • M.toMatrix.adjugate
      = (V.toMatrix * M.toMatrix) * ((M.toMatrix.det)⁻¹ • M.toMatrix.adjugate) := by
        rw [h1, one_mul]
    _ = V.toMatrix * (M.toMatrix * ((M.toMatrix.det)⁻¹ • M.toMatrix.adjugate)) := by
        rw [Matrix.mul_assoc]
    _ = V.toMatrix := by rw [h2, mul_one]

/-- The glm look-at matrix sends the eye point to the origin, whatever `normalize`
returns. -/
theorem glmLookAt_eye (nrm : Vec3 → Vec3) (eye center up : Vec3) (r : Fin 4) :
    (glmLookAt nrm eye center up).entry 0 r * eye.x
      + (glmLookAt nrm eye center up).entry 1 r * eye.y
      + (glmLookAt nrm eye center up).entry 2 r * eye.z
      + (glmLookAt nrm eye center up).entry 3 r = if r = 3 then 1 else 0 := by
  fin_cases r <;> simp [glmLookAt, Vec3.dot] <;> ring

/-- The world matrix at the end of a chain of parent back-references that starts at a node
without parent. -/
theorem GetWorldMatrix_of_chain (h : Heap) (a0 : Ptr) (rest : List Ptr) (fuel : Nat)
    (hchain : isParentChain h none (a0 :: rest) = true)
    (hfuel : (a0 :: rest).length ≤ fuel) :
    GetWorldMatrix fuel h ((a0 :: rest).getLast (List.cons_ne_nil a0 rest))
      = some (chainProduct h (localAt h a0) rest) := by
  have hc := hchain
  simp only [isParentChain] at hc
  cases h0 : h[a0]? with
  | none => simp [h0] at hc
  | some n0 =>
    simp only [h0, Bool.and_eq_true, decide_eq_true_eq] at hc
    have hw0 : GetWorldMatrix 1 h a0 = some (localAt h a0) := by
      simp [GetWorldMatrix, h0, hc.1, localAt]
    have hlast := GetWorldMatrix_chain h rest a0 (localAt h a0) 1 hw0 hc.2
    have hle : 1 + rest.length ≤ fuel := by
      simp only [List.length_cons] at hfuel; omega
    exact GetWorldMatrix_mono_le h _ _ _ hlast fuel hle

/-- C14, the code at the failing input: with the perspective matrix of the glm library,
`SetProjectionParameters(fov, aspect, near, far)` stores `m[0][0] = 1 / (aspect *
tan(fov/2))` and `m[1][1] = 1 / tan(fov/2)`: the angle is used as the vertical opening
angle, and for aspect 2 the entry `m[0][0]` is not `1 / tan(fov/2)`. -/
theorem C14_perspective_treats_fov_as_vertical (tan : ℚ → ℚ) (C : GlmCamera)
    (cam : CameraNode) (fov aspect nearplane farplane : ℚ) :
    (cam.SetProjectionParameters { C with perspective := glmPerspective tan } fov aspect
        nearplane farplane).m_mProjection.entry 0 0 = 1 / (aspect * tan (fov / 2)) ∧
    (cam.SetProjectionParameters { C with perspective := glmPerspective tan } fov aspect
        nearplane farplane).m_mProjection.entry 1 1 = 1 / tan (fov / 2) ∧
    (tan (fov / 2) ≠ 0 →
      (cam.SetProjectionParameters { C with perspective := glmPerspective tan } fov 2 1
        500).m_mProjection.entry 0 0 ≠ 1 / tan (fov / 2)) := by
  refine ⟨by simp [CameraNode.SetProjectionParameters, glmPerspective],
    by simp [CameraNode.SetProjectionParameters, glmPerspective], ?_⟩
  intro ht
  simp only [CameraNode.SetProjectionParameters, glmPerspective, and_self, if_true]
  intro heq
  field_simp at heq

/-- C15: for a camera at the end of a chain of parent back-references whose world matrix
`W`, the ordered product of the local matrices along the chain, has an inverse, and a
`glm::inverse` that returns the inverse of a matrix that has one, `GetViewMatrix()`
returns a matrix `V` with `V * W = W * V = identity`, `W` being what `GetWorldMatrix()`
returns: the ancestors' matrices enter the view. -/
theorem C15_view_matrix_inverts_world (C : GlmCamera) (hinv : InverseContract C.inverse)
    (h : Heap) (a0 : Ptr) (rest : List Ptr) (fuel : Nat)
    (hchain : isParentChain h none (a0 :: rest) = true)
    (hfuel : (a0 :: rest).length ≤ fuel)
    (hW : ∃ V, V * chainProduct h (localAt h a0) rest = Mat4.identity ∧
      chainProduct h (localAt h a0) rest * V = Mat4.identity) :
    ∃ V W, GetViewMatrix C fuel h ((a0 :: rest).getLast (List.cons_ne_nil a0 rest)) = some V ∧
      GetWorldMatrix fuel h ((a0 :: rest).getLast (List.cons_ne_nil a0 rest)) = some W ∧
      W = chainProduct h (localAt h a0) rest ∧
      V * W = Mat4.identity ∧ W * V = Mat4.identity := by
  obtain ⟨V, hV1, hV2⟩ := hW
  have hw := GetWorldMatrix_of_chain h a0 rest fuel hchain hfuel
  refine ⟨V, _, ?_, hw, rfl, hV1, hV2⟩
  unfold GetViewMatrix
  rw [hw, Option.map_some', hinv _ V hV1 hV2]

/-- Witness of C15: the camera `x` of the sample scene hangs below `hand`, whose local
matrix scales by 2 and moves by 5; the view matrix inverts that. -/
theorem C15_witness :
    ∃ V W, GetViewMatrix sampleCamera 4 sampleHeap 3 = some V ∧
      GetWorldMatrix 4 sampleHeap 3 = some W ∧
      W = chainProduct sampleHeap (localAt sampleHeap 0) [1, 2, 3] ∧
      V * W = Mat4.identity ∧ W * V = Mat4.identity :=
  C15_view_matrix_inverts_world sampleCamera inverseExact_contract sampleHeap 0 [1, 2, 3] 4
    (by decide) (by decide)
    ⟨handInverse, by
      ext c r
      fin_cases c <;> fin_cases r <;>
        simp [chainProduct, localAt, sampleHeap, Node.create, Mat4.mul_entry, Mat4.identity,
          handInverse] <;> norm_num, by
      ext c r
      fin_cases c <;> fin_cases r <;>
        simp [chainProduct, localAt, sampleHeap, Node.create, Mat4.mul_entry, Mat4.identity,
          handInverse] <;> norm_num⟩

theorem glmLookAt_mul_rigidInverse (nrm : Vec3 → Vec3) (eye center up : Vec3)
    (hf : (nrm (center.sub eye)).dot (nrm (center.sub eye)) = 1)
    (hs : (nrm ((nrm (center.sub eye)).cross up)).dot
      (nrm ((nrm (center.sub eye)).cross up)) = 1)
    (hsf : (nrm ((nrm (center.sub eye)).cross up)).dot (nrm (center.sub eye)) = 0) :
    glmLookAt nrm eye center up * rigidInverse (glmLookAt nrm eye center up) eye
      = Mat4.identity := by
  simp only [glmLookAt]
  generalize nrm (center.sub eye) = f at hf hs hsf ⊢
  generalize nrm (f.cross up) = s at hs hsf ⊢
  obtain ⟨f1, f2, f3⟩ := f
  obtain ⟨s1, s2, s3⟩ := s
  obtain ⟨e1, e2, e3⟩ := eye
  simp only [Vec3.dot] at hf hs hsf
  ext c r
  fin_cases c <;> fin_cases r <;>
    simp [rigidInverse, Mat4.mul_entry, Mat4.identity, Vec3.dot, Vec3.cross] <;>
    first
      | ring1
      | linear_combination hs
      | linear_combination hf
      | linear_combination (-1 : ℚ) * hsf
      | linear_combination hsf
      | linear_combination (f1 * f1 + f2 * f2 + f3 * f3) * hs + hf
          - (s1 * f1 + s2 * f2 + s3 * f3) * hsf

/-- The glm look-at matrix has an inverse whenever `normalize` is exact on the two vectors
the library normalises: the view direction `f` and the side vector `s` come out of unit
length, `s` at a right angle to `f` (what `from != at` and a direction not parallel to
the up vector provide). -/
theorem glmLookAt_invertible (nrm : Vec3 → Vec3) (eye center up : Vec3)
    (hf : (nrm (center.sub eye)).dot (nrm (center.sub eye)) = 1)
    (hs : (nrm ((nrm (center.sub eye)).cross up)).dot
      (nrm ((nrm (center.sub eye)).cross up)) = 1)
    (hsf : (nrm ((nrm (center.sub eye)).cross up)).dot (nrm (center.sub eye)) = 0) :
    ∃ X, X * glmLookAt nrm eye center up = Mat4.identity ∧
      glmLookAt nrm eye center up * X = Mat4.identity := by
  have h1 := glmLookAt_mul_rigidInverse nrm eye center up hf hs hsf
  refine ⟨rigidInverse (glmLookAt nrm eye center up) eye, ?_, h1⟩
  apply Mat4.toMatrix_injective
  have h2 := congrArg Mat4.toMatrix h1
  rw [Mat4.toMatrix_mul, Mat4.toMatrix_identity] at h2
  rw [Mat4.toMatrix_mul, Mat4.toMatrix_identity]
  exact Matrix.mul_eq_one_comm.1 h2

/-- C18: when the look-at matrix `L = lookAt(from, at, (0,1,0))` has an inverse and sends
the point `from` to the origin (what the library provides for `from != at` and a
direction not parallel to the up vector, see `glmLookAt_invertible` and `glmLookAt_eye`),
and `glm::inverse` returns the inverse of a matrix that has one, then after
`LookAt(from, at)` the camera's `GetPos()` is `from`, and for a camera without parent
`GetViewMatrix()` is `L`. -/
theorem C18_LookAt_position_and_view (C : GlmCamera) (hinv : InverseContract C.inverse)
    (cam : CameraNode) (eye target : Vec3)
    (hL : ∃ X, X * C.lookAt eye target ⟨0, 1, 0⟩ = Mat4.identity ∧
      C.lookAt eye target ⟨0, 1, 0⟩ * X = Mat4.identity)
    (heye : ∀ r : Fin 4,
      (C.lookAt eye target ⟨0, 1, 0⟩).entry 0 r * eye.x
        + (C.lookAt eye target ⟨0, 1, 0⟩).entry 1 r * eye.y
        + (C.lookAt eye target ⟨0, 1, 0⟩).entry 2 r * eye.z
        + (C.lookAt eye target ⟨0, 1, 0⟩).entry 3 r = if r = 3 then 1 else 0) :
    (cam.LookAt C eye target).GetPos = eye ∧
    ∀ (fuel : Nat) (h : Heap) (p : Ptr), h[p]? = some (cam.LookAt C eye target).toNode →
      cam.m_pParent = none →
      GetViewMatrix C (fuel + 1) h p = some (C.lookAt eye target ⟨0, 1, 0⟩) := by
  obtain ⟨X, hX1, hX2⟩ := hL
  have hinvL : C.inverse (C.lookAt eye target ⟨0, 1, 0⟩) = X := hinv _ X hX1 hX2
  have hinvX : C.inverse X = C.lookAt eye target ⟨0, 1, 0⟩ := hinv X _ hX2 hX1
  constructor
  · have hcol : ∀ r : Fin 4, X.entry 3 r
        = X.entry 0 r * (if (0 : Fin 4) = 3 then 1 else 0)
          + X.entry 1 r * (if (1 : Fin 4) = 3 then 1 else 0)
          + X.entry 2 r * (if (2 : Fin 4) = 3 then 1 else 0)
          + X.entry 3 r * (if (3 : Fin 4) = 3 then 1 else 0) := by
      intro r; simp
    have hprod : ∀ c r : Fin 4, (X * C.lookAt eye target ⟨0, 1, 0⟩).entry c r
        = if c = r then 1 else 0 := by
      intro c r; rw [hX1]; rfl
    have key : ∀ r : Fin 4, X.entry 3 r
        = eye.x * (if (0 : Fin 4) = r then 1 else 0)
          + eye.y * (if (1 : Fin 4) = r then 1 else 0)
          + eye.z * (if (2 : Fin 4) = r then 1 else 0)
          + (if (3 : Fin 4) = r then 1 else 0) := by
      intro r
      rw [hcol r, ← heye 0, ← heye 1, ← heye 2, ← heye 3,
        ← hprod 0 r, ← hprod 1 r, ← hprod 2 r, ← hprod 3 r]
      simp only [Mat4.mul_entry]
      ring
    have k0 := key 0
    have k1 := key 1
    have k2 := key 2
    simp only [CameraNode.LookAt, Node.GetPos, hinvL]
    have e10 : ¬ ((1 : Fin 4) = 0) := by decide
    have e20 : ¬ ((2 : Fin 4) = 0) := by decide
    have e30 : ¬ ((3 : Fin 4) = 0) := by decide
    have e01 : ¬ ((0 : Fin 4) = 1) := by decide
    have e21 : ¬ ((2 : Fin 4) = 1) := by decide
    have e31 : ¬ ((3 : Fin 4) = 1) := by decide
    have e02 : ¬ ((0 : Fin 4) = 2) := by decide
    have e12 : ¬ ((1 : Fin 4) = 2) := by decide
    have e32 : ¬ ((3 : Fin 4) = 2) := by decide
    simp only [e10, e20, e30, if_true, if_false, mul_one, mul_zero, add_zero] at k0
    simp only [e01, e21, e31, if_true, if_false, mul_one, mul_zero, add_zero, zero_add] at k1
    simp only [e02, e12, e32, if_true, if_false, mul_one, mul_zero, add_zero, zero_add] at k2
    rw [k0, k1, k2]
  · intro fuel h p hp hpar
    have hpar2 : (cam.LookAt C eye target).toNode.m_pParent = none := hpar
    have hmodel : (cam.LookAt C eye target).toNode.m_mModel = X := by
      simp only [CameraNode.LookAt, hinvL]
    unfold GetViewMatrix
    rw [GetWorldMatrix]
    simp only [hp, hpar2, Option.map_some', hmodel, hinvX]

/-- Witness of C18: a camera at `(0, 0, 1)` looks at the origin. -/
theorem C18_witness :
    ((CameraNode.create sampleCamera Mat4.identity ⟨0, 0, 0, 0⟩).LookAt sampleCamera
      ⟨0, 0, 1⟩ ⟨0, 0, 0⟩).GetPos = ⟨0, 0, 1⟩ :=
  (C18_LookAt_position_and_view sampleCamera inverseExact_contract
    (CameraNode.create sampleCamera Mat4.identity ⟨0, 0, 0, 0⟩) ⟨0, 0, 1⟩ ⟨0, 0, 0⟩
    (glmLookAt_invertible (fun v => v) ⟨0, 0, 1⟩ ⟨0, 0, 0⟩ ⟨0, 1, 0⟩
      (by simp [Vec3.sub, Vec3.dot]) (by simp [Vec3.sub, Vec3.cross, Vec3.dot])
      (by simp [Vec3.sub, Vec3.cross, Vec3.dot]))
    (glmLookAt_eye (fun v => v) ⟨0, 0, 1⟩ ⟨0, 0, 0⟩ ⟨0, 1, 0⟩)).1

/-! ## Lemmas: rendering -/

theorem renderSelf_cases (kind : Ptr → NodeKind) (proj view : Mat4) (wfuel : Nat) (h : Heap)
    (p : Ptr) (own : List RenderEvent) (hown : renderSelf kind proj view wfuel h p = some own) :
    (own = [] ∧ ∀ hm, kind p ≠ NodeKind.geometry true hm) ∨
    ∃ hm w, kind p = NodeKind.geometry true hm ∧ GetWorldMatrix wfuel h p = some w ∧
      own = [RenderEvent.setAttribs p, RenderEvent.setUniformMatrix4 "modelMatrix" w,
          RenderEvent.setUniformMatrix4 "modelViewProjectionMatrix" (proj * view * w)]
        ++ (if hm then [RenderEvent.setToProgram p] else []) ++ [RenderEvent.draw p] := by
  unfold renderSelf at hown
  cases hk : kind p with
  | node =>
    simp only [hk, Option.some.injEq] at hown
    exact Or.inl ⟨hown.symm, fun hm => by simp⟩
  | camera =>
    simp only [hk, Option.some.injEq] at hown
    exact Or.inl ⟨hown.symm, fun hm => by simp⟩
  | geometry hg hm =>
    cases hg with
    | false =>
      simp only [hk, Option.some.injEq] at hown
      exact Or.inl ⟨hown.symm, fun hm2 => by simp⟩
    | true =>
      simp only [hk] at hown
      cases hw : GetWorldMatrix wfuel h p with
      | none => simp [hw] at hown
      | some w =>
        simp only [hw, Option.some.injEq] at hown
        exact Or.inr ⟨hm, w, rfl, rfl, hown.symm⟩

theorem renderVisit_rendered (kind : Ptr → NodeKind) (proj view : Mat4) (wfuel : Nat)
    (h : Heap) (p : Ptr) :
    (renderVisit kind proj view wfuel h p).filterMap RenderEvent.rendered = [p] := by
  unfold renderVisit
  cases hown : renderSelf kind proj view wfuel h p with
  | none => simp [RenderEvent.rendered]
  | some own =>
    rcases renderSelf_cases kind proj view wfuel h p own hown with ⟨e, _⟩ | ⟨hm, w, _, _, e⟩
    · simp [e, RenderEvent.rendered]
    · cases hm <;> simp [e, RenderEvent.rendered]

theorem flatMap_renderVisit_rendered (kind : Ptr → NodeKind) (proj view : Mat4) (wfuel : Nat)
    (h : Heap) (l : List Ptr) :
    (l.flatMap (renderVisit kind proj view wfuel h)).filterMap RenderEvent.rendered = l := by
  induction l with
  | nil => rfl
  | cons p l ih =>
    rw [List.flatMap_cons, List.filterMap_append, renderVisit_rendered, ih]
    rfl

/-- A draw call or a material application for `M` comes from the visit of `M` only. -/
theorem renderVisit_mem (kind : Ptr → NodeKind) (proj view : Mat4) (wfuel : Nat)
    (h : Heap) (p M : Ptr)
    (hmem : RenderEvent.draw M ∈ renderVisit kind proj view wfuel h p ∨
      RenderEvent.setToProgram M ∈ renderVisit kind proj view wfuel h p) : p = M := by
  unfold renderVisit at hmem
  cases hown : renderSelf kind proj view wfuel h p with
  | none => simp [hown] at hmem
  | some own =>
    rcases renderSelf_cases kind proj view wfuel h p own hown with ⟨e, _⟩ | ⟨hm, w, _, _, e⟩
    · simp [hown, e] at hmem
    · cases hm <;> simp [hown, e] at hmem <;> exact hmem.symm

theorem flatMap_renderVisit_count_zero (kind : Ptr → NodeKind) (proj view : Mat4)
    (wfuel : Nat) (h : Heap) (l : List Ptr) (M : Ptr) (hM : M ∉ l) :
    (l.flatMap (renderVisit kind proj view wfuel h)).count (RenderEvent.draw M) = 0 ∧
    (l.flatMap (renderVisit kind proj view wfuel h)).count (RenderEvent.setToProgram M) = 0 := by
  constructor
  · rw [List.count_eq_zero]
    intro hmem
    obtain ⟨p, hp, hpm⟩ := List.mem_flatMap.1 hmem
    exact hM (renderVisit_mem kind proj view wfuel h p M (Or.inl hpm) ▸ hp)
  · rw [List.count_eq_zero]
    intro hmem
    obtain ⟨p, hp, hpm⟩ := List.mem_flatMap.1 hmem
    exact hM (renderVisit_mem kind proj view wfuel h p M (Or.inr hpm) ▸ hp)

/-- The loop of `Render` over the children yields the visits of the concatenated
pre-order listings, given that `Render` with this fuel does so on every subtree. -/
theorem renderLoop_spec (kind : Ptr → NodeKind) (proj view : Mat4) (wfuel fuel : Nat)
    (h : Heap)
    (ih : ∀ (p : Ptr) (l : List Ptr), subtree fuel h p = some l →
      (∀ M ∈ l, ∃ own, renderSelf kind proj view wfuel h M = some own) →
      Render kind proj view wfuel fuel h p
        = some (l.flatMap (renderVisit kind proj view wfuel h))) :
    ∀ (cs ls : List Ptr), subtreeList (subtree fuel h) cs = some ls →
      (∀ M ∈ ls, ∃ own, renderSelf kind proj view wfuel h M = some own) →
      renderLoop (Render kind proj view wfuel fuel h) cs
        = some (ls.flatMap (renderVisit kind proj view wfuel h)) := by
  intro cs
  induction cs with
  | nil =>
    intro ls hs _
    simp only [subtreeList, Option.some.injEq] at hs
    subst hs
    rfl
  | cons c cs ihc =>
    intro ls hs hself
    simp only [subtreeList] at hs
    cases hc : subtree fuel h c with
    | none => simp [hc] at hs
    | some l1 =>
      cases hcs : subtreeList (subtree fuel h) cs with
      | none => simp [hc, hcs] at hs
      | some l2 =>
        simp only [hc, hcs, Option.some.injEq] at hs
        subst hs
        have h1 := ih c l1 hc (fun M hM => hself M (List.mem_append_left _ hM))
        have h2 := ihc l2 hcs (fun M hM => hself M (List.mem_append_right _ hM))
        simp only [renderLoop, h1, h2, List.flatMap_append]

/-- On a finite structure of children, `Render` returns the visits of the nodes in
pre-order. -/
theorem Render_spec (kind : Ptr → NodeKind) (proj view : Mat4) (wfuel : Nat) (h : Heap) :
    ∀ (fuel : Nat) (p : Ptr) (l : List Ptr), subtree fuel h p = some l →
      (∀ M ∈ l, ∃ own, renderSelf kind proj view wfuel h M = some own) →
      Render kind proj view wfuel fuel h p
        = some (l.flatMap (renderVisit kind proj view wfuel h)) := by
  intro fuel
  induction fuel with
  | zero => intro p l hs; simp [subtree] at hs
  | succ fuel ih =>
    intro p l hs hself
    simp only [subtree] at hs
    cases hp : h[p]? with
    | none => simp [hp] at hs
    | some n =>
      cases hcs : subtreeList (subtree fuel h) n.m_arrNodes with
      | none => simp [hp, hcs] at hs
      | some ls =>
        simp only [hp, hcs, Option.some.injEq] at hs
        subst hs
        obtain ⟨own, hown⟩ := hself p (List.mem_cons_self _ _)
        have hloop := renderLoop_spec kind proj view wfuel fuel h ih n.m_arrNodes ls hcs
          (fun M hM => hself M (List.mem_cons_of_mem _ hM))
        simp only [Render, hp, hown, hloop, List.flatMap_cons, renderVisit, Option.getD_some,
          List.cons_append]

/-- C16: on a finite tree of nodes of any kinds (the world matrix of every geometry node
with geometry being computable), one call of `Render` on the root returns, and its
`Render` invocations are exactly the nodes of the subtree in pre-order: every node once,
a parent before its children, siblings in child order.  A geometry node without geometry
issues no draw call and no material application (its children are among the visited
nodes); a geometry node with geometry issues exactly one draw call and one material
application when it has a material, none otherwise, the material coming before the
draw. -/
theorem C16_Render_visits_every_node_once (kind : Ptr → NodeKind) (proj view : Mat4)
    (wfuel fuel : Nat) (h : Heap) (N : Ptr) (l : List Ptr) (htree : IsTree fuel h N l)
    (hworld : ∀ M ∈ l, ∀ hm, kind M = NodeKind.geometry true hm →
      ∃ w, GetWorldMatrix wfuel h M = some w) :
    ∃ trace, Render kind proj view wfuel fuel h N = some trace ∧
      trace.filterMap RenderEvent.rendered = l ∧
      (∀ M ∈ l, ∀ hm, kind M = NodeKind.geometry false hm →
        trace.count (RenderEvent.draw M) = 0 ∧
        trace.count (RenderEvent.setToProgram M) = 0) ∧
      (∀ M ∈ l, ∀ hm, kind M = NodeKind.geometry true hm →
        trace.count (RenderEvent.draw M) = 1 ∧
        trace.count (RenderEvent.setToProgram M) = (if hm then 1 else 0) ∧
        ∃ pre post w, GetWorldMatrix wfuel h M = some w ∧
          trace = pre ++ ([RenderEvent.render M, RenderEvent.setAttribs M,
              RenderEvent.setUniformMatrix4 "modelMatrix" w,
              RenderEvent.setUniformMatrix4 "modelViewProjectionMatrix" (proj * view * w)]
            ++ (if hm then [RenderEvent.setToProgram M] else [])
            ++ [RenderEvent.draw M]) ++ post) := by
  have hself : ∀ M ∈ l, ∃ own, renderSelf kind proj view wfuel h M = some own := by
    intro M hM
    unfold renderSelf
    cases hk : kind M with
    | node => exact ⟨_, rfl⟩
    | camera => exact ⟨_, rfl⟩
    | geometry hg hm =>
      cases hg with
      | false => exact ⟨_, rfl⟩
      | true =>
        obtain ⟨w, hw⟩ := hworld M hM hm hk
        simp only [hw]
        exact ⟨_, rfl⟩
  have hsplit : ∀ M ∈ l, ∃ s t, l = s ++ M :: t ∧ M ∉ s ∧ M ∉ t := by
    intro M hM
    obtain ⟨s, t, hst⟩ := List.append_of_mem hM
    have hnd := htree.2
    rw [hst] at hnd
    obtain ⟨_, h2, h3⟩ := List.nodup_append.1 hnd
    exact ⟨s, t, hst, fun hs => h3 hs (List.mem_cons_self _ _), (List.nodup_cons.1 h2).1⟩
  refine ⟨_, Render_spec kind proj view wfuel h fuel N l htree.1 hself,
    flatMap_renderVisit_rendered kind proj view wfuel h l, ?_, ?_⟩
  · intro M hM hm hk
    obtain ⟨s, t, hst, hs, ht⟩ := hsplit M hM
    have cs := flatMap_renderVisit_count_zero kind proj view wfuel h s M hs
    have ct := flatMap_renderVisit_count_zero kind proj view wfuel h t M ht
    have hv : renderVisit kind proj view wfuel h M = [RenderEvent.render M] := by
      simp [renderVisit, renderSelf, hk]
    rw [hst, List.flatMap_append, List.flatMap_cons, hv]
    simp only [List.count_append, cs.1, cs.2, ct.1, ct.2]
    simp
  · intro M hM hm hk
    obtain ⟨s, t, hst, hs, ht⟩ := hsplit M hM
    obtain ⟨w, hw⟩ := hworld M hM hm hk
    have cs := flatMap_renderVisit_count_zero kind proj view wfuel h s M hs
    have ct := flatMap_renderVisit_count_zero kind proj view wfuel h t M ht
    have hv : renderVisit kind proj view wfuel h M
        = [RenderEvent.render M, RenderEvent.setAttribs M,
              RenderEvent.setUniformMatrix4 "modelMatrix" w,
              RenderEvent.setUniformMatrix4 "modelViewProjectionMatrix" (proj * view * w)]
            ++ (if hm then [RenderEvent.setToProgram M] else [])
            ++ [RenderEvent.draw M] := by
      simp [renderVisit, renderSelf, hk, hw]
    rw [hst, List.flatMap_append, List.flatMap_cons, hv]
    refine ⟨?_, ?_, s.flatMap (renderVisit kind proj view wfuel h),
      t.flatMap (renderVisit kind proj view wfuel h), w, hw, by simp⟩
    · simp only [List.count_append, cs.1, ct.1]
      cases hm <;> simp
    · simp only [List.count_append, cs.2, ct.2]
      cases hm <;> simp

/-- Witness of C16 on the sample scene, whose nodes are of all three kinds. -/
theorem C16_witness :
    ∃ trace, Render sampleKinds Mat4.identity Mat4.identity 4 4 sampleHeap 0 = some trace ∧
      trace.filterMap RenderEvent.rendered = [0, 1, 2, 3, 4] ∧
      (∀ M ∈ [0, 1, 2, 3, 4], ∀ hm, sampleKinds M = NodeKind.geometry false hm →
        trace.count (RenderEvent.draw M) = 0 ∧
        trace.count (RenderEvent.setToProgram M) = 0) ∧
      (∀ M ∈ [0, 1, 2, 3, 4], ∀ hm, sampleKinds M = NodeKind.geometry true hm →
        trace.count (RenderEvent.draw M) = 1 ∧
        trace.count (RenderEvent.setToProgram M) = (if hm then 1 else 0) ∧
        ∃ pre post w, GetWorldMatrix 4 sampleHeap M = some w ∧
          trace = pre ++ ([RenderEvent.render M, RenderEvent.setAttribs M,
              RenderEvent.setUniformMatrix4 "modelMatrix" w,
              RenderEvent.setUniformMatrix4 "modelViewProjectionMatrix"
                (Mat4.identity * Mat4.identity * w)]
            ++ (if hm then [RenderEvent.setToProgram M] else [])
            ++ [RenderEvent.draw M]) ++ post) :=
  C16_Render_visits_every_node_once sampleKinds Mat4.identity Mat4.identity 4 4 sampleHeap 0
    [0, 1, 2, 3, 4] (by decide)
    (by
      intro M hM hm _
      simp only [List.mem_cons, List.mem_singleton, List.not_mem_nil, or_false] at hM
      rcases hM with e | e | e | e | e <;> subst e <;> exact ⟨_, rfl⟩)

/-! ## Lemmas: binary32 rounding -/

theorem intLog_two_eq (r : ℚ) (z : ℤ) (hr : 0 < r) (h1 : (2 : ℚ) ^ z ≤ r)
    (h2 : r < (2 : ℚ) ^ (z + 1)) : Int.log 2 r = z := by
  have hb : 1 < 2 := by norm_num
  have a1 : z ≤ Int.log 2 r := (Int.zpow_le_iff_le_log hb hr).1 (by exact_mod_cast h1)
  have a2 : Int.log 2 r < z + 1 := (Int.lt_zpow_iff_log_lt hb hr).1 (by exact_mod_cast h2)
  omega

/-- The number `2^28` is a binary32 value. -/
theorem f32round_two_pow_28 : f32round 268435456 = 268435456 := by
  have hlog : Int.log 2 |(268435456 : ℚ)| = 28 := by
    rw [abs_of_pos (by norm_num)]
    exact intLog_two_eq _ 28 (by norm_num) (by norm_num) (by norm_num)
  unfold f32round
  rw [if_neg (by norm_num), hlog]
  have hq : (2 : ℚ) ^ ((28 : ℤ) - 23) = 32 := by norm_num
  rw [hq]
  have hfl : ⌊(268435456 : ℚ) / 32⌋ = 8388608 := by
    rw [Int.floor_eq_iff]; constructor <;> norm_num
  unfold roundHalfEven
  rw [hfl]
  norm_num

/-- In binary32 the difference `2^28 - two_pi` rounds back to `2^28`: just below `2^28`
the binary32 values are 16 apart. -/
theorem f32round_absorbs_two_pi : f32round (268435456 - twoPiF) = 268435456 := by
  have hpos : (0 : ℚ) < 268435456 - twoPiF := by unfold twoPiF; norm_num
  have hlog : Int.log 2 |(268435456 - twoPiF : ℚ)| = 27 := by
    rw [abs_of_pos hpos]
    exact intLog_two_eq _ 27 hpos (by unfold twoPiF; norm_num) (by unfold twoPiF; norm_num)
  unfold f32round
  rw [if_neg (ne_of_gt hpos), hlog]
  have hq : (2 : ℚ) ^ ((27 : ℤ) - 23) = 16 := by norm_num
  rw [hq]
  have hfl : ⌊(268435456 - twoPiF : ℚ) / 16⌋ = 16777215 := by
    rw [Int.floor_eq_iff]; unfold twoPiF; constructor <;> norm_num
  unfold roundHalfEven
  rw [hfl]
  unfold twoPiF
  norm_num

/-- C17, the code at the failing input: the angle `2^28` is a binary32 value above
`two_pi`, the rounded subtraction `2^28 - two_pi` gives `2^28` again, and so the loop
`while (m_fRotationAngle > pi2) m_fRotationAngle -= pi2;` started at `2^28` has not ended
after any number of iterations. -/
theorem C17_subtracting_loop_stalls_in_binary32 :
    f32round 268435456 = 268435456 ∧ twoPiF < 268435456 ∧
    f32round (268435456 - twoPiF) = 268435456 ∧
    ∀ fuel : Nat, wrapAboveF32 twoPiF fuel 268435456 = none := by
  have hgt : twoPiF < 268435456 := by unfold twoPiF; norm_num
  refine ⟨f32round_two_pow_28, hgt, f32round_absorbs_two_pi, ?_⟩
  intro fuel
  induction fuel with
  | zero => rfl
  | succ fuel ih =>
    rw [wrapAboveF32, if_pos hgt, f32round_absorbs_two_pi]
    exact ih

/-! ## Lemmas: binary32 rounding, error and sign -/

/-- Rounding to the nearest integer moves a number by at most one half. -/
theorem roundHalfEven_err (y : ℚ) : |(roundHalfEven y : ℚ) - y| ≤ 1 / 2 := by
  unfold roundHalfEven
  have h1 := Int.floor_le y
  have h2 := Int.lt_floor_add_one y
  split_ifs with a b c
  · rw [abs_le]; constructor <;> linarith
  · rw [abs_le]; push_cast; constructor <;> linarith
  · rw [abs_le]; constructor <;> linarith
  · rw [abs_le]; push_cast; constructor <;> linarith

theorem roundHalfEven_nonneg (y : ℚ) (hy : 0 ≤ y) : 0 ≤ roundHalfEven y := by
  unfold roundHalfEven
  have h0 : 0 ≤ ⌊y⌋ := Int.floor_nonneg.2 hy
  split_ifs <;> omega

theorem roundHalfEven_nonpos (y : ℚ) (hy : y ≤ 0) : roundHalfEven y ≤ 0 := by
  unfold roundHalfEven
  have h0 : ⌊y⌋ ≤ 0 := Int.floor_nonpos hy
  have h1 := Int.floor_le y
  have key : ¬ (y - ⌊y⌋ < 1 / 2) → ⌊y⌋ + 1 ≤ 0 := by
    intro hn
    have h3 : ((⌊y⌋ : ℤ) : ℚ) < 0 := by linarith
    have h4 : ⌊y⌋ < 0 := by exact_mod_cast h3
    omega
  split_ifs with a b c
  · exact h0
  · exact key a
  · exact h0
  · exact key a

theorem roundHalfEven_intCast (m : ℤ) : roundHalfEven (m : ℚ) = m := by
  unfold roundHalfEven
  simp

theorem f32round_zero : f32round 0 = 0 := by
  unfold f32round; simp

theorem f32round_nonneg (x : ℚ) (hx : 0 ≤ x) : 0 ≤ f32round x := by
  unfold f32round
  split_ifs with h0
  · exact le_refl _
  · have hq : (0 : ℚ) < (2 : ℚ) ^ (Int.log 2 |x| - 23) := zpow_pos (by norm_num) _
    have h1 : 0 ≤ roundHalfEven (x / (2 : ℚ) ^ (Int.log 2 |x| - 23)) :=
      roundHalfEven_nonneg _ (div_nonneg hx hq.le)
    have h2 : (0 : ℚ) ≤ (roundHalfEven (x / (2 : ℚ) ^ (Int.log 2 |x| - 23)) : ℚ) := by
      exact_mod_cast h1
    exact mul_nonneg h2 hq.le

theorem f32round_nonpos (x : ℚ) (hx : x ≤ 0) : f32round x ≤ 0 := by
  unfold f32round
  split_ifs with h0
  · exact le_refl _
  · have hq : (0 : ℚ) < (2 : ℚ) ^ (Int.log 2 |x| - 23) := zpow_pos (by norm_num) _
    have h1 : roundHalfEven (x / (2 : ℚ) ^ (Int.log 2 |x| - 23)) ≤ 0 :=
      roundHalfEven_nonpos _ (div_nonpos_of_nonpos_of_nonneg hx hq.le)
    have h2 : (roundHalfEven (x / (2 : ℚ) ^ (Int.log 2 |x| - 23)) : ℚ) ≤ 0 := by
      exact_mod_cast h1
    exact mul_nonpos_of_nonpos_of_nonneg h2 hq.le

/-- The rounding error of binary32 is at most half a unit in the last place. -/
theorem f32round_err (x : ℚ) (hx : x ≠ 0) :
    |f32round x - x| ≤ (2 : ℚ) ^ (Int.log 2 |x| - 24) := by
  unfold f32round
  rw [if_neg hx]
  have hq : (0 : ℚ) < (2 : ℚ) ^ (Int.log 2 |x| - 23) := zpow_pos (by norm_num) _
  have he := roundHalfEven_err (x / (2 : ℚ) ^ (Int.log 2 |x| - 23))
  have hsplit : (2 : ℚ) ^ (Int.log 2 |x| - 23) = 2 * (2 : ℚ) ^ (Int.log 2 |x| - 24) := by
    rw [show Int.log 2 |x| - 23 = (Int.log 2 |x| - 24) + 1 by ring,
      zpow_add_one₀ (by norm_num : (2 : ℚ) ≠ 0)]
    ring
  have hrew : (roundHalfEven (x / (2 : ℚ) ^ (Int.log 2 |x| - 23)) : ℚ)
        * (2 : ℚ) ^ (Int.log 2 |x| - 23) - x
      = ((roundHalfEven (x / (2 : ℚ) ^ (Int.log 2 |x| - 23)) : ℚ)
          - x / (2 : ℚ) ^ (Int.log 2 |x| - 23)) * (2 : ℚ) ^ (Int.log 2 |x| - 23) := by
    field_simp
  rw [hrew, abs_mul, abs_of_pos hq]
  calc |(roundHalfEven (x / (2 : ℚ) ^ (Int.log 2 |x| - 23)) : ℚ)
          - x / (2 : ℚ) ^ (Int.log 2 |x| - 23)| * (2 : ℚ) ^ (Int.log 2 |x| - 23)
      ≤ 1 / 2 * (2 : ℚ) ^ (Int.log 2 |x| - 23) := mul_le_mul_of_nonneg_right he hq.le
    _ = (2 : ℚ) ^ (Int.log 2 |x| - 24) := by rw [hsplit]; ring

/-- Below `2^(m+1)` in magnitude the rounding error is at most `2^(m-24)`. -/
theorem f32round_err_lt (x : ℚ) (m : ℤ) (h : |x| < (2 : ℚ) ^ (m + 1)) :
    |f32round x - x| ≤ (2 : ℚ) ^ (m - 24) := by
  by_cases hx : x = 0
  · subst hx
    rw [f32round_zero, sub_zero, abs_zero]
    exact (zpow_pos (by norm_num) _).le
  · have hpos : 0 < |x| := abs_pos.2 hx
    have hlog : Int.log 2 |x| < m + 1 :=
      (Int.lt_zpow_iff_log_lt (by norm_num) hpos).1 (by exact_mod_cast h)
    refine le_trans (f32round_err x hx) ?_
    exact zpow_le_zpow_right₀ (by norm_num) (by omega)

/-- A number of at most 24 significant bits is left alone by the rounding. -/
theorem f32round_of_scaled (m e : ℤ) (h1 : (2 : ℤ) ^ 23 ≤ |m|) (h2 : |m| < (2 : ℤ) ^ 24) :
    f32round ((m : ℚ) * (2 : ℚ) ^ e) = (m : ℚ) * (2 : ℚ) ^ e := by
  have hq : (0 : ℚ) < (2 : ℚ) ^ e := zpow_pos (by norm_num) _
  have hm0 : m ≠ 0 := by
    intro h0
    rw [h0] at h1
    norm_num at h1
  have hmq : (m : ℚ) ≠ 0 := by exact_mod_cast hm0
  have h1q : (8388608 : ℚ) ≤ |(m : ℚ)| := by
    have h := h1
    norm_num at h
    exact_mod_cast h
  have h2q : |(m : ℚ)| < (16777216 : ℚ) := by
    have h := h2
    norm_num at h
    exact_mod_cast h
  have hlog : Int.log 2 |(m : ℚ) * (2 : ℚ) ^ e| = e + 23 := by
    apply intLog_two_eq
    · exact abs_pos.2 (mul_ne_zero hmq hq.ne')
    · rw [abs_mul, abs_of_pos hq, zpow_add₀ (by norm_num : (2 : ℚ) ≠ 0), mul_comm]
      exact mul_le_mul_of_nonneg_right (by norm_num; exact h1q) hq.le
    · rw [abs_mul, abs_of_pos hq, show e + 23 + 1 = e + 24 by ring,
        zpow_add₀ (by norm_num : (2 : ℚ) ≠ 0), mul_comm ((2 : ℚ) ^ e)]
      exact mul_lt_mul_of_pos_right (by norm_num; exact h2q) hq
  unfold f32round
  rw [if_neg (mul_ne_zero hmq hq.ne'), hlog, show e + 23 - 23 = e by ring,
    mul_div_assoc, div_self hq.ne', mul_one, roundHalfEven_intCast]

theorem f32op_eq_some {x y : ℚ} (h : f32op x = some y) : y = f32round x := by
  unfold f32op at h
  split_ifs at h
  exact (Option.some.inj h).symm

theorem f32op_zero : f32op 0 = some 0 := by
  unfold f32op
  simp [f32round_zero]

theorem IsF32.round_eq {x : ℚ} (h : IsF32 x) : f32round x = x :=
  (f32op_eq_some h).symm

theorem IsF32.zero : IsF32 0 := f32op_zero

/-- A number of at most 24 significant bits within the normal range is a binary32 value. -/
theorem IsF32.of_scaled (m e : ℤ) (h1 : (2 : ℤ) ^ 23 ≤ |m|) (h2 : |m| < (2 : ℤ) ^ 24)
    (he1 : -149 ≤ e) (he2 : e ≤ 104) : IsF32 ((m : ℚ) * (2 : ℚ) ^ e) := by
  have hq : (0 : ℚ) < (2 : ℚ) ^ e := zpow_pos (by norm_num) _
  have h1q : ((2 : ℚ) ^ (23 : ℤ)) ≤ |(m : ℚ)| := by
    have h := h1
    norm_num at h ⊢
    exact_mod_cast h
  have h2q : |(m : ℚ)| < ((2 : ℚ) ^ (24 : ℤ)) := by
    have h := h2
    norm_num at h ⊢
    exact_mod_cast h
  unfold IsF32 f32op
  rw [f32round_of_scaled m e h1 h2, if_pos]
  right
  rw [abs_mul, abs_of_pos hq]
  constructor
  · calc (2 : ℚ) ^ (-126 : ℤ) ≤ (2 : ℚ) ^ (23 + e) :=
          zpow_le_zpow_right₀ (by norm_num) (by omega)
      _ = (2 : ℚ) ^ (23 : ℤ) * (2 : ℚ) ^ e := zpow_add₀ (by norm_num) _ _
      _ ≤ |(m : ℚ)| * (2 : ℚ) ^ e := mul_le_mul_of_nonneg_right h1q hq.le
  · calc |(m : ℚ)| * (2 : ℚ) ^ e < (2 : ℚ) ^ (24 : ℤ) * (2 : ℚ) ^ e :=
          mul_lt_mul_of_pos_right h2q hq
      _ = (2 : ℚ) ^ (24 + e) := (zpow_add₀ (by norm_num) _ _).symm
      _ ≤ (2 : ℚ) ^ (128 : ℤ) := zpow_le_zpow_right₀ (by norm_num) (by omega)

/-! ## Lemmas: the wrapping loops -/

/-- When the subtracting loop ends, the angle it leaves is at most `pi2`; the loop either
did not run, or ran and left an angle that is not negative. -/
theorem wrapAboveF32_spec (pi2 : ℚ) :
    ∀ (fuel : Nat) (a r : ℚ), wrapAboveF32 pi2 fuel a = some r →
      r ≤ pi2 ∧ ((a ≤ pi2 ∧ r = a) ∨ (pi2 < a ∧ 0 ≤ r)) := by
  intro fuel
  induction fuel with
  | zero => intro a r h; simp [wrapAboveF32] at h
  | succ fuel ih =>
    intro a r h
    rw [wrapAboveF32] at h
    by_cases ha : a > pi2
    · rw [if_pos ha] at h
      obtain ⟨h1, h2⟩ := ih _ _ h
      refine ⟨h1, Or.inr ⟨ha, ?_⟩⟩
      rcases h2 with ⟨_, e⟩ | ⟨_, h3⟩
      · rw [e]
        exact f32round_nonneg _ (by linarith)
      · exact h3
    · rw [if_neg ha] at h
      have e : r = a := (Option.some.inj h).symm
      subst e
      exact ⟨not_lt.1 ha, Or.inl ⟨not_lt.1 ha, rfl⟩⟩

/-- When the adding loop ends, the angle it leaves is at least `-pi2`; the loop either did
not run, or ran and left an angle that is not positive. -/
theorem wrapBelowF32_spec (pi2 : ℚ) :
    ∀ (fuel : Nat) (a r : ℚ), wrapBelowF32 pi2 fuel a = some r →
      -pi2 ≤ r ∧ ((-pi2 ≤ a ∧ r = a) ∨ (a < -pi2 ∧ r ≤ 0)) := by
  intro fuel
  induction fuel with
  | zero => intro a r h; simp [wrapBelowF32] at h
  | succ fuel ih =>
    intro a r h
    rw [wrapBelowF32] at h
    by_cases ha : a < -pi2
    · rw [if_pos ha] at h
      obtain ⟨h1, h2⟩ := ih _ _ h
      refine ⟨h1, Or.inr ⟨ha, ?_⟩⟩
      rcases h2 with ⟨_, e⟩ | ⟨_, h3⟩
      · rw [e]
        exact f32round_nonpos _ (by linarith)
      · exact h3
    · rw [if_neg ha] at h
      have e : r = a := (Option.some.inj h).symm
      subst e
      exact ⟨not_lt.1 ha, Or.inl ⟨not_lt.1 ha, rfl⟩⟩

theorem wrapAboveF32_of_le (pi2 a : ℚ) (fuel : Nat) (h : a ≤ pi2) :
    wrapAboveF32 pi2 (fuel + 1) a = some a := by
  rw [wrapAboveF32, if_neg (not_lt.2 h)]

theorem wrapBelowF32_of_ge (pi2 a : ℚ) (fuel : Nat) (h : -pi2 ≤ a) :
    wrapBelowF32 pi2 (fuel + 1) a = some a := by
  rw [wrapBelowF32, if_neg (not_lt.2 h)]

/-- What a returning angle step computes: the rounded product, the rounded sum, the two
loops.  The angle it leaves lies in the closed interval `[-pi2, pi2]`, and the two loops
do not undo each other: when the subtracting loop has changed the angle, the adding loop
leaves it alone. -/
theorem advanceAngle_spec (pi2 : ℚ) (hp : 0 < pi2) (loopFuel : Nat) (angle speed ft r : ℚ)
    (h : advanceAngle pi2 loopFuel angle speed ft = some r) :
    ∃ step advanced a, f32op (speed * ft) = some step ∧
      f32op (angle + step) = some advanced ∧
      wrapAboveF32 pi2 loopFuel advanced = some a ∧ wrapBelowF32 pi2 loopFuel a = some r ∧
      -pi2 ≤ r ∧ r ≤ pi2 ∧ (a ≠ advanced → r = a) := by
  unfold advanceAngle at h
  cases h1 : f32op (speed * ft) with
  | none => simp [h1] at h
  | some step =>
    cases h2 : f32op (angle + step) with
    | none => simp [h1, h2] at h
    | some advanced =>
      cases h3 : wrapAboveF32 pi2 loopFuel advanced with
      | none => simp [h1, h2, h3] at h
      | some a =>
        simp only [h1, h2, h3] at h
        obtain ⟨ha1, ha2⟩ := wrapAboveF32_spec pi2 loopFuel advanced a h3
        obtain ⟨hb1, hb2⟩ := wrapBelowF32_spec pi2 loopFuel a r h
        refine ⟨step, advanced, a, rfl, h2, h3, h, hb1, ?_, ?_⟩
        · rcases hb2 with ⟨_, e⟩ | ⟨_, h0⟩
          · rw [e]; exact ha1
          · linarith
        · intro hne
          rcases ha2 with ⟨_, e⟩ | ⟨_, h0⟩
          · exact absurd e hne
          · rcases hb2 with ⟨_, e⟩ | ⟨hlt, _⟩
            · exact e
            · linarith

/-! ## Lemmas: one node's own update -/

theorem scaleF32_some {v d : Vec3} {s : ℚ} (h : v.scaleF32 s = some d) :
    f32op (v.x * s) = some d.x ∧ f32op (v.y * s) = some d.y ∧ f32op (v.z * s) = some d.z := by
  unfold Vec3.scaleF32 at h
  cases hx : f32op (v.x * s) with
  | none => simp [hx] at h
  | some x =>
    cases hy : f32op (v.y * s) with
    | none => simp [hx, hy] at h
    | some y =>
      cases hz : f32op (v.z * s) with
      | none => simp [hx, hy, hz] at h
      | some z =>
        simp only [hx, hy, hz, Option.some.injEq] at h
        subst h
        exact ⟨rfl, rfl, rfl⟩

theorem addF32_some {a b d : Vec3} (h : a.addF32 b = some d) :
    f32op (a.x + b.x) = some d.x ∧ f32op (a.y + b.y) = some d.y ∧
      f32op (a.z + b.z) = some d.z := by
  unfold Vec3.addF32 at h
  cases hx : f32op (a.x + b.x) with
  | none => simp [hx] at h
  | some x =>
    cases hy : f32op (a.y + b.y) with
    | none => simp [hx, hy] at h
    | some y =>
      cases hz : f32op (a.z + b.z) with
      | none => simp [hx, hy, hz] at h
      | some z =>
        simp only [hx, hy, hz, Option.some.injEq] at h
        subst h
        exact ⟨rfl, rfl, rfl⟩

theorem scaleF32_of {v : Vec3} {s x y z : ℚ} (hx : f32op (v.x * s) = some x)
    (hy : f32op (v.y * s) = some y) (hz : f32op (v.z * s) = some z) :
    v.scaleF32 s = some ⟨x, y, z⟩ := by
  unfold Vec3.scaleF32
  simp [hx, hy, hz]

theorem addF32_of {a b : Vec3} {x y z : ℚ} (hx : f32op (a.x + b.x) = some x)
    (hy : f32op (a.y + b.y) = some y) (hz : f32op (a.z + b.z) = some z) :
    a.addF32 b = some ⟨x, y, z⟩ := by
  unfold Vec3.addF32
  simp [hx, hy, hz]

/-- What a returning own update computes. -/
theorem UpdateSelf_some {G : Glm} {loopFuel : Nat} {ft : ℚ} {n n2 : Node}
    (h : n.UpdateSelf G loopFuel ft = some n2) :
    ∃ step pos, n.m_vVelocity.scaleF32 ft = some step ∧ n.GetPos.addF32 step = some pos ∧
      ((n.m_fRotationSpeed = 0 ∧ n2 = n.SetPos pos) ∨
        (n.m_fRotationSpeed ≠ 0 ∧ ∃ a,
          advanceAngle G.two_pi loopFuel n.m_fRotationAngle n.m_fRotationSpeed ft = some a ∧
          n2 = ({ n with
            m_mModel := G.rotate Mat4.identity n.m_fRotationAngle n.m_vRotationAxis
            m_fRotationAngle := a } : Node).SetPos pos)) := by
  unfold Node.UpdateSelf at h
  cases h1 : n.m_vVelocity.scaleF32 ft with
  | none => simp [h1] at h
  | some step =>
    cases h2 : n.GetPos.addF32 step with
    | none => simp [h1, h2] at h
    | some pos =>
      simp only [h1, h2] at h
      refine ⟨step, pos, rfl, h2, ?_⟩
      by_cases hs : n.m_fRotationSpeed = 0
      · left
        rw [if_neg (not_not.2 hs)] at h
        exact ⟨hs, (Option.some.inj h).symm⟩
      · right
        rw [if_pos hs] at h
        cases h3 : advanceAngle G.two_pi loopFuel n.m_fRotationAngle n.m_fRotationSpeed ft with
        | none => simp [h3] at h
        | some a =>
          simp only [h3, Option.some.injEq] at h
          exact ⟨hs, a, rfl, h.symm⟩

/-- The own update changes no field but the local matrix and the angle. -/
theorem UpdateSelf_frame {G : Glm} {loopFuel : Nat} {ft : ℚ} {n n2 : Node}
    (h : n.UpdateSelf G loopFuel ft = some n2) :
    n2.m_strName = n.m_strName ∧ n2.m_pParent = n.m_pParent ∧
    n2.m_arrNodes = n.m_arrNodes ∧ n2.m_vVelocity = n.m_vVelocity ∧
    n2.m_vRotationAxis = n.m_vRotationAxis ∧ n2.m_fRotationSpeed = n.m_fRotationSpeed ∧
    n2.m_fRadius = n.m_fRadius := by
  obtain ⟨step, pos, _, _, hc⟩ := UpdateSelf_some h
  rcases hc with ⟨_, e⟩ | ⟨_, a, _, e⟩ <;> subst e <;> simp [Node.SetPos]

theorem UpdateSelf_arrNodes {G : Glm} {loopFuel : Nat} {ft : ℚ} {n n2 : Node}
    (h : n.UpdateSelf G loopFuel ft = some n2) : n2.m_arrNodes = n.m_arrNodes :=
  (UpdateSelf_frame h).2.2.1

theorem SetPos_GetPos (n : Node) (pos : Vec3) : (n.SetPos pos).GetPos = pos := by
  simp [Node.SetPos, Node.GetPos]

theorem SetPos_entry (n : Node) (pos : Vec3) (c r : Fin 4) (hcr : ¬ (c = 3 ∧ r ≠ 3)) :
    (n.SetPos pos).m_mModel.entry c r = n.m_mModel.entry c r := by
  have h0 : ¬ (c = 3 ∧ r = 0) := fun h => hcr ⟨h.1, by rw [h.2]; decide⟩
  have h1 : ¬ (c = 3 ∧ r = 1) := fun h => hcr ⟨h.1, by rw [h.2]; decide⟩
  have h2 : ¬ (c = 3 ∧ r = 2) := fun h => hcr ⟨h.1, by rw [h.2]; decide⟩
  simp only [Node.SetPos, h0, h1, h2, if_false]

/-- The position left by a returning own update: in every coordinate the rounded product
of velocity and frame time, added to the old coordinate and rounded again. -/
theorem UpdateSelf_GetPos {G : Glm} {loopFuel : Nat} {ft : ℚ} {n n2 : Node}
    (h : n.UpdateSelf G loopFuel ft = some n2) :
    n2.GetPos.x = f32round (n.GetPos.x + f32round (n.m_vVelocity.x * ft)) ∧
    n2.GetPos.y = f32round (n.GetPos.y + f32round (n.m_vVelocity.y * ft)) ∧
    n2.GetPos.z = f32round (n.GetPos.z + f32round (n.m_vVelocity.z * ft)) := by
  obtain ⟨step, pos, h1, h2, hc⟩ := UpdateSelf_some h
  obtain ⟨sx, sy, sz⟩ := scaleF32_some h1
  obtain ⟨px, py, pz⟩ := addF32_some h2
  have e : n2.GetPos = pos := by
    rcases hc with ⟨_, e⟩ | ⟨_, a, _, e⟩ <;> subst e <;> exact SetPos_GetPos _ _
  rw [e, f32op_eq_some px, f32op_eq_some py, f32op_eq_some pz, f32op_eq_some sx,
    f32op_eq_some sy, f32op_eq_some sz]
  exact ⟨rfl, rfl, rfl⟩

/-- With angular speed 0 a returning own update keeps the angle and every entry of the
matrix but the three translation entries. -/
theorem UpdateSelf_of_zero {G : Glm} {loopFuel : Nat} {ft : ℚ} {n n2 : Node}
    (h : n.UpdateSelf G loopFuel ft = some n2) (hs : n.m_fRotationSpeed = 0) :
    n2.m_fRotationAngle = n.m_fRotationAngle ∧
    ∀ c r : Fin 4, ¬ (c = 3 ∧ r ≠ 3) → n2.m_mModel.entry c r = n.m_mModel.entry c r := by
  obtain ⟨step, pos, _, _, hc⟩ := UpdateSelf_some h
  rcases hc with ⟨_, e⟩ | ⟨hne, _⟩
  · subst e
    exact ⟨rfl, fun c r hcr => SetPos_entry _ _ c r hcr⟩
  · exact absurd hs hne

/-- With angular speed not 0 a returning own update rebuilds the matrix from the old angle
and the axis, and leaves the angle that the angle step computes. -/
theorem UpdateSelf_of_ne {G : Glm} {loopFuel : Nat} {ft : ℚ} {n n2 : Node}
    (h : n.UpdateSelf G loopFuel ft = some n2) (hs : n.m_fRotationSpeed ≠ 0) :
    advanceAngle G.two_pi loopFuel n.m_fRotationAngle n.m_fRotationSpeed ft
      = some n2.m_fRotationAngle ∧
    ∀ c r : Fin 4, ¬ (c = 3 ∧ r ≠ 3) → n2.m_mModel.entry c r
      = (G.rotate Mat4.identity n.m_fRotationAngle n.m_vRotationAxis).entry c r := by
  obtain ⟨step, pos, _, _, hc⟩ := UpdateSelf_some h
  rcases hc with ⟨h0, _⟩ | ⟨_, a, ha, e⟩
  · exact absurd h0 hs
  · subst e
    exact ⟨ha, fun c r hcr => SetPos_entry _ _ c r hcr⟩

/-! ## Lemmas: the heap under an update -/

theorem UpdatedBy.sameKids {f : Node → Option Node} {l : List Ptr} {h h1 : Heap}
    (hf : ∀ n n2, f n = some n2 → n2.m_arrNodes = n.m_arrNodes) (u : UpdatedBy f l h h1) :
    ∀ q : Ptr, (h1[q]?).map (fun n : Node => n.m_arrNodes)
      = (h[q]?).map (fun n : Node => n.m_arrNodes) := by
  intro q
  by_cases hq : q ∈ l
  · obtain ⟨m, m2, e1, e2, e3⟩ := (u q).1 hq
    rw [e1, e3]
    simp [hf m m2 e2]
  · rw [(u q).2 hq]

theorem UpdatedBy.append {f : Node → Option Node} {l1 l2 : List Ptr} {h h1 h2 : Heap}
    (u1 : UpdatedBy f l1 h h1) (u2 : UpdatedBy f l2 h1 h2)
    (hd : ∀ q, q ∈ l1 → q ∉ l2) : UpdatedBy f (l1 ++ l2) h h2 := by
  intro q
  constructor
  · intro hq
    rcases List.mem_append.1 hq with a | b
    · obtain ⟨m, m2, e1, e2, e3⟩ := (u1 q).1 a
      exact ⟨m, m2, e1, e2, by rw [(u2 q).2 (hd q a)]; exact e3⟩
    · have hn : q ∉ l1 := fun a => hd q a b
      obtain ⟨m, m2, e1, e2, e3⟩ := (u2 q).1 b
      exact ⟨m, m2, by rw [← (u1 q).2 hn]; exact e1, e2, e3⟩
  · intro hq
    have hn1 : q ∉ l1 := fun a => hq (List.mem_append.2 (Or.inl a))
    have hn2 : q ∉ l2 := fun b => hq (List.mem_append.2 (Or.inr b))
    rw [(u2 q).2 hn2, (u1 q).2 hn1]

theorem UpdatedBy.set {f : Node → Option Node} {h : Heap} {p : Ptr} {n n2 : Node}
    (hp : h[p]? = some n) (hf : f n = some n2) : UpdatedBy f [p] h (h.set p n2) := by
  intro q
  have hlt : p < h.length := (List.getElem?_eq_some.1 hp).1
  constructor
  · intro hq
    have e : q = p := List.mem_singleton.1 hq
    subst e
    exact ⟨n, n2, hp, hf, by rw [List.getElem?_set]; simp [hlt]⟩
  · intro hq
    have hne : ¬ p = q := fun e => hq (by rw [e]; exact List.mem_singleton.2 rfl)
    rw [List.getElem?_set]
    simp [hne]

theorem UpdatedBy.length {f : Node → Option Node} {l : List Ptr} {h h2 : Heap}
    (u : UpdatedBy f l h h2) : h2.length = h.length := by
  have key : ∀ q : Ptr, h2[q]? = none ↔ h[q]? = none := by
    intro q
    by_cases hq : q ∈ l
    · obtain ⟨m, m2, e1, _, e3⟩ := (u q).1 hq
      rw [e1, e3]
      simp
    · rw [(u q).2 hq]
  apply Nat.le_antisymm
  · exact List.getElem?_eq_none_iff.1 ((key _).2 (List.getElem?_eq_none_iff.2 (Nat.le_refl _)))
  · exact List.getElem?_eq_none_iff.1 ((key _).1 (List.getElem?_eq_none_iff.2 (Nat.le_refl _)))

/-- The loop over the children in `Update`, given that `Update` with this fuel is right on
every tree: when the loop returns, each listed child's subtree has been updated in turn;
and the loop returns when the own update of every listed node does. -/
theorem Update_loop (G : Glm) (lf : Nat) (ft : ℚ) (fuel : Nat)
    (ih : ∀ (h : Heap) (p : Ptr) (l : List Ptr), subtree fuel h p = some l → l.Nodup →
      (∀ h2, Update G lf fuel ft h p = some h2 →
        UpdatedBy (Node.UpdateSelf G lf ft) l h h2) ∧
      ((∀ q ∈ l, ∀ m, h[q]? = some m → ∃ m2, m.UpdateSelf G lf ft = some m2) →
        ∃ h2, Update G lf fuel ft h p = some h2)) :
    ∀ (cs : List Ptr) (g : Heap) (ls : List Ptr),
      subtreeList (subtree fuel g) cs = some ls → ls.Nodup →
      (∀ g2, cs.foldlM (fun g node => Update G lf fuel ft g node) g = some g2 →
        UpdatedBy (Node.UpdateSelf G lf ft) ls g g2) ∧
      ((∀ q ∈ ls, ∀ m, g[q]? = some m → ∃ m2, m.UpdateSelf G lf ft = some m2) →
        ∃ g2, cs.foldlM (fun g node => Update G lf fuel ft g node) g = some g2) := by
  intro cs
  induction cs with
  | nil =>
    intro g ls hs _
    simp only [subtreeList, Option.some.injEq] at hs
    subst hs
    refine ⟨fun g2 h2 => ?_, fun _ => ⟨g, rfl⟩⟩
    have e : g2 = g := (Option.some.inj h2).symm
    subst e
    intro q
    simp
  | cons c cs ihc =>
    intro g ls hs hnd
    simp only [subtreeList] at hs
    cases hc : subtree fuel g c with
    | none => simp [hc] at hs
    | some l1 =>
      cases hcs : subtreeList (subtree fuel g) cs with
      | none => simp [hc, hcs] at hs
      | some l2 =>
        simp only [hc, hcs, Option.some.injEq] at hs
        subst hs
        obtain ⟨hn1, hn2, hdis⟩ := List.nodup_append.1 hnd
        have step : ∀ g1, Update G lf fuel ft g c = some g1 →
            UpdatedBy (Node.UpdateSelf G lf ft) l1 g g1 ∧
            subtreeList (subtree fuel g1) cs = some l2 := by
          intro g1 hg1
          have u1 := (ih g c l1 hc hn1).1 g1 hg1
          have hsame : subtree fuel g1 = subtree fuel g :=
            funext (subtree_congr (u1.sameKids (fun _ _ e => UpdateSelf_arrNodes e)) fuel)
          exact ⟨u1, by rw [hsame]; exact hcs⟩
        constructor
        · intro g2 h2
          rw [List.foldlM_cons] at h2
          cases hg1 : Update G lf fuel ft g c with
          | none => rw [hg1] at h2; simp at h2
          | some g1 =>
            rw [hg1] at h2
            obtain ⟨u1, hcs1⟩ := step g1 hg1
            have u2 := (ihc g1 l2 hcs1 hn2).1 g2 h2
            exact u1.append u2 (fun q h1 h2 => hdis h1 h2)
        · intro hdef
          obtain ⟨g1, hg1⟩ := (ih g c l1 hc hn1).2
            (fun q hq m hm => hdef q (List.mem_append.2 (Or.inl hq)) m hm)
          obtain ⟨u1, hcs1⟩ := step g1 hg1
          obtain ⟨g2, hg2⟩ := (ihc g1 l2 hcs1 hn2).2 (fun q hq m hm => by
            have hn : q ∉ l1 := fun a => hdis a hq
            rw [(u1 q).2 hn] at hm
            exact hdef q (List.mem_append.2 (Or.inr hq)) m hm)
          refine ⟨g2, ?_⟩
          rw [List.foldlM_cons, hg1]
          exact hg2

/-- On a finite tree: when `Update` returns, the heap it returns is the old heap with the
own update applied once to every node of the subtree and to nothing else; and `Update`
does return when the own update of every node of the subtree does. -/
theorem Update_spec (G : Glm) (lf : Nat) (ft : ℚ) :
    ∀ (fuel : Nat) (h : Heap) (p : Ptr) (l : List Ptr), subtree fuel h p = some l → l.Nodup →
      (∀ h2, Update G lf fuel ft h p = some h2 →
        UpdatedBy (Node.UpdateSelf G lf ft) l h h2) ∧
      ((∀ q ∈ l, ∀ m, h[q]? = some m → ∃ m2, m.UpdateSelf G lf ft = some m2) →
        ∃ h2, Update G lf fuel ft h p = some h2) := by
  intro fuel
  induction fuel with
  | zero => intro h p l hs; simp [subtree] at hs
  | succ fuel ih =>
    intro h p l hs hnd
    simp only [subtree] at hs
    cases hp : h[p]? with
    | none => simp [hp] at hs
    | some n =>
      cases hcs : subtreeList (subtree fuel h) n.m_arrNodes with
      | none => simp [hp, hcs] at hs
      | some ls =>
        simp only [hp, hcs, Option.some.injEq] at hs
        subst hs
        have hpl : p ∉ ls := (List.nodup_cons.1 hnd).1
        have hnl : ls.Nodup := (List.nodup_cons.1 hnd).2
        have step : ∀ n1, n.UpdateSelf G lf ft = some n1 →
            UpdatedBy (Node.UpdateSelf G lf ft) [p] h (h.set p n1) ∧
            subtreeList (subtree fuel (h.set p n1)) n.m_arrNodes = some ls := by
          intro n1 hn1
          have u0 : UpdatedBy (Node.UpdateSelf G lf ft) [p] h (h.set p n1) :=
            UpdatedBy.set hp hn1
          have hsame : subtree fuel (h.set p n1) = subtree fuel h :=
            funext (subtree_congr (u0.sameKids (fun _ _ e => UpdateSelf_arrNodes e)) fuel)
          exact ⟨u0, by rw [hsame]; exact hcs⟩
        constructor
        · intro h2 hU
          simp only [Update, hp] at hU
          cases hn1 : n.UpdateSelf G lf ft with
          | none => rw [hn1] at hU; simp at hU
          | some n1 =>
            rw [hn1] at hU
            obtain ⟨u0, hcs1⟩ := step n1 hn1
            have u2 := (Update_loop G lf ft fuel ih n.m_arrNodes (h.set p n1) ls hcs1 hnl).1
              h2 hU
            have := u0.append u2 (fun q hq1 hq2 => by
              simp only [List.mem_singleton] at hq1
              subst hq1
              exact hpl hq2)
            simpa using this
        · intro hdef
          obtain ⟨n1, hn1⟩ := hdef p (List.mem_cons_self _ _) n hp
          obtain ⟨u0, hcs1⟩ := step n1 hn1
          obtain ⟨g2, hg2⟩ :=
            (Update_loop G lf ft fuel ih n.m_arrNodes (h.set p n1) ls hcs1 hnl).2
              (fun q hq m hm => by
                have hn : q ∉ [p] := by
                  simp only [List.mem_singleton]
                  intro e
                  subst e
                  exact hpl hq
                rw [(u0 q).2 hn] at hm
                exact hdef q (List.mem_cons_of_mem _ hq) m hm)
          refine ⟨g2, ?_⟩
          simp only [Update, hp, hn1]
          exact hg2

/-- A node of a tree after a returning `Update`: its own update applied once. -/
theorem Update_at {G : Glm} {lf fuel : Nat} {dt : ℚ} {h h2 : Heap} {N : Ptr} {l : List Ptr}
    (htree : IsTree fuel h N l) (hU : Update G lf fuel dt h N = some h2) {M : Ptr}
    (hM : M ∈ l) :
    ∃ m m2, h[M]? = some m ∧ m.UpdateSelf G lf dt = some m2 ∧ h2[M]? = some m2 :=
  ((Update_spec G lf dt fuel h N l htree.1 htree.2).1 h2 hU M).1 hM

/-- The heap after a returning `Update` is a tree with the same listing. -/
theorem Update_keeps_tree {G : Glm} {lf fuel : Nat} {dt : ℚ} {h h2 : Heap} {N : Ptr}
    {l : List Ptr} (htree : IsTree fuel h N l) (hU : Update G lf fuel dt h N = some h2) :
    IsTree fuel h2 N l := by
  have u := (Update_spec G lf dt fuel h N l htree.1 htree.2).1 h2 hU
  have hsame : subtree fuel h2 N = subtree fuel h N :=
    subtree_congr (u.sameKids (fun _ _ e => UpdateSelf_arrNodes e)) fuel N
  exact ⟨by rw [hsame]; exact htree.1, htree.2⟩

/-- A node of a tree after `k` returning calls of `Update`: its own update applied `k`
times. -/
theorem UpdateN_at {G : Glm} {lf fuel : Nat} {dt : ℚ} {N : Ptr} {l : List Ptr} :
    ∀ (k : Nat) {h h2 : Heap}, IsTree fuel h N l → UpdateN G lf fuel dt N k h = some h2 →
      ∀ {M : Ptr}, M ∈ l →
        ∃ m m2, h[M]? = some m ∧ Node.UpdateSelfN G lf dt k m = some m2 ∧
          h2[M]? = some m2 := by
  intro k
  induction k with
  | zero =>
    intro h h2 htree hU M hM
    have e : h2 = h := (Option.some.inj hU).symm
    subst e
    obtain ⟨m, hm⟩ := subtree_mem_some h2 fuel N l htree.1 M hM
    exact ⟨m, m, hm, rfl, hm⟩
  | succ k ih =>
    intro h h2 htree hU M hM
    simp only [UpdateN] at hU
    cases h1 : Update G lf fuel dt h N with
    | none => rw [h1] at hU; simp at hU
    | some g =>
      rw [h1] at hU
      obtain ⟨m, m1, hm, hm1, hg⟩ := Update_at htree h1 hM
      obtain ⟨m', m2, hm', hm2, h2M⟩ := ih (Update_keeps_tree htree h1) hU hM
      rw [hg] at hm'
      have e : m' = m1 := (Option.some.inj hm').symm
      subst e
      refine ⟨m, m2, hm, ?_, h2M⟩
      simp only [Node.UpdateSelfN, hm1, Option.some_bind]
      exact hm2

/-! ## Lemmas: the angle over several updates, and an update by zero -/

/-- A returning own update leaves an angle of the closed interval in the closed interval
(when the angular speed is not 0, whatever the angle was before). -/
theorem UpdateSelf_angle_closed {G : Glm} {lf : Nat} {ft : ℚ} {n n2 : Node}
    (h : n.UpdateSelf G lf ft = some n2)
    (h0 : n.m_fRotationSpeed = 0 →
      -G.two_pi ≤ n.m_fRotationAngle ∧ n.m_fRotationAngle ≤ G.two_pi) :
    -G.two_pi ≤ n2.m_fRotationAngle ∧ n2.m_fRotationAngle ≤ G.two_pi := by
  by_cases hs : n.m_fRotationSpeed = 0
  · rw [(UpdateSelf_of_zero h hs).1]
    exact h0 hs
  · obtain ⟨_, _, _, _, _, _, _, hlo, hhi, _⟩ :=
      advanceAngle_spec G.two_pi G.two_pi_pos lf _ _ _ _ (UpdateSelf_of_ne h hs).1
    exact ⟨hlo, hhi⟩

theorem UpdateSelfN_succ {G : Glm} {lf : Nat} {ft : ℚ} {k : Nat} {n n2 : Node}
    (h : Node.UpdateSelfN G lf ft (k + 1) n = some n2) :
    ∃ n1, n.UpdateSelf G lf ft = some n1 ∧ Node.UpdateSelfN G lf ft k n1 = some n2 := by
  simp only [Node.UpdateSelfN] at h
  cases h1 : n.UpdateSelf G lf ft with
  | none => rw [h1] at h; simp at h
  | some n1 =>
    rw [h1] at h
    exact ⟨n1, rfl, h⟩

/-- The subtracting loop on an angle of at most 32: when it ends after `n` subtractions,
the angle it leaves differs from `x - n * pi2` by at most `n * 2^-20`. -/
theorem wrapAboveF32_err (pi2 : ℚ) (h6 : 6 < pi2) :
    ∀ (fuel : Nat) (x r : ℚ), wrapAboveF32 pi2 fuel x = some r → x ≤ 32 →
      ∃ n : ℕ, |r - (x - n * pi2)| ≤ n * (2 : ℚ) ^ (-20 : ℤ) ∧
        ((n = 0 ∧ r = x) ∨ (0 < n ∧ 0 ≤ r)) := by
  intro fuel
  induction fuel with
  | zero => intro x r h; simp [wrapAboveF32] at h
  | succ fuel ih =>
    intro x r h hx
    have hspec := wrapAboveF32_spec pi2 _ x r h
    rw [wrapAboveF32] at h
    by_cases hgt : x > pi2
    · rw [if_pos hgt] at h
      have hb : |x - pi2| < (2 : ℚ) ^ ((4 : ℤ) + 1) := by
        rw [abs_of_pos (by linarith)]
        norm_num
        linarith
      have he := f32round_err_lt (x - pi2) 4 hb
      have he2 : |f32round (x - pi2) - (x - pi2)| ≤ (2 : ℚ) ^ (-20 : ℤ) := by
        simpa using he
      have hle : f32round (x - pi2) ≤ 32 := by
        have := (abs_le.1 he2).2
        norm_num at this
        linarith
      obtain ⟨n, hn, _⟩ := ih _ _ h hle
      have hr0 : 0 ≤ r := by
        rcases hspec.2 with ⟨hle2, _⟩ | ⟨_, h0⟩
        · exact absurd hgt (not_lt.2 hle2)
        · exact h0
      refine ⟨n + 1, ?_, Or.inr ⟨Nat.succ_pos n, hr0⟩⟩
      have e : r - (x - ((n + 1 : ℕ) : ℚ) * pi2)
          = (r - (f32round (x - pi2) - n * pi2)) + (f32round (x - pi2) - (x - pi2)) := by
        push_cast
        ring
      rw [e]
      calc |(r - (f32round (x - pi2) - n * pi2)) + (f32round (x - pi2) - (x - pi2))|
          ≤ |r - (f32round (x - pi2) - n * pi2)| + |f32round (x - pi2) - (x - pi2)| :=
            abs_add _ _
        _ ≤ n * (2 : ℚ) ^ (-20 : ℤ) + (2 : ℚ) ^ (-20 : ℤ) := add_le_add hn he2
        _ = ((n + 1 : ℕ) : ℚ) * (2 : ℚ) ^ (-20 : ℤ) := by push_cast; ring
    · rw [if_neg hgt] at h
      have e : r = x := (Option.some.inj h).symm
      subst e
      exact ⟨0, by simp, Or.inl ⟨rfl, rfl⟩⟩

/-- The adding loop on an angle of at least -32: when it ends after `n` additions, the
angle it leaves differs from `x + n * pi2` by at most `n * 2^-20`. -/
theorem wrapBelowF32_err (pi2 : ℚ) (h6 : 6 < pi2) :
    ∀ (fuel : Nat) (x r : ℚ), wrapBelowF32 pi2 fuel x = some r → -32 ≤ x →
      ∃ n : ℕ, |r - (x + n * pi2)| ≤ n * (2 : ℚ) ^ (-20 : ℤ) ∧
        ((n = 0 ∧ r = x) ∨ (0 < n ∧ r ≤ 0)) := by
  intro fuel
  induction fuel with
  | zero => intro x r h; simp [wrapBelowF32] at h
  | succ fuel ih =>
    intro x r h hx
    have hspec := wrapBelowF32_spec pi2 _ x r h
    rw [wrapBelowF32] at h
    by_cases hlt : x < -pi2
    · rw [if_pos hlt] at h
      have hb : |x + pi2| < (2 : ℚ) ^ ((4 : ℤ) + 1) := by
        rw [abs_of_neg (by linarith)]
        norm_num
        linarith
      have he := f32round_err_lt (x + pi2) 4 hb
      have he2 : |f32round (x + pi2) - (x + pi2)| ≤ (2 : ℚ) ^ (-20 : ℤ) := by
        simpa using he
      have hge : -32 ≤ f32round (x + pi2) := by
        have := (abs_le.1 he2).1
        norm_num at this
        linarith
      obtain ⟨n, hn, _⟩ := ih _ _ h hge
      have hr0 : r ≤ 0 := by
        rcases hspec.2 with ⟨hge2, _⟩ | ⟨_, h0⟩
        · exact absurd hlt (not_lt.2 hge2)
        · exact h0
      refine ⟨n + 1, ?_, Or.inr ⟨Nat.succ_pos n, hr0⟩⟩
      have e : r - (x + ((n + 1 : ℕ) : ℚ) * pi2)
          = (r - (f32round (x + pi2) + n * pi2)) + (f32round (x + pi2) - (x + pi2)) := by
        push_cast
        ring
      rw [e]
      calc |(r - (f32round (x + pi2) + n * pi2)) + (f32round (x + pi2) - (x + pi2))|
          ≤ |r - (f32round (x + pi2) + n * pi2)| + |f32round (x + pi2) - (x + pi2)| :=
            abs_add _ _
        _ ≤ n * (2 : ℚ) ^ (-20 : ℤ) + (2 : ℚ) ^ (-20 : ℤ) := add_le_add hn he2
        _ = ((n + 1 : ℕ) : ℚ) * (2 : ℚ) ^ (-20 : ℤ) := by push_cast; ring
    · rw [if_neg hlt] at h
      have e : r = x := (Option.some.inj h).symm
      subst e
      exact ⟨0, by simp, Or.inl ⟨rfl, rfl⟩⟩

/-- One returning angle step on an angle of the closed interval, with an advance of at
most 8 in magnitude: the angle it leaves differs from `angle + speed * ft` by a whole
number of turns of `pi2`, up to `2^-18`. -/
theorem advanceAngle_err (pi2 : ℚ) (h6 : 6 < pi2) (h8 : pi2 ≤ 8) (lf : Nat)
    (angle speed ft r : ℚ) (h : advanceAngle pi2 lf angle speed ft = some r)
    (ha : |angle| ≤ pi2) (hw : |speed * ft| ≤ 8) :
    ∃ z : ℤ, |r - (angle + speed * ft + z * pi2)| ≤ (2 : ℚ) ^ (-18 : ℤ) := by
  obtain ⟨step, advanced, a, h1, h2, h3, h4, _, _, _⟩ :=
    advanceAngle_spec pi2 (by linarith) lf angle speed ft r h
  have es : step = f32round (speed * ft) := f32op_eq_some h1
  have ea : advanced = f32round (angle + step) := f32op_eq_some h2
  have b1 : |step - speed * ft| ≤ (2 : ℚ) ^ (-21 : ℤ) := by
    have hb : |speed * ft| < (2 : ℚ) ^ ((3 : ℤ) + 1) := by
      norm_num
      linarith
    have := f32round_err_lt (speed * ft) 3 hb
    rw [es]
    simpa using this
  have c1 := abs_le.1 b1
  have cw := abs_le.1 hw
  have ca := abs_le.1 ha
  norm_num at c1
  have b2 : |advanced - (angle + step)| ≤ (2 : ℚ) ^ (-20 : ℤ) := by
    have hb : |angle + step| < (2 : ℚ) ^ ((4 : ℤ) + 1) := by
      rw [abs_lt]
      norm_num
      constructor <;> linarith
    have := f32round_err_lt (angle + step) 4 hb
    rw [ea]
    simpa using this
  have c2 := abs_le.1 b2
  norm_num at c2
  obtain ⟨n1, e1, k1⟩ := wrapAboveF32_err pi2 h6 lf advanced a h3 (by linarith)
  have d1 := abs_le.1 e1
  norm_num at d1
  rcases k1 with ⟨hn0, hax⟩ | ⟨hnpos, ha0⟩
  · -- the subtracting loop did not run
    obtain ⟨n2, e2, k2⟩ := wrapBelowF32_err pi2 h6 lf a r h4 (by rw [hax]; linarith)
    have d2 := abs_le.1 e2
    norm_num at d2
    have hn2 : n2 ≤ 2 := by
      by_contra hcon
      have h3le : (3 : ℚ) ≤ (n2 : ℚ) := by exact_mod_cast (by omega : 3 ≤ n2)
      have hm : (n2 : ℚ) * 6 ≤ n2 * pi2 :=
        mul_le_mul_of_nonneg_left h6.le (Nat.cast_nonneg n2)
      rcases k2 with ⟨hz, _⟩ | ⟨_, hr0⟩
      · omega
      · rw [hax] at d2
        linarith
    have hq : (n2 : ℚ) ≤ 2 := by exact_mod_cast hn2
    refine ⟨(n2 : ℤ), ?_⟩
    rw [abs_le]
    norm_num
    rw [hax] at d2
    constructor <;> linarith
  · -- the subtracting loop ran: the adding loop leaves the angle alone
    have er : r = a := by
      rcases (wrapBelowF32_spec pi2 lf a r h4).2 with ⟨_, e⟩ | ⟨hlt, _⟩
      · exact e
      · linarith
    have hn1 : n1 ≤ 2 := by
      by_contra hcon
      have h3le : (3 : ℚ) ≤ (n1 : ℚ) := by exact_mod_cast (by omega : 3 ≤ n1)
      have hm : (n1 : ℚ) * 6 ≤ n1 * pi2 :=
        mul_le_mul_of_nonneg_left h6.le (Nat.cast_nonneg n1)
      linarith
    have hq : (n1 : ℚ) ≤ 2 := by exact_mod_cast hn1
    refine ⟨-(n1 : ℤ), ?_⟩
    rw [abs_le, er]
    push_cast
    norm_num
    constructor <;> linarith

/-- One returning own update on a node whose angle lies in the closed interval and whose
advance `speed * ft` is at most 8 in magnitude: the new angle lies in the closed interval
and differs from `angle + speed * ft` by a whole number of turns, up to `2^-18`. -/
theorem UpdateSelf_angle_err {G : Glm} {lf : Nat} {ft : ℚ} {n n2 : Node}
    (h : n.UpdateSelf G lf ft = some n2) (h6 : 6 < G.two_pi) (h8 : G.two_pi ≤ 8)
    (ha : |n.m_fRotationAngle| ≤ G.two_pi) (hw : |n.m_fRotationSpeed * ft| ≤ 8) :
    |n2.m_fRotationAngle| ≤ G.two_pi ∧
    ∃ z : ℤ, |n2.m_fRotationAngle - (n.m_fRotationAngle + n.m_fRotationSpeed * ft
      + z * G.two_pi)| ≤ (2 : ℚ) ^ (-18 : ℤ) := by
  have hcl := UpdateSelf_angle_closed h (fun _ => ⟨(abs_le.1 ha).1, (abs_le.1 ha).2⟩)
  refine ⟨abs_le.2 hcl, ?_⟩
  by_cases hs : n.m_fRotationSpeed = 0
  · refine ⟨0, ?_⟩
    rw [(UpdateSelf_of_zero h hs).1, hs]
    norm_num
  · exact advanceAngle_err G.two_pi h6 h8 lf _ _ _ _ (UpdateSelf_of_ne h hs).1 ha hw

/-- The same over `k` returning own updates: the error is at most `k * 2^-18`. -/
theorem UpdateSelfN_angle_err {G : Glm} {lf : Nat} {ft : ℚ} (h6 : 6 < G.two_pi)
    (h8 : G.two_pi ≤ 8) :
    ∀ (k : Nat) {n n2 : Node}, Node.UpdateSelfN G lf ft k n = some n2 →
      |n.m_fRotationAngle| ≤ G.two_pi → |n.m_fRotationSpeed * ft| ≤ 8 →
      ∃ z : ℤ, |n2.m_fRotationAngle - (n.m_fRotationAngle + k * n.m_fRotationSpeed * ft
        + z * G.two_pi)| ≤ k * (2 : ℚ) ^ (-18 : ℤ) := by
  intro k
  induction k with
  | zero =>
    intro n n2 h _ _
    have e : n2 = n := (Option.some.inj h).symm
    subst e
    exact ⟨0, by simp⟩
  | succ k ih =>
    intro n n2 h ha hw
    obtain ⟨n1, h1, h2⟩ := UpdateSelfN_succ h
    obtain ⟨hcl, z1, e1⟩ := UpdateSelf_angle_err h1 h6 h8 ha hw
    have hsp : n1.m_fRotationSpeed = n.m_fRotationSpeed := (UpdateSelf_frame h1).2.2.2.2.2.1
    obtain ⟨z2, e2⟩ := ih h2 hcl (by rw [hsp]; exact hw)
    rw [hsp] at e2
    refine ⟨z1 + z2, ?_⟩
    have e : n2.m_fRotationAngle - (n.m_fRotationAngle
          + ((k + 1 : ℕ) : ℚ) * n.m_fRotationSpeed * ft + ((z1 + z2 : ℤ) : ℚ) * G.two_pi)
        = (n2.m_fRotationAngle - (n1.m_fRotationAngle + k * n.m_fRotationSpeed * ft
            + z2 * G.two_pi))
          + (n1.m_fRotationAngle - (n.m_fRotationAngle + n.m_fRotationSpeed * ft
            + z1 * G.two_pi)) := by
      push_cast
      ring
    rw [e]
    calc _ ≤ |n2.m_fRotationAngle - (n1.m_fRotationAngle + k * n.m_fRotationSpeed * ft
            + z2 * G.two_pi)|
          + |n1.m_fRotationAngle - (n.m_fRotationAngle + n.m_fRotationSpeed * ft
            + z1 * G.two_pi)| := abs_add _ _
      _ ≤ k * (2 : ℚ) ^ (-18 : ℤ) + (2 : ℚ) ^ (-18 : ℤ) := add_le_add e2 e1
      _ = ((k + 1 : ℕ) : ℚ) * (2 : ℚ) ^ (-18 : ℤ) := by push_cast; ring

theorem isF32_of (x : ℚ) (m e : ℤ) (hx : x = (m : ℚ) * (2 : ℚ) ^ e) (h1 : (2 : ℤ) ^ 23 ≤ |m|)
    (h2 : |m| < (2 : ℤ) ^ 24) (he1 : -149 ≤ e) (he2 : e ≤ 104) : IsF32 x := by
  rw [hx]
  exact IsF32.of_scaled m e h1 h2 he1 he2

theorem f32op_of_eq {x v : ℚ} (hv : IsF32 v) (e : x = v) : f32op x = some v := by
  rw [e]
  exact hv

/-- The own update, given what its six position operations return. -/
theorem UpdateSelf_eval {G : Glm} {lf : Nat} {ft : ℚ} {n : Node} {sx sy sz px py pz : ℚ}
    (hsx : f32op (n.m_vVelocity.x * ft) = some sx)
    (hsy : f32op (n.m_vVelocity.y * ft) = some sy)
    (hsz : f32op (n.m_vVelocity.z * ft) = some sz)
    (hpx : f32op (n.GetPos.x + sx) = some px) (hpy : f32op (n.GetPos.y + sy) = some py)
    (hpz : f32op (n.GetPos.z + sz) = some pz) :
    (n.m_fRotationSpeed = 0 → n.UpdateSelf G lf ft = some (n.SetPos ⟨px, py, pz⟩)) ∧
    (∀ a, n.m_fRotationSpeed ≠ 0 →
      advanceAngle G.two_pi lf n.m_fRotationAngle n.m_fRotationSpeed ft = some a →
      n.UpdateSelf G lf ft = some (({ n with
        m_mModel := G.rotate Mat4.identity n.m_fRotationAngle n.m_vRotationAxis
        m_fRotationAngle := a } : Node).SetPos ⟨px, py, pz⟩)) := by
  have hs : n.m_vVelocity.scaleF32 ft = some ⟨sx, sy, sz⟩ := scaleF32_of hsx hsy hsz
  have hp : n.GetPos.addF32 ⟨sx, sy, sz⟩ = some ⟨px, py, pz⟩ := addF32_of hpx hpy hpz
  constructor
  · intro h0
    unfold Node.UpdateSelf
    rw [hs]
    simp only [hp]
    rw [if_neg (not_not.2 h0)]
  · intro a h0 ha
    unfold Node.UpdateSelf
    rw [hs]
    simp only [hp]
    rw [if_pos h0, ha]

/-- The angle step, given what its two operations and its two loops return. -/
theorem advanceAngle_of {pi2 : ℚ} {lf : Nat} {angle speed ft st ad a1 r : ℚ}
    (h1 : f32op (speed * ft) = some st) (h2 : f32op (angle + st) = some ad)
    (h3 : wrapAboveF32 pi2 lf ad = some a1) (h4 : wrapBelowF32 pi2 lf a1 = some r) :
    advanceAngle pi2 lf angle speed ft = some r := by
  unfold advanceAngle
  rw [h1]
  simp only [h2, h3, h4]

/-- The angle step, given what its two operations return, when the advanced angle lies in
the closed interval: no loop runs. -/
theorem advanceAngle_eval {pi2 : ℚ} {lf : Nat} {angle speed ft s ad : ℚ}
    (h1 : f32op (speed * ft) = some s) (h2 : f32op (angle + s) = some ad)
    (hlo : -pi2 ≤ ad) (hhi : ad ≤ pi2) :
    advanceAngle pi2 (lf + 1) angle speed ft = some ad := by
  unfold advanceAngle
  rw [h1]
  simp only [h2, wrapAboveF32_of_le _ _ _ hhi, wrapBelowF32_of_ge _ _ _ hlo]

theorem isF32_quarter : IsF32 (1 / 4) :=
  isF32_of _ 8388608 (-25) (by norm_num) (by norm_num) (by norm_num) (by norm_num)
    (by norm_num)

theorem isF32_half : IsF32 (1 / 2) :=
  isF32_of _ 8388608 (-24) (by norm_num) (by norm_num) (by norm_num) (by norm_num)
    (by norm_num)

theorem isF32_three_quarters : IsF32 (3 / 4) :=
  isF32_of _ 12582912 (-24) (by norm_num) (by norm_num) (by norm_num) (by norm_num)
    (by norm_num)

theorem isF32_one : IsF32 1 :=
  isF32_of _ 8388608 (-23) (by norm_num) (by norm_num) (by norm_num) (by norm_num)
    (by norm_num)

theorem isF32_three_halves : IsF32 (3 / 2) :=
  isF32_of _ 12582912 (-23) (by norm_num) (by norm_num) (by norm_num) (by norm_num)
    (by norm_num)

theorem isF32_five : IsF32 5 :=
  isF32_of _ 10485760 (-21) (by norm_num) (by norm_num) (by norm_num) (by norm_num)
    (by norm_num)

theorem isF32_neg_one : IsF32 (-1) :=
  isF32_of _ (-8388608) (-23) (by norm_num) (by norm_num) (by norm_num) (by norm_num)
    (by norm_num)

theorem isF32_neg_two : IsF32 (-2) :=
  isF32_of _ (-8388608) (-22) (by norm_num) (by norm_num) (by norm_num) (by norm_num)
    (by norm_num)

theorem identity_entry_3_0 : Mat4.identity.entry 3 0 = 0 := by
  simp only [Mat4.identity]; decide

theorem identity_entry_3_1 : Mat4.identity.entry 3 1 = 0 := by
  simp only [Mat4.identity]; decide

theorem identity_entry_3_2 : Mat4.identity.entry 3 2 = 0 := by
  simp only [Mat4.identity]; decide

theorem IsF32.of_eq {x y : ℚ} (hy : IsF32 y) (e : x = y) : IsF32 x := by
  rw [e]
  exact hy

/-- The own update of a node of velocity `v`, position `p`, angle `a` and angular speed
`w`, when every operation is exact and the advanced angle lies in the closed interval:
the update returns a node of the same velocity and speed, at position `p + v * ft`, with
the angle `a + w * ft` (or `a` when `w` is 0). -/
theorem UpdateSelf_exact {G : Glm} {i : Nat} {t : ℚ} {n : Node} {v p q : Vec3}
    {a w b : ℚ}
    (hn : n.m_vVelocity = v ∧ n.GetPos = p ∧ n.m_fRotationAngle = a ∧ n.m_fRotationSpeed = w)
    (sx : IsF32 (v.x * t)) (sy : IsF32 (v.y * t)) (sz : IsF32 (v.z * t))
    (qx : IsF32 q.x) (qy : IsF32 q.y) (qz : IsF32 q.z)
    (ex : p.x + v.x * t = q.x) (ey : p.y + v.y * t = q.y) (ez : p.z + v.z * t = q.z)
    (hang : (w = 0 ∧ b = a) ∨
      (w ≠ 0 ∧ IsF32 (w * t) ∧ IsF32 b ∧ a + w * t = b ∧
        -G.two_pi ≤ b ∧ b ≤ G.two_pi)) :
    ∃ n2, n.UpdateSelf G (i + 1) t = some n2 ∧
      (n2.m_vVelocity = v ∧ n2.GetPos = q ∧ n2.m_fRotationAngle = b ∧
        n2.m_fRotationSpeed = w) := by
  obtain ⟨hv, hp, ha, hw⟩ := hn
  subst hv hp ha hw
  have E := @UpdateSelf_eval G (i + 1) t n _ _ _ q.x q.y q.z sx sy sz
    (f32op_of_eq qx ex) (f32op_of_eq qy ey) (f32op_of_eq qz ez)
  rcases hang with ⟨h0, e⟩ | ⟨h0, i1, i2, e, hlo, hhi⟩
  · refine ⟨_, E.1 h0, rfl, SetPos_GetPos _ _, ?_, rfl⟩
    rw [e]
    rfl
  · have A : advanceAngle G.two_pi (i + 1) n.m_fRotationAngle n.m_fRotationSpeed t
        = some b :=
      advanceAngle_eval i1 (f32op_of_eq i2 e) hlo hhi
    exact ⟨_, E.2 b h0 A, rfl, SetPos_GetPos _ _, rfl, rfl⟩

/-! ## Lemmas: the sample scene under updates -/

theorem samplePos_0 : ({ Node.create "root" with
    m_arrNodes := [1, 4], m_vVelocity := ⟨1, 0, 0⟩ } : Node).GetPos = ⟨0, 0, 0⟩ := by
  simp [Node.GetPos, Node.create, identity_entry_3_0, identity_entry_3_1, identity_entry_3_2]

theorem samplePos_1 : ({ Node.create "arm" with
    m_pParent := some 0, m_arrNodes := [2], m_vVelocity := ⟨0, 2, 0⟩,
    m_fRotationAngle := 1 / 2, m_fRotationSpeed := 1 } : Node).GetPos = ⟨0, 0, 0⟩ := by
  simp [Node.GetPos, Node.create, identity_entry_3_0, identity_entry_3_1, identity_entry_3_2]

theorem samplePos_2 : ({ Node.create "hand" with
    m_pParent := some 1, m_arrNodes := [3],
    m_mModel := ⟨fun c r => if c = 3 then (if r = 3 then 1 else 5) else if c = r then 2 else 0⟩ }
      : Node).GetPos = ⟨5, 5, 5⟩ := by
  simp [Node.GetPos]

theorem samplePos_3 : ({ Node.create "x" with
    m_pParent := some 2, m_vVelocity := ⟨0, 0, 3⟩ } : Node).GetPos = ⟨0, 0, 0⟩ := by
  simp [Node.GetPos, Node.create, identity_entry_3_0, identity_entry_3_1, identity_entry_3_2]

theorem samplePos_4 : ({ Node.create "x" with
    m_pParent := some 0, m_fRotationSpeed := -4 } : Node).GetPos = ⟨0, 0, 0⟩ := by
  simp [Node.GetPos, Node.create, identity_entry_3_0, identity_entry_3_1, identity_entry_3_2]

/-- On every node of the sample scene two own updates by a frame time of 1/4 return: every
operation involved is exact. -/
theorem sampleHeap_two_steps (rot : Mat4 → ℚ → Vec3 → Mat4) (nrm : Vec3 → Vec3) :
    ∀ M ∈ [0, 1, 2, 3, 4], ∀ m, sampleHeap[M]? = some m →
      ∃ m2, Node.UpdateSelfN (glmWith rot nrm) 1 (1 / 4) 2 m = some m2 := by
  intro M hM m hm
  simp only [List.mem_cons, List.mem_singleton, List.not_mem_nil, or_false] at hM
  rcases hM with e | e | e | e | e <;> subst e <;>
    simp only [sampleHeap, List.getElem?_cons_zero, List.getElem?_cons_succ,
      Option.some.injEq] at hm <;> subst hm
  · -- node 0
    have h0 := samplePos_0
    obtain ⟨n1, hn1, sn1⟩ := UpdateSelf_exact (G := glmWith rot nrm) (i := 0)
      (t := (1 / 4)) (n := _) (v := ⟨1, 0, 0⟩) (p := ⟨0, 0, 0⟩) (q := ⟨(1 / 4), 0, 0⟩)
      (a := 0) (w := 0) (b := 0) ⟨rfl, h0, rfl, rfl⟩
      (isF32_quarter.of_eq (by norm_num))
      (IsF32.zero.of_eq (by norm_num))
      (IsF32.zero.of_eq (by norm_num))
      (isF32_quarter.of_eq (by norm_num))
      (IsF32.zero.of_eq (by norm_num))
      (IsF32.zero.of_eq (by norm_num))
      (by norm_num)
      (by norm_num)
      (by norm_num)
      (Or.inl ⟨rfl, rfl⟩)
    obtain ⟨n2, hn2, sn2⟩ := UpdateSelf_exact (G := glmWith rot nrm) (i := 0)
      (t := (1 / 4)) (n := n1) (v := ⟨1, 0, 0⟩) (p := ⟨(1 / 4), 0, 0⟩) (q := ⟨(1 / 2), 0, 0⟩)
      (a := 0) (w := 0) (b := 0) sn1
      (isF32_quarter.of_eq (by norm_num))
      (IsF32.zero.of_eq (by norm_num))
      (IsF32.zero.of_eq (by norm_num))
      (isF32_half.of_eq (by norm_num))
      (IsF32.zero.of_eq (by norm_num))
      (IsF32.zero.of_eq (by norm_num))
      (by norm_num)
      (by norm_num)
      (by norm_num)
      (Or.inl ⟨rfl, rfl⟩)
    exact ⟨n2, by simp only [Node.UpdateSelfN, hn1, hn2, Option.some_bind]⟩
  · -- node 1
    have h0 := samplePos_1
    obtain ⟨n1, hn1, sn1⟩ := UpdateSelf_exact (G := glmWith rot nrm) (i := 0)
      (t := (1 / 4)) (n := _) (v := ⟨0, 2, 0⟩) (p := ⟨0, 0, 0⟩) (q := ⟨0, (1 / 2), 0⟩)
      (a := (1 / 2)) (w := 1) (b := (3 / 4)) ⟨rfl, h0, rfl, rfl⟩
      (IsF32.zero.of_eq (by norm_num))
      (isF32_half.of_eq (by norm_num))
      (IsF32.zero.of_eq (by norm_num))
      (IsF32.zero.of_eq (by norm_num))
      (isF32_half.of_eq (by norm_num))
      (IsF32.zero.of_eq (by norm_num))
      (by norm_num)
      (by norm_num)
      (by norm_num)
      (Or.inr ⟨by norm_num, isF32_quarter.of_eq (by norm_num), isF32_three_quarters, by norm_num,
        by norm_num [glmWith, twoPiF], by norm_num [glmWith, twoPiF]⟩)
    obtain ⟨n2, hn2, sn2⟩ := UpdateSelf_exact (G := glmWith rot nrm) (i := 0)
      (t := (1 / 4)) (n := n1) (v := ⟨0, 2, 0⟩) (p := ⟨0, (1 / 2), 0⟩) (q := ⟨0, 1, 0⟩)
      (a := (3 / 4)) (w := 1) (b := 1) sn1
      (IsF32.zero.of_eq (by norm_num))
      (isF32_half.of_eq (by norm_num))
      (IsF32.zero.of_eq (by norm_num))
      (IsF32.zero.of_eq (by norm_num))
      (isF32_one.of_eq (by norm_num))
      (IsF32.zero.of_eq (by norm_num))
      (by norm_num)
      (by norm_num)
      (by norm_num)
      (Or.inr ⟨by norm_num, isF32_quarter.of_eq (by norm_num), isF32_one, by norm_num,
        by norm_num [glmWith, twoPiF], by norm_num [glmWith, twoPiF]⟩)
    exact ⟨n2, by simp only [Node.UpdateSelfN, hn1, hn2, Option.some_bind]⟩
  · -- node 2
    have h0 := samplePos_2
    obtain ⟨n1, hn1, sn1⟩ := UpdateSelf_exact (G := glmWith rot nrm) (i := 0)
      (t := (1 / 4)) (n := _) (v := ⟨0, 0, 0⟩) (p := ⟨5, 5, 5⟩) (q := ⟨5, 5, 5⟩)
      (a := 0) (w := 0) (b := 0) ⟨rfl, h0, rfl, rfl⟩
      (IsF32.zero.of_eq (by norm_num))
      (IsF32.zero.of_eq (by norm_num))
      (IsF32.zero.of_eq (by norm_num))
      (isF32_five.of_eq (by norm_num))
      (isF32_five.of_eq (by norm_num))
      (isF32_five.of_eq (by norm_num))
      (by norm_num)
      (by norm_num)
      (by norm_num)
      (Or.inl ⟨rfl, rfl⟩)
    obtain ⟨n2, hn2, sn2⟩ := UpdateSelf_exact (G := glmWith rot nrm) (i := 0)
      (t := (1 / 4)) (n := n1) (v := ⟨0, 0, 0⟩) (p := ⟨5, 5, 5⟩) (q := ⟨5, 5, 5⟩)
      (a := 0) (w := 0) (b := 0) sn1
      (IsF32.zero.of_eq (by norm_num))
      (IsF32.zero.of_eq (by norm_num))
      (IsF32.zero.of_eq (by norm_num))
      (isF32_five.of_eq (by norm_num))
      (isF32_five.of_eq (by norm_num))
      (isF32_five.of_eq (by norm_num))
      (by norm_num)
      (by norm_num)
      (by norm_num)
      (Or.inl ⟨rfl, rfl⟩)
    exact ⟨n2, by simp only [Node.UpdateSelfN, hn1, hn2, Option.some_bind]⟩
  · -- node 3
    have h0 := samplePos_3
    obtain ⟨n1, hn1, sn1⟩ := UpdateSelf_exact (G := glmWith rot nrm) (i := 0)
      (t := (1 / 4)) (n := _) (v := ⟨0, 0, 3⟩) (p := ⟨0, 0, 0⟩) (q := ⟨0, 0, (3 / 4)⟩)
      (a := 0) (w := 0) (b := 0) ⟨rfl, h0, rfl, rfl⟩
      (IsF32.zero.of_eq (by norm_num))
      (IsF32.zero.of_eq (by norm_num))
      (isF32_three_quarters.of_eq (by norm_num))
      (IsF32.zero.of_eq (by norm_num))
      (IsF32.zero.of_eq (by norm_num))
      (isF32_three_quarters.of_eq (by norm_num))
      (by norm_num)
      (by norm_num)
      (by norm_num)
      (Or.inl ⟨rfl, rfl⟩)
    obtain ⟨n2, hn2, sn2⟩ := UpdateSelf_exact (G := glmWith rot nrm) (i := 0)
      (t := (1 / 4)) (n := n1) (v := ⟨0, 0, 3⟩) (p := ⟨0, 0, (3 / 4)⟩) (q := ⟨0, 0, (3 / 2)⟩)
      (a := 0) (w := 0) (b := 0) sn1
      (IsF32.zero.of_eq (by norm_num))
      (IsF32.zero.of_eq (by norm_num))
      (isF32_three_quarters.of_eq (by norm_num))
      (IsF32.zero.of_eq (by norm_num))
      (IsF32.zero.of_eq (by norm_num))
      (isF32_three_halves.of_eq (by norm_num))
      (by norm_num)
      (by norm_num)
      (by norm_num)
      (Or.inl ⟨rfl, rfl⟩)
    exact ⟨n2, by simp only [Node.UpdateSelfN, hn1, hn2, Option.some_bind]⟩
  · -- node 4
    have h0 := samplePos_4
    obtain ⟨n1, hn1, sn1⟩ := UpdateSelf_exact (G := glmWith rot nrm) (i := 0)
      (t := (1 / 4)) (n := _) (v := ⟨0, 0, 0⟩) (p := ⟨0, 0, 0⟩) (q := ⟨0, 0, 0⟩)
      (a := 0) (w := (-4)) (b := (-1)) ⟨rfl, h0, rfl, rfl⟩
      (IsF32.zero.of_eq (by norm_num))
      (IsF32.zero.of_eq (by norm_num))
      (IsF32.zero.of_eq (by norm_num))
      (IsF32.zero.of_eq (by norm_num))
      (IsF32.zero.of_eq (by norm_num))
      (IsF32.zero.of_eq (by norm_num))
      (by norm_num)
      (by norm_num)
      (by norm_num)
      (Or.inr ⟨by norm_num, isF32_neg_one.of_eq (by norm_num), isF32_neg_one, by norm_num,
        by norm_num [glmWith, twoPiF], by norm_num [glmWith, twoPiF]⟩)
    obtain ⟨n2, hn2, sn2⟩ := UpdateSelf_exact (G := glmWith rot nrm) (i := 0)
      (t := (1 / 4)) (n := n1) (v := ⟨0, 0, 0⟩) (p := ⟨0, 0, 0⟩) (q := ⟨0, 0, 0⟩)
      (a := (-1)) (w := (-4)) (b := (-2)) sn1
      (IsF32.zero.of_eq (by norm_num))
      (IsF32.zero.of_eq (by norm_num))
      (IsF32.zero.of_eq (by norm_num))
      (IsF32.zero.of_eq (by norm_num))
      (IsF32.zero.of_eq (by norm_num))
      (IsF32.zero.of_eq (by norm_num))
      (by norm_num)
      (by norm_num)
      (by norm_num)
      (Or.inr ⟨by norm_num, isF32_neg_one.of_eq (by norm_num), isF32_neg_two, by norm_num,
        by norm_num [glmWith, twoPiF], by norm_num [glmWith, twoPiF]⟩)
    exact ⟨n2, by simp only [Node.UpdateSelfN, hn1, hn2, Option.some_bind]⟩

theorem sampleHeap_quarter_step (rot : Mat4 → ℚ → Vec3 → Mat4) (nrm : Vec3 → Vec3) :
    ∀ M ∈ [0, 1, 2, 3, 4], ∀ m, sampleHeap[M]? = some m →
      ∃ m2, m.UpdateSelf (glmWith rot nrm) 1 (1 / 4) = some m2 := by
  intro M hM m hm
  obtain ⟨m2, e⟩ := sampleHeap_two_steps rot nrm M hM m hm
  obtain ⟨m1, e1, _⟩ := UpdateSelfN_succ e
  exact ⟨m1, e1⟩

/-- On a finite tree, `k` calls of `Update` return when `k` own updates in a row return on
every node of the subtree. -/
theorem UpdateN_returns {G : Glm} {lf fuel : Nat} {dt : ℚ} {N : Ptr} {l : List Ptr} :
    ∀ (k : Nat) {h : Heap}, IsTree fuel h N l →
      (∀ M ∈ l, ∀ m, h[M]? = some m → ∃ m2, Node.UpdateSelfN G lf dt k m = some m2) →
      ∃ h2, UpdateN G lf fuel dt N k h = some h2 := by
  intro k
  induction k with
  | zero => intro h _ _; exact ⟨h, rfl⟩
  | succ k ih =>
    intro h htree hdef
    have hdef1 : ∀ M ∈ l, ∀ m, h[M]? = some m → ∃ m1, m.UpdateSelf G lf dt = some m1 := by
      intro M hM m hm
      obtain ⟨m2, e⟩ := hdef M hM m hm
      obtain ⟨m1, e1, _⟩ := UpdateSelfN_succ e
      exact ⟨m1, e1⟩
    obtain ⟨h1, hU1⟩ := (Update_spec G lf dt fuel h N l htree.1 htree.2).2 hdef1
    obtain ⟨h2, hU2⟩ := ih (Update_keeps_tree htree hU1) (fun M hM m1 hm1 => by
      obtain ⟨m, m1', hm, hs, hg⟩ := Update_at htree hU1 hM
      rw [hg] at hm1
      have e0 : m1 = m1' := (Option.some.inj hm1).symm
      subst e0
      obtain ⟨m2, e⟩ := hdef M hM m hm
      obtain ⟨m1'', e1, e2⟩ := UpdateSelfN_succ e
      rw [hs] at e1
      have e3 : m1'' = m1 := (Option.some.inj e1).symm
      subst e3
      exact ⟨m2, e2⟩)
    refine ⟨h2, ?_⟩
    simp only [UpdateN, hU1, Option.some_bind]
    exact hU2

/-- The subtracting loop ends on every angle of at most `2^27`: there each rounded
subtraction lowers the angle by at least 2. -/
theorem wrapAboveF32_ends (pi2 : ℚ) (h6 : 6 < pi2) :
    ∀ (fuel : Nat) (a : ℚ), a ≤ 134217728 → a ≤ pi2 + 2 * fuel →
      ∃ r, wrapAboveF32 pi2 (fuel + 1) a = some r := by
  intro fuel
  induction fuel with
  | zero =>
    intro a _ h
    exact ⟨a, wrapAboveF32_of_le pi2 a 0 (by simpa using h)⟩
  | succ fuel ih =>
    intro a ha h
    by_cases hle : a ≤ pi2
    · exact ⟨a, wrapAboveF32_of_le pi2 a _ hle⟩
    · have hgt : a > pi2 := not_le.1 hle
      have hb : |a - pi2| < (2 : ℚ) ^ ((26 : ℤ) + 1) := by
        rw [abs_of_pos (by linarith)]
        norm_num
        linarith
      have he := abs_le.1 (f32round_err_lt (a - pi2) 26 hb)
      norm_num at he
      push_cast at h
      obtain ⟨r, hr⟩ := ih (f32round (a - pi2)) (by linarith) (by linarith)
      refine ⟨r, ?_⟩
      rw [wrapAboveF32, if_pos hgt]
      exact hr

/-- The adding loop ends on every angle of at least `-2^27`. -/
theorem wrapBelowF32_ends (pi2 : ℚ) (h6 : 6 < pi2) :
    ∀ (fuel : Nat) (a : ℚ), -134217728 ≤ a → -(pi2 + 2 * fuel) ≤ a →
      ∃ r, wrapBelowF32 pi2 (fuel + 1) a = some r := by
  intro fuel
  induction fuel with
  | zero =>
    intro a _ h
    exact ⟨a, wrapBelowF32_of_ge pi2 a 0 (by simpa using h)⟩
  | succ fuel ih =>
    intro a ha h
    by_cases hge : -pi2 ≤ a
    · exact ⟨a, wrapBelowF32_of_ge pi2 a _ hge⟩
    · have hlt : a < -pi2 := not_le.1 hge
      have hb : |a + pi2| < (2 : ℚ) ^ ((26 : ℤ) + 1) := by
        rw [abs_of_neg (by linarith)]
        norm_num
        linarith
      have he := abs_le.1 (f32round_err_lt (a + pi2) 26 hb)
      norm_num at he
      push_cast at h
      obtain ⟨r, hr⟩ := ih (f32round (a + pi2)) (by linarith) (by linarith)
      refine ⟨r, ?_⟩
      rw [wrapBelowF32, if_pos hlt]
      exact hr

/-- Both loops end within `2^26 + 1` iterations on every angle of at most `2^27` in
magnitude (the constant `two_pi` of binary32 lies above 6). -/
theorem wrap_loops_end (pi2 : ℚ) (h6 : 6 < pi2) (a : ℚ) (ha : |a| ≤ 134217728) :
    ∃ r1 r2, wrapAboveF32 pi2 67108865 a = some r1 ∧ wrapBelowF32 pi2 67108865 r1 = some r2 := by
  obtain ⟨hlo, hhi⟩ := abs_le.1 ha
  obtain ⟨r1, h1⟩ := wrapAboveF32_ends pi2 h6 67108864 a hhi (by push_cast; linarith)
  obtain ⟨hr1, hc⟩ := wrapAboveF32_spec pi2 _ a r1 h1
  have hr1lo : -134217728 ≤ r1 := by
    rcases hc with ⟨_, e⟩ | ⟨_, h0⟩
    · rw [e]; exact hlo
    · linarith
  obtain ⟨r2, h2⟩ := wrapBelowF32_ends pi2 h6 67108864 r1 hr1lo (by
    push_cast
    linarith)
  exact ⟨r1, r2, h1, h2⟩

/-- A heap of one node without children: `Update` on it is the node's own update. -/
theorem Update_single {G : Glm} {lf : Nat} {dt : ℚ} {n n2 : Node} (hk : n.m_arrNodes = [])
    (hs : n.UpdateSelf G lf dt = some n2) : Update G lf 1 dt [n] 0 = some [n2] := by
  simp [Update, hs, hk]

theorem isF32_thirdF : IsF32 thirdF :=
  isF32_of _ 11184811 (-25) (by unfold thirdF; norm_num) (by norm_num) (by norm_num)
    (by norm_num) (by norm_num)

/-- In binary32 the product of 3 and the binary32 value nearest to one third is exactly 1:
the exact product `1 + 2^-25` is rounded. -/
theorem f32round_three_thirds : f32round (3 * thirdF) = 1 := by
  have hpos : (0 : ℚ) < 3 * thirdF := by unfold thirdF; norm_num
  have hlog : Int.log 2 |(3 * thirdF : ℚ)| = 0 := by
    rw [abs_of_pos hpos]
    exact intLog_two_eq _ 0 hpos (by unfold thirdF; norm_num) (by unfold thirdF; norm_num)
  unfold f32round
  rw [if_neg (ne_of_gt hpos), hlog]
  have hq : (2 : ℚ) ^ ((0 : ℤ) - 23) = 1 / 8388608 := by norm_num
  rw [hq]
  have hfl : ⌊(3 * thirdF : ℚ) / (1 / 8388608)⌋ = 8388608 := by
    rw [Int.floor_eq_iff]; unfold thirdF; constructor <;> norm_num
  unfold roundHalfEven
  rw [hfl]
  unfold thirdF
  norm_num

theorem f32op_three_thirds : f32op (3 * thirdF) = some 1 := by
  have hpos : (0 : ℚ) < 3 * thirdF := by unfold thirdF; norm_num
  unfold f32op
  rw [f32round_three_thirds, if_pos]
  right
  rw [abs_of_pos hpos]
  unfold thirdF
  norm_num

/-- The own update returns, with a loop bound of `2^26 + 1` iterations, when its position
operations stay in the normal range and either the angular speed is 0 or the angle
operations stay in the normal range and the advanced angle is at most `2^27` in
magnitude. -/
theorem UpdateSelf_returns {G : Glm} {ft : ℚ} {n : Node} (h6 : 6 < G.two_pi)
    (hs : ∃ step pos, n.m_vVelocity.scaleF32 ft = some step ∧ n.GetPos.addF32 step = some pos)
    (ha : n.m_fRotationSpeed = 0 ∨ ∃ st ad, f32op (n.m_fRotationSpeed * ft) = some st ∧
      f32op (n.m_fRotationAngle + st) = some ad ∧ |ad| ≤ 134217728) :
    ∃ n2, n.UpdateSelf G 67108865 ft = some n2 := by
  obtain ⟨step, pos, h1, h2⟩ := hs
  unfold Node.UpdateSelf
  rw [h1]
  simp only [h2]
  by_cases h0 : n.m_fRotationSpeed = 0
  · rw [if_neg (not_not.2 h0)]
    exact ⟨_, rfl⟩
  · rw [if_pos h0]
    rcases ha with e | ⟨st, ad, a1, a2, hb⟩
    · exact absurd e h0
    · obtain ⟨r1, r2, w1, w2⟩ := wrap_loops_end G.two_pi h6 ad hb
      rw [advanceAngle_of a1 a2 w1 w2]
      exact ⟨_, rfl⟩

theorem isF32_two_pow_28 : IsF32 268435456 :=
  isF32_of _ 8388608 5 (by norm_num) (by norm_num) (by norm_num) (by norm_num)
    (by norm_num)

/-- The subtracting loop started at `2^28` has not ended after any number of iterations. -/
theorem wrapAboveF32_stalls : ∀ fuel : Nat, wrapAboveF32 twoPiF fuel 268435456 = none := by
  intro fuel
  induction fuel with
  | zero => rfl
  | succ fuel ih =>
    rw [wrapAboveF32, if_pos (by unfold twoPiF; norm_num), f32round_absorbs_two_pi]
    exact ih

/-- After `Node n; n.SetRotationAngle(268435456); n.SetRotationSpeed(1);` the call
`n.Update(0)` does not return, whatever the bounds on the recursion and on the loops are:
the subtracting loop never ends. -/
theorem Update_stalls (rot : Mat4 → ℚ → Vec3 → Mat4) (nrm : Vec3 → Vec3) (lf fuel : Nat) :
    Update (glmWith rot nrm) lf fuel 0 (hugeAngleHeap (glmWith rot nrm)) 0 = none := by
  cases h : Update (glmWith rot nrm) lf fuel 0 (hugeAngleHeap (glmWith rot nrm)) 0 with
  | none => rfl
  | some h2 =>
    exfalso
    have htree : IsTree fuel (hugeAngleHeap (glmWith rot nrm)) 0 [0] := by
      cases fuel with
      | zero => simp [Update] at h
      | succ f =>
        constructor
        · simp [subtree, subtreeList, hugeAngleHeap, Node.SetRotationSpeed,
            Node.SetRotationAngle, Node.RotateAxisAngle, Node.SetPos, Node.create]
        · simp
    obtain ⟨m, m2, hm, hs, _⟩ := Update_at htree h (List.mem_singleton.2 rfl)
    have e : m = ((Node.create "").SetRotationAngle (glmWith rot nrm) 268435456).SetRotationSpeed
        1 := by
      simp only [hugeAngleHeap, List.getElem?_cons_zero, Option.some.injEq] at hm
      exact hm.symm
    subst e
    have hne : (((Node.create "").SetRotationAngle (glmWith rot nrm)
        268435456).SetRotationSpeed 1).m_fRotationSpeed ≠ 0 := by
      simp [Node.SetRotationSpeed]
    obtain ⟨step, advanced, a, h1, h2', h3, _⟩ :=
      advanceAngle_spec _ (glmWith rot nrm).two_pi_pos lf _ _ _ _ (UpdateSelf_of_ne hs hne).1
    have e1 : step = 0 := by rw [f32op_eq_some h1, mul_zero, f32round_zero]
    have e2 : advanced = 268435456 := by
      rw [f32op_eq_some h2', e1, add_zero]
      exact isF32_two_pow_28.round_eq
    rw [e2] at h3
    have hp : (glmWith rot nrm).two_pi = twoPiF := rfl
    rw [hp, wrapAboveF32_stalls] at h3
    exact Option.noConfusion h3

/-! ## The claims about `Update` -/

/-- C4: on a finite tree rooted at `N`, whenever `Update(dt)` returns, every node of the
subtree, at any depth and whatever its angular speed, has its position moved by its own
velocity times `dt`: in every coordinate the product of velocity and `dt` is rounded to
binary32, added to the old coordinate, and the sum is rounded again.  `Update(dt)` does
return when the own update of every node of the subtree returns (no operation leaves the
normal range and the wrapping loops end). -/
theorem C4_Update_moves_every_node (G : Glm) (lf fuel : Nat) (dt : ℚ) (h : Heap) (N : Ptr)
    (l : List Ptr) (htree : IsTree fuel h N l) :
    (∀ h2, Update G lf fuel dt h N = some h2 →
      ∀ M ∈ l, ∃ m m2, h[M]? = some m ∧ h2[M]? = some m2 ∧
        m2.GetPos.x = f32round (m.GetPos.x + f32round (m.m_vVelocity.x * dt)) ∧
        m2.GetPos.y = f32round (m.GetPos.y + f32round (m.m_vVelocity.y * dt)) ∧
        m2.GetPos.z = f32round (m.GetPos.z + f32round (m.m_vVelocity.z * dt))) ∧
    ((∀ M ∈ l, ∀ m, h[M]? = some m → ∃ m2, m.UpdateSelf G lf dt = some m2) →
      ∃ h2, Update G lf fuel dt h N = some h2) := by
  refine ⟨fun h2 hU M hM => ?_, (Update_spec G lf dt fuel h N l htree.1 htree.2).2⟩
  obtain ⟨m, m2, hm, hs, hm2⟩ := Update_at htree hU hM
  exact ⟨m, m2, hm, hm2, UpdateSelf_GetPos hs⟩

/-- Witness of C4 on the sample scene, with a frame time of 1/4. -/
theorem C4_witness :
    ∃ h2, Update turnGlm 1 4 (1 / 4) sampleHeap 0 = some h2 ∧
      ∀ M ∈ [0, 1, 2, 3, 4], ∃ m m2, sampleHeap[M]? = some m ∧ h2[M]? = some m2 ∧
        m2.GetPos.x = f32round (m.GetPos.x + f32round (m.m_vVelocity.x * (1 / 4))) ∧
        m2.GetPos.y = f32round (m.GetPos.y + f32round (m.m_vVelocity.y * (1 / 4))) ∧
        m2.GetPos.z = f32round (m.GetPos.z + f32round (m.m_vVelocity.z * (1 / 4))) := by
  have T := C4_Update_moves_every_node turnGlm 1 4 (1 / 4) sampleHeap 0 [0, 1, 2, 3, 4]
    (by decide)
  obtain ⟨h2, hU⟩ := T.2 (sampleHeap_quarter_step sampleRotate (fun v => v))
  exact ⟨h2, hU, T.1 h2 hU⟩

/-- C6, counterexample: after `Node n; n.SetRotationSpeed(3);` one `Update(dt)` with `dt`
the binary32 value nearest to one third leaves the angle exactly 1, while
`a0 + k * w * dt` is `1 + 2^-25`: the two differ by `2^-25`, which is no whole number of
turns of `two_pi`. -/
theorem C6_counterexample :
    (IsTree 1 tripleSpinHeap 0 [0] ∧ IsF32 thirdF ∧
      ∃ n, tripleSpinHeap[0]? = some n ∧ n.m_fRotationAngle = 0 ∧
        n.m_fRotationSpeed = 3) ∧
    ∀ (rot : Mat4 → ℚ → Vec3 → Mat4) (nrm : Vec3 → Vec3),
      ∃ h2 m2, UpdateN (glmWith rot nrm) 1 1 thirdF 0 1 tripleSpinHeap = some h2 ∧
        h2[0]? = some m2 ∧ m2.m_fRotationAngle = 1 ∧
        ¬ ∃ z : ℤ, m2.m_fRotationAngle
          = 0 + (1 : ℕ) * 3 * thirdF + z * (glmWith rot nrm).two_pi := by
  refine ⟨⟨by decide, isF32_thirdF, (Node.create "").SetRotationSpeed 3, rfl, rfl, rfl⟩, ?_⟩
  intro rot nrm
  have hpos : ((Node.create "").SetRotationSpeed 3).GetPos = ⟨0, 0, 0⟩ := by
    simp [Node.GetPos, Node.SetRotationSpeed, Node.create, identity_entry_3_0,
      identity_entry_3_1, identity_entry_3_2]
  have hadv : advanceAngle (glmWith rot nrm).two_pi 1 0 3 thirdF = some 1 :=
    advanceAngle_eval f32op_three_thirds (f32op_of_eq isF32_one (by norm_num))
      (by norm_num [glmWith, twoPiF]) (by norm_num [glmWith, twoPiF])
  have E := @UpdateSelf_eval (glmWith rot nrm) 1 thirdF
    ((Node.create "").SetRotationSpeed 3) 0 0 0 0 0 0
    (f32op_of_eq IsF32.zero (by simp [Node.SetRotationSpeed, Node.create]))
    (f32op_of_eq IsF32.zero (by simp [Node.SetRotationSpeed, Node.create]))
    (f32op_of_eq IsF32.zero (by simp [Node.SetRotationSpeed, Node.create]))
    (f32op_of_eq IsF32.zero (by rw [hpos]; norm_num))
    (f32op_of_eq IsF32.zero (by rw [hpos]; norm_num))
    (f32op_of_eq IsF32.zero (by rw [hpos]; norm_num))
  obtain ⟨n2, hs, hang⟩ : ∃ n2,
      ((Node.create "").SetRotationSpeed 3).UpdateSelf (glmWith rot nrm) 1 thirdF = some n2 ∧
      n2.m_fRotationAngle = 1 :=
    ⟨_, E.2 1 (by simp [Node.SetRotationSpeed]) hadv, rfl⟩
  have hU : Update (glmWith rot nrm) 1 1 thirdF tripleSpinHeap 0 = some [n2] :=
    Update_single rfl hs
  refine ⟨[n2], n2, ?_, rfl, hang, ?_⟩
  · simp only [UpdateN, hU, Option.some_bind]
  · rintro ⟨z, hz⟩
    have hp : (glmWith rot nrm).two_pi = twoPiF := rfl
    rw [hang, hp] at hz
    unfold thirdF twoPiF at hz
    have h1 : (z : ℚ) * 210828720 = -1 := by
      push_cast at hz
      linarith
    have h2 : z * 210828720 = -1 := by exact_mod_cast h1
    omega

/-- C6, as amended: on a finite tree, take a node whose angle `a0` lies in the closed
interval `[-two_pi, two_pi]` and whose advance per call `w * dt` is at most 8 in magnitude
(`w` its angular speed; `two_pi` between 6 and 8, as the binary32 constant is).  After `k`
returning calls of `Update(dt)` its angle differs from `a0 + k * w * dt` by a whole number
of turns of `two_pi` up to a rounding error of at most `k * 2^-18`.  The `k` calls do
return when `k` own updates in a row return on every node of the subtree. -/
theorem C6_angle_congruent_up_to_rounding (G : Glm) (lf fuel : Nat) (dt : ℚ) (h : Heap)
    (N : Ptr) (l : List Ptr) (htree : IsTree fuel h N l) (k : Nat) (M : Ptr) (hM : M ∈ l)
    (m : Node) (hm : h[M]? = some m) (h6 : 6 < G.two_pi) (h8 : G.two_pi ≤ 8)
    (ha : |m.m_fRotationAngle| ≤ G.two_pi) (hw : |m.m_fRotationSpeed * dt| ≤ 8) :
    (∀ h2, UpdateN G lf fuel dt N k h = some h2 →
      ∃ m2, h2[M]? = some m2 ∧
        ∃ z : ℤ, |m2.m_fRotationAngle
            - (m.m_fRotationAngle + k * m.m_fRotationSpeed * dt + z * G.two_pi)|
          ≤ k * (2 : ℚ) ^ (-18 : ℤ)) ∧
    ((∀ M ∈ l, ∀ m, h[M]? = some m → ∃ m2, Node.UpdateSelfN G lf dt k m = some m2) →
      ∃ h2, UpdateN G lf fuel dt N k h = some h2) := by
  refine ⟨fun h2 hU => ?_, UpdateN_returns k htree⟩
  obtain ⟨m', m2, hm', hs, hm2⟩ := UpdateN_at k htree hU hM
  rw [hm] at hm'
  have e : m' = m := (Option.some.inj hm').symm
  subst e
  exact ⟨m2, hm2, UpdateSelfN_angle_err h6 h8 k hs ha hw⟩

/-- Witness of the amended C6: the node `x` of angular speed -4 of the sample scene, two
updates by 1/4. -/
theorem C6_witness :
    ∃ h2 m2, UpdateN turnGlm 1 4 (1 / 4) 0 2 sampleHeap = some h2 ∧ h2[4]? = some m2 ∧
      ∃ z : ℤ, |m2.m_fRotationAngle
          - ((sampleHeap[4]).m_fRotationAngle
            + (2 : ℕ) * (sampleHeap[4]).m_fRotationSpeed * (1 / 4) + z * turnGlm.two_pi)|
        ≤ (2 : ℕ) * (2 : ℚ) ^ (-18 : ℤ) := by
  have T := C6_angle_congruent_up_to_rounding turnGlm 1 4 (1 / 4) sampleHeap 0
    [0, 1, 2, 3, 4] (by decide) 2 4 (by decide) (sampleHeap[4]) rfl
    (by norm_num [turnGlm, glmWith, twoPiF]) (by norm_num [turnGlm, glmWith, twoPiF])
    (by norm_num [sampleHeap, turnGlm, glmWith, twoPiF, Node.create])
    (by norm_num [sampleHeap, Node.create])
  obtain ⟨h2, hU⟩ := T.2 (sampleHeap_two_steps sampleRotate (fun v => v))
  obtain ⟨m2, hm2⟩ := T.1 h2 hU
  exact ⟨h2, m2, hU, hm2⟩

/-- C8: on a finite tree, a node of the subtree whose angular speed is exactly 0 keeps,
across every returning `Update(dt)`, the thirteen entries of its local matrix other than
`m[3][0]`, `m[3][1]`, `m[3][2]`, and its rotation angle; the three translation entries
become the old position plus velocity times `dt`, computed in binary32.  The own update of
such a node runs no wrapping loop (it does not depend on the loop bound), and `Update(dt)`
returns when the own update of every node of the subtree returns. -/
theorem C8_zero_speed_keeps_matrix (G : Glm) (lf fuel : Nat) (dt : ℚ) (h : Heap) (N : Ptr)
    (l : List Ptr) (htree : IsTree fuel h N l) (M : Ptr) (hM : M ∈ l) (m : Node)
    (hm : h[M]? = some m) (hspeed : m.m_fRotationSpeed = 0) :
    (∀ h2, Update G lf fuel dt h N = some h2 →
      ∃ m2, h2[M]? = some m2 ∧
        (∀ c r : Fin 4, ¬ (c = 3 ∧ r ≠ 3) → m2.m_mModel.entry c r = m.m_mModel.entry c r) ∧
        m2.m_mModel.entry 3 0
          = f32round (m.m_mModel.entry 3 0 + f32round (m.m_vVelocity.x * dt)) ∧
        m2.m_mModel.entry 3 1
          = f32round (m.m_mModel.entry 3 1 + f32round (m.m_vVelocity.y * dt)) ∧
        m2.m_mModel.entry 3 2
          = f32round (m.m_mModel.entry 3 2 + f32round (m.m_vVelocity.z * dt)) ∧
        m2.m_fRotationAngle = m.m_fRotationAngle) ∧
    (∀ lf2 : Nat, m.UpdateSelf G lf2 dt = m.UpdateSelf G lf dt) ∧
    ((∀ M ∈ l, ∀ m, h[M]? = some m → ∃ m2, m.UpdateSelf G lf dt = some m2) →
      ∃ h2, Update G lf fuel dt h N = some h2) := by
  refine ⟨fun h2 hU => ?_, fun lf2 => ?_,
    (Update_spec G lf dt fuel h N l htree.1 htree.2).2⟩
  · obtain ⟨m', m2, hm', hs, hm2⟩ := Update_at htree hU hM
    rw [hm] at hm'
    have e : m' = m := (Option.some.inj hm').symm
    subst e
    obtain ⟨hx, hy, hz⟩ := UpdateSelf_GetPos hs
    obtain ⟨ha, he⟩ := UpdateSelf_of_zero hs hspeed
    exact ⟨m2, hm2, he, hx, hy, hz, ha⟩
  · unfold Node.UpdateSelf
    simp [hspeed]

/-- Witness of C8: the node `hand` of the sample scene, whose matrix has a scale. -/
theorem C8_witness :
    ∃ h2 m2, Update turnGlm 1 4 (1 / 4) sampleHeap 0 = some h2 ∧ h2[2]? = some m2 ∧
      (∀ c r : Fin 4, ¬ (c = 3 ∧ r ≠ 3) →
        m2.m_mModel.entry c r = (sampleHeap[2]).m_mModel.entry c r) ∧
      m2.m_mModel.entry 3 0 = f32round ((sampleHeap[2]).m_mModel.entry 3 0
        + f32round ((sampleHeap[2]).m_vVelocity.x * (1 / 4))) ∧
      m2.m_mModel.entry 3 1 = f32round ((sampleHeap[2]).m_mModel.entry 3 1
        + f32round ((sampleHeap[2]).m_vVelocity.y * (1 / 4))) ∧
      m2.m_mModel.entry 3 2 = f32round ((sampleHeap[2]).m_mModel.entry 3 2
        + f32round ((sampleHeap[2]).m_vVelocity.z * (1 / 4))) ∧
      m2.m_fRotationAngle = (sampleHeap[2]).m_fRotationAngle := by
  have T := C8_zero_speed_keeps_matrix turnGlm 1 4 (1 / 4) sampleHeap 0 [0, 1, 2, 3, 4]
    (by decide) 2 (by decide) (sampleHeap[2]) rfl rfl
  obtain ⟨h2, hU⟩ := T.2.2 (sampleHeap_quarter_step sampleRotate (fun v => v))
  obtain ⟨m2, hm2⟩ := T.1 h2 hU
  exact ⟨h2, m2, hU, hm2⟩

/-- C9: on a finite tree, a node of the subtree whose angular speed is not 0 has, after
every returning `Update(dt)`, the local matrix `rotate(identity, a, axis)` built from the
angle `a` it held before the call and its stored axis, except for the three translation
entries, which are the old position plus velocity times `dt`, computed in binary32;
nothing else of the old matrix enters the result.  Its angle is then the rounded sum of
`a` and the rounded product of speed and `dt`, passed through the subtracting loop and
then the adding loop, and it lies in the closed interval `[-two_pi, two_pi]`.
`Update(dt)` returns when the own update of every node of the subtree returns. -/
theorem C9_nonzero_speed_rebuilds_matrix (G : Glm) (lf fuel : Nat) (dt : ℚ) (h : Heap)
    (N : Ptr) (l : List Ptr) (htree : IsTree fuel h N l) (M : Ptr) (hM : M ∈ l) (m : Node)
    (hm : h[M]? = some m) (hspeed : m.m_fRotationSpeed ≠ 0) :
    (∀ h2, Update G lf fuel dt h N = some h2 →
      ∃ m2, h2[M]? = some m2 ∧
        (∀ c r : Fin 4, ¬ (c = 3 ∧ r ≠ 3) → m2.m_mModel.entry c r
          = (G.rotate Mat4.identity m.m_fRotationAngle m.m_vRotationAxis).entry c r) ∧
        m2.m_mModel.entry 3 0
          = f32round (m.m_mModel.entry 3 0 + f32round (m.m_vVelocity.x * dt)) ∧
        m2.m_mModel.entry 3 1
          = f32round (m.m_mModel.entry 3 1 + f32round (m.m_vVelocity.y * dt)) ∧
        m2.m_mModel.entry 3 2
          = f32round (m.m_mModel.entry 3 2 + f32round (m.m_vVelocity.z * dt)) ∧
        (∃ a, wrapAboveF32 G.two_pi lf
              (f32round (m.m_fRotationAngle + f32round (m.m_fRotationSpeed * dt))) = some a ∧
            wrapBelowF32 G.two_pi lf a = some m2.m_fRotationAngle) ∧
        -G.two_pi ≤ m2.m_fRotationAngle ∧ m2.m_fRotationAngle ≤ G.two_pi) ∧
    ((∀ M ∈ l, ∀ m, h[M]? = some m → ∃ m2, m.UpdateSelf G lf dt = some m2) →
      ∃ h2, Update G lf fuel dt h N = some h2) := by
  refine ⟨fun h2 hU => ?_, (Update_spec G lf dt fuel h N l htree.1 htree.2).2⟩
  obtain ⟨m', m2, hm', hs, hm2⟩ := Update_at htree hU hM
  rw [hm] at hm'
  have e : m' = m := (Option.some.inj hm').symm
  subst e
  obtain ⟨hx, hy, hz⟩ := UpdateSelf_GetPos hs
  obtain ⟨ha, he⟩ := UpdateSelf_of_ne hs hspeed
  obtain ⟨step, advanced, a, h1, h2', h3, h4, hlo, hhi, _⟩ :=
    advanceAngle_spec G.two_pi G.two_pi_pos lf _ _ _ _ ha
  refine ⟨m2, hm2, he, hx, hy, hz, ⟨a, ?_, h4⟩, hlo, hhi⟩
  rw [← f32op_eq_some h1, ← f32op_eq_some h2']
  exact h3

/-- Witness of C9: the node `arm` of the sample scene, of angular speed 1, with a `rotate`
that depends on the angle and on the axis. -/
theorem C9_witness :
    ∃ h2 m2, Update turnGlm 1 4 (1 / 4) sampleHeap 0 = some h2 ∧ h2[1]? = some m2 ∧
      (∀ c r : Fin 4, ¬ (c = 3 ∧ r ≠ 3) → m2.m_mModel.entry c r
        = (turnGlm.rotate Mat4.identity (sampleHeap[1]).m_fRotationAngle
            (sampleHeap[1]).m_vRotationAxis).entry c r) ∧
      m2.m_mModel.entry 3 0 = f32round ((sampleHeap[1]).m_mModel.entry 3 0
        + f32round ((sampleHeap[1]).m_vVelocity.x * (1 / 4))) ∧
      m2.m_mModel.entry 3 1 = f32round ((sampleHeap[1]).m_mModel.entry 3 1
        + f32round ((sampleHeap[1]).m_vVelocity.y * (1 / 4))) ∧
      m2.m_mModel.entry 3 2 = f32round ((sampleHeap[1]).m_mModel.entry 3 2
        + f32round ((sampleHeap[1]).m_vVelocity.z * (1 / 4))) ∧
      (∃ a, wrapAboveF32 turnGlm.two_pi 1
            (f32round ((sampleHeap[1]).m_fRotationAngle
              + f32round ((sampleHeap[1]).m_fRotationSpeed * (1 / 4)))) = some a ∧
          wrapBelowF32 turnGlm.two_pi 1 a = some m2.m_fRotationAngle) ∧
      -turnGlm.two_pi ≤ m2.m_fRotationAngle ∧ m2.m_fRotationAngle ≤ turnGlm.two_pi := by
  have T := C9_nonzero_speed_rebuilds_matrix turnGlm 1 4 (1 / 4) sampleHeap 0
    [0, 1, 2, 3, 4] (by decide) 1 (by decide) (sampleHeap[1]) rfl (by simp [sampleHeap])
  obtain ⟨h2, hU⟩ := T.2 (sampleHeap_quarter_step sampleRotate (fun v => v))
  obtain ⟨m2, hm2⟩ := T.1 h2 hU
  exact ⟨h2, m2, hU, hm2⟩

/-- C21: on a finite tree, after every returning `Update` on the root every node of the
subtree has the name, parent, children (the same list), velocity, rotation axis, angular
speed and radius it had before; every node outside the subtree is exactly as before, and
the heap holds the same number of nodes.  `Update` returns when the own update of every
node of the subtree returns. -/
theorem C21_Update_changes_only_matrix_and_angle (G : Glm) (lf fuel : Nat) (dt : ℚ)
    (h : Heap) (N : Ptr) (l : List Ptr) (htree : IsTree fuel h N l) :
    (∀ h2, Update G lf fuel dt h N = some h2 →
      h2.length = h.length ∧
      (∀ M ∈ l, ∃ m m2, h[M]? = some m ∧ h2[M]? = some m2 ∧
        m2.m_strName = m.m_strName ∧ m2.m_pParent = m.m_pParent ∧
        m2.m_arrNodes = m.m_arrNodes ∧ m2.m_arrNodes.length = m.m_arrNodes.length ∧
        m2.m_vVelocity = m.m_vVelocity ∧ m2.m_vRotationAxis = m.m_vRotationAxis ∧
        m2.m_fRotationSpeed = m.m_fRotationSpeed ∧ m2.m_fRadius = m.m_fRadius) ∧
      (∀ q : Ptr, q ∉ l → h2[q]? = h[q]?)) ∧
    ((∀ M ∈ l, ∀ m, h[M]? = some m → ∃ m2, m.UpdateSelf G lf dt = some m2) →
      ∃ h2, Update G lf fuel dt h N = some h2) := by
  refine ⟨fun h2 hU => ?_, (Update_spec G lf dt fuel h N l htree.1 htree.2).2⟩
  have u := (Update_spec G lf dt fuel h N l htree.1 htree.2).1 h2 hU
  refine ⟨u.length, fun M hM => ?_, fun q hq => (u q).2 hq⟩
  obtain ⟨m, m2, hm, hs, hm2⟩ := (u M).1 hM
  obtain ⟨f1, f2, f3, f4, f5, f6, f7⟩ := UpdateSelf_frame hs
  exact ⟨m, m2, hm, hm2, f1, f2, f3, by rw [f3], f4, f5, f6, f7⟩

/-- Witness of C21: `Update` on the node `arm` of the sample scene; the root and the
second `x` lie outside its subtree. -/
theorem C21_witness :
    ∃ h2, Update turnGlm 1 3 (1 / 4) sampleHeap 1 = some h2 ∧
      h2.length = sampleHeap.length ∧
      (∀ M ∈ [1, 2, 3], ∃ m m2, sampleHeap[M]? = some m ∧ h2[M]? = some m2 ∧
        m2.m_strName = m.m_strName ∧ m2.m_pParent = m.m_pParent ∧
        m2.m_arrNodes = m.m_arrNodes ∧ m2.m_arrNodes.length = m.m_arrNodes.length ∧
        m2.m_vVelocity = m.m_vVelocity ∧ m2.m_vRotationAxis = m.m_vRotationAxis ∧
        m2.m_fRotationSpeed = m.m_fRotationSpeed ∧ m2.m_fRadius = m.m_fRadius) ∧
      (∀ q : Ptr, q ∉ [1, 2, 3] → h2[q]? = sampleHeap[q]?) := by
  have T := C21_Update_changes_only_matrix_and_angle turnGlm 1 3 (1 / 4) sampleHeap 1
    [1, 2, 3] (by decide)
  obtain ⟨h2, hU⟩ := T.2 (fun M hM m hm =>
    sampleHeap_quarter_step sampleRotate (fun v => v) M (by
      simp only [List.mem_cons, List.mem_singleton, List.not_mem_nil, or_false] at hM
      rcases hM with e | e | e <;> subst e <;> decide) m hm)
  exact ⟨h2, hU, T.1 h2 hU⟩

end CoreEngine
